import Mathlib

/-!
Verification of the van Emde Boas tree implementation in
`src/van_emde_boas.py` (class `VanEmdeBoasTree`).

The Python class is shallowly embedded as a Lean inductive type
`VanEmdeBoasTree`: each Python object becomes a value
`VanEmdeBoasTree.mk valueRange min max summary cluster` where

* `valueRange : Nat` is the `self.valueRange` field,
* `min max : Option Nat` are the `self.min` / `self.max` fields
  (Python `None` is `Option.none`),
* `summary : Option VanEmdeBoasTree` is `self.summary`,
* `cluster : List (Nat × VanEmdeBoasTree)` models the Python dict
  `self.cluster`, as an insertion-ordered association list.

Python creates the `summary`, `cluster`, `lsbSize`, `lsqrt`, `hsqrt`,
`lsbMask` attributes only when `valueRange > 2`; the model always carries
`summary`/`cluster` fields (the code never reads them on a node with
`valueRange ≤ 2` along any path reachable from well-formed states), and
the derived bit-width attributes are recomputed from `valueRange`
(`valueRange = 2 ^ bitSize` always holds for constructed nodes, so
`bitSize = floorLog2 valueRange` exactly reproduces the stored values).

The mutating Python methods become pure state transformers.  Recursion is
implemented with an explicit fuel argument (structural recursion on the
fuel) and the public operations pass `valueRange` as fuel, which is shown
to be sufficient on well-formed trees (`*_fuel` lemmas below): the fuel
never runs out, so the fuel-0 fallback values are never produced.

Branches on which the Python code would raise an exception (for example
comparing `None < int`, or indexing a missing dict key) are unreachable
from well-formed states; on those branches the model returns an arbitrary
fixed value, noted by an `unreachable` comment at each site.
-/

namespace VebSpec

/-- Floor of `log2`, by structural recursion on a fuel bound (so that the
kernel can evaluate it); `floorLog2` below instantiates the fuel. -/
def log2F : Nat → Nat → Nat
  | 0, _ => 0
  | f + 1, n => if n < 2 then 0 else log2F f (n / 2) + 1

/-- `floor(log2 n)` (0 for `n = 0`), kernel-evaluable. -/
def floorLog2 (n : Nat) : Nat := log2F n n

/-- Ceiling of `log2`, by structural recursion on a fuel bound. -/
def clog2F : Nat → Nat → Nat
  | 0, _ => 0
  | f + 1, n => if n ≤ 1 then 0 else clog2F f ((n + 1) / 2) + 1

/-- `ceil(log2 n)` (0 for `n ≤ 1`), kernel-evaluable. -/
def ceilLog2 (n : Nat) : Nat := clog2F n n

/-- Model of a Python dict lookup `d.get(i, None)` over an
insertion-ordered association list. -/
def getEntry {α : Type} : List (Nat × α) → Nat → Option α
  | [], _ => none
  | (j, c) :: rest, i => if j = i then some c else getEntry rest i

/-- Model of a Python dict assignment `d[i] = c`: replace the value in
place if the key is present, otherwise append the new binding (Python
dicts preserve insertion order). -/
def setEntry {α : Type} : List (Nat × α) → Nat → α → List (Nat × α)
  | [], i, c => [(i, c)]
  | (j, d) :: rest, i, c =>
      if j = i then (i, c) :: rest else (j, d) :: setEntry rest i c

/-- Model of Python `del d[i]`. -/
def delEntry {α : Type} : List (Nat × α) → Nat → List (Nat × α)
  | [], _ => []
  | (j, d) :: rest, i => if j = i then rest else (j, d) :: delEntry rest i

/-- State of a `VanEmdeBoasTree` object (see module docstring). -/
inductive VanEmdeBoasTree : Type where
  | mk (valueRange : Nat) (min max : Option Nat)
       (summary : Option VanEmdeBoasTree)
       (cluster : List (Nat × VanEmdeBoasTree)) : VanEmdeBoasTree

namespace VanEmdeBoasTree

/-- Field `self.valueRange`. -/
def valueRange : VanEmdeBoasTree → Nat
  | .mk r _ _ _ _ => r

/-- Field `self.min`. -/
def min : VanEmdeBoasTree → Option Nat
  | .mk _ mno _ _ _ => mno

/-- Field `self.max`. -/
def max : VanEmdeBoasTree → Option Nat
  | .mk _ _ mxo _ _ => mxo

/-- Field `self.summary`. -/
def summary : VanEmdeBoasTree → Option VanEmdeBoasTree
  | .mk _ _ _ sm _ => sm

/-- Field `self.cluster`. -/
def cluster : VanEmdeBoasTree → List (Nat × VanEmdeBoasTree)
  | .mk _ _ _ _ cl => cl

/-- The `bitSize` used at construction: `valueRange = 2 ^ bitSize` for
every constructed node, so it equals `Nat.log2 valueRange`. -/
def bitSize (t : VanEmdeBoasTree) : Nat := floorLog2 t.valueRange

/-- Field `self.lsbSize = floor(bitSize / 2)`. -/
def lsbSize (t : VanEmdeBoasTree) : Nat := t.bitSize / 2

/-- Field `self.lsqrt = 1 << lsbSize`. -/
def lsqrt (t : VanEmdeBoasTree) : Nat := 1 <<< t.lsbSize

/-- Field `self.hsqrt = 1 << ceil(bitSize / 2)`. -/
def hsqrt (t : VanEmdeBoasTree) : Nat := 1 <<< ((t.bitSize + 1) / 2)

/-- Field `self.lsbMask = lsqrt - 1`. -/
def lsbMask (t : VanEmdeBoasTree) : Nat := t.lsqrt - 1

/-- Method `clusterIndex`: `x >> lsbSize`. -/
def clusterIndex (t : VanEmdeBoasTree) (x : Nat) : Nat := x >>> t.lsbSize

/-- Method `valueIndex`: `x & lsbMask`. -/
def valueIndex (t : VanEmdeBoasTree) (x : Nat) : Nat := x &&& t.lsbMask

/-- Method `value`: `(clusterIndex << lsbSize) + valueIndex`. -/
def value (t : VanEmdeBoasTree) (ci vi : Nat) : Nat :=
  (ci <<< t.lsbSize) + vi

/-- Method `__init__`: an empty tree for the requested range.
`bitSize = ceil(log(valueRange, 2))` is modelled exactly as `ceilLog2`
(shown below to agree with `Nat.clog 2`; CPython computes it through
floating point, and the exact ceiling is what the code intends and
produces for all moderate inputs).
Python only creates the `summary`/`cluster` attributes when the rounded
range exceeds 2; the model uniformly stores `none` / `[]`. -/
def init (valueRange : Nat) : VanEmdeBoasTree :=
  .mk (1 <<< ceilLog2 valueRange) none none none []

end VanEmdeBoasTree

open VanEmdeBoasTree

/-- Method `contains`, with explicit fuel (see module docstring). -/
def containsF : Nat → VanEmdeBoasTree → Nat → Bool
  | 0, _, _ => false
  | fuel + 1, t, x =>
    match t with
    | .mk r mno mxo _sm cl =>
      if mno = some x ∨ mxo = some x then true
      else
        match mno, mxo with
        | none, _ => false
        | some _, none => false    -- unreachable: min set but max unset
        | some mn, some mx =>
          if x < mn ∨ mx < x ∨ r = 2 then false
          else
            match getEntry cl (t.clusterIndex x) with
            | none => false
            | some c => containsF fuel c (t.valueIndex x)

/-- Method `contains`. -/
def VanEmdeBoasTree.contains (t : VanEmdeBoasTree) (x : Nat) : Bool :=
  containsF t.valueRange t x

/-- Method `predecessor`, with explicit fuel. -/
def predecessorF : Nat → VanEmdeBoasTree → Nat → Option Nat
  | 0, _, _ => none
  | fuel + 1, t, x =>
    match t with
    | .mk r mno mxo sm cl =>
      if r = 2 then
        if x = 1 ∧ mno = some 0 then some 0 else none
      else
        let ci := t.clusterIndex x
        let idx := t.valueIndex x
        -- `return self.min if (self.min != None and x > self.min) else None`
        let fromMin : Option Nat :=
          match mno with
          | some mn => if mn < x then some mn else none
          | none => none
        -- the summary-directed jump, else the final `min` fallback
        let fromSummary : Option Nat :=
          match sm with
          | some s =>
            match predecessorF fuel s ci with
            | some pci =>
              match getEntry cl pci with
              | some c2 =>
                match c2.max with
                | some cmx => some (t.value pci cmx)
                | none => none     -- unreachable: nonempty cluster, max unset
              | none => none       -- unreachable: summary key without cluster
            | none => fromMin
          | none => fromMin
        match mxo with
        | some mx =>
          if mx < x then some mx
          else
            match getEntry cl ci with
            | some c =>
              match c.min with
              | some cmn =>
                if cmn < idx then
                  match predecessorF fuel c idx with
                  | some p => some (t.value ci p)
                  | none => none   -- unreachable: cluster has a value below idx
                else fromSummary
              | none => fromSummary  -- unreachable: empty cluster in the dict
            | none => fromSummary
        | none =>
          -- empty tree: the `x > self.max` test is skipped
          match getEntry cl ci with
          | some c =>
            match c.min with
            | some cmn =>
              if cmn < idx then
                match predecessorF fuel c idx with
                | some p => some (t.value ci p)
                | none => none     -- unreachable
              else fromSummary
            | none => fromSummary  -- unreachable
          | none => fromSummary

/-- Method `predecessor`. -/
def VanEmdeBoasTree.predecessor (t : VanEmdeBoasTree) (x : Nat) : Option Nat :=
  predecessorF t.valueRange t x

/-- Method `successor`, with explicit fuel. -/
def successorF : Nat → VanEmdeBoasTree → Nat → Option Nat
  | 0, _, _ => none
  | fuel + 1, t, x =>
    match t with
    | .mk r mno mxo sm cl =>
      if r = 2 then
        if x = 0 ∧ mxo = some 1 then some 1 else none
      else
        let ci := t.clusterIndex x
        let idx := t.valueIndex x
        -- `return self.max if (self.max != None and x < self.max) else None`
        let fromMax : Option Nat :=
          match mxo with
          | some mx => if x < mx then some mx else none
          | none => none
        let fromSummary : Option Nat :=
          match sm with
          | some s =>
            match successorF fuel s ci with
            | some sci =>
              match getEntry cl sci with
              | some c2 =>
                match c2.min with
                | some cmn => some (t.value sci cmn)
                | none => none     -- unreachable
              | none => none       -- unreachable
            | none => fromMax
          | none => fromMax
        match mno with
        | some mn =>
          if x < mn then some mn
          else
            match getEntry cl ci with
            | some c =>
              match c.max with
              | some cmx =>
                if idx < cmx then
                  match successorF fuel c idx with
                  | some p => some (t.value ci p)
                  | none => none   -- unreachable
                else fromSummary
              | none => fromSummary  -- unreachable
            | none => fromSummary
        | none =>
          match getEntry cl ci with
          | some c =>
            match c.max with
            | some cmx =>
              if idx < cmx then
                match successorF fuel c idx with
                | some p => some (t.value ci p)
                | none => none     -- unreachable
              else fromSummary
            | none => fromSummary  -- unreachable
          | none => fromSummary

/-- Method `successor`. -/
def VanEmdeBoasTree.successor (t : VanEmdeBoasTree) (x : Nat) : Option Nat :=
  successorF t.valueRange t x

/-- Method `insert`, with explicit fuel. -/
def insertF : Nat → VanEmdeBoasTree → Nat → VanEmdeBoasTree
  | 0, t, _ => t
  | fuel + 1, t, x =>
    match t with
    | .mk r mno mxo sm cl =>
      if mno = some x ∨ mxo = some x then t
      else
        match mno, mxo with
        | none, _ => .mk r (some x) (some x) sm cl
        | some _, none => t        -- unreachable: min set but max unset
        | some mn, some mx =>
          if mn = mx then
            if x < mn then .mk r (some x) mxo sm cl
            else if mx < x then .mk r mno (some x) sm cl
            else t                 -- unreachable: x = mn = mx was caught above
          else if r = 2 then t
          else
            -- `if x < self.min: self.min, x = x, self.min`
            -- `elif x > self.max: self.max, x = x, self.max`
            let mn2 := if x < mn then x else mn
            let mx2 := if ¬ x < mn ∧ mx < x then x else mx
            let x2 := if x < mn then mn else if mx < x then mx else x
            let ci := t.clusterIndex x2
            let idx := t.valueIndex x2
            match getEntry cl ci with
            | some c =>
                .mk r (some mn2) (some mx2) sm
                  (setEntry cl ci (insertF fuel c idx))
            | none =>
                let s0 := match sm with
                  | some s => s
                  | none => VanEmdeBoasTree.init t.hsqrt
                .mk r (some mn2) (some mx2) (some (insertF fuel s0 ci))
                  (setEntry cl ci (insertF fuel (VanEmdeBoasTree.init t.lsqrt) idx))

/-- Method `insert`. -/
def VanEmdeBoasTree.insert (t : VanEmdeBoasTree) (x : Nat) : VanEmdeBoasTree :=
  insertF t.valueRange t x

/-- Method `delete`, with explicit fuel.  The three Python branches either
return early (`Sum.inl` carries the final state) or fall through to the
shared tail (`Sum.inr` carries the target cluster index, the index to
delete inside it, that cluster, and the updated `min`/`max` fields). -/
def deleteF : Nat → VanEmdeBoasTree → Nat → VanEmdeBoasTree
  | 0, t, _ => t
  | fuel + 1, t, x =>
    match t with
    | .mk r mno mxo sm cl =>
      match mno, mxo with
      | none, _ => t
      | some _, none => t          -- unreachable: min set but max unset
      | some mn, some mx =>
        if x < mn ∨ mx < x then t
        else if mn = mx then .mk r none none sm cl
        else if r = 2 then
          if x = 0 then .mk r (some 1) mxo sm cl else .mk r mno (some 0) sm cl
        else
          let branch :
              VanEmdeBoasTree ⊕
                (Nat × Nat × VanEmdeBoasTree × Option Nat × Option Nat) :=
            if x = mn then
              match sm with
              | none => Sum.inl (.mk r mxo mxo sm cl)    -- `self.min = self.max`
              | some s =>
                match s.min with
                | none => Sum.inl t      -- unreachable: live summary is empty
                | some sci =>
                  match getEntry cl sci with
                  | none => Sum.inl t    -- unreachable: summary key without cluster
                  | some c =>
                    match c.min with
                    | none => Sum.inl t  -- unreachable: empty cluster in the dict
                    | some cidx =>
                      Sum.inr (sci, cidx, c, some (t.value sci cidx), mxo)
            else if x = mx then
              match sm with
              | none => Sum.inl (.mk r mno mno sm cl)    -- `self.max = self.min`
              | some s =>
                match s.max with
                | none => Sum.inl t      -- unreachable
                | some sci =>
                  match getEntry cl sci with
                  | none => Sum.inl t    -- unreachable
                  | some c =>
                    match c.max with
                    | none => Sum.inl t  -- unreachable
                    | some cidx =>
                      Sum.inr (sci, cidx, c, mno, some (t.value sci cidx))
            else
              match getEntry cl (t.clusterIndex x) with
              | none => Sum.inl t
              | some c => Sum.inr (t.clusterIndex x, t.valueIndex x, c, mno, mxo)
          match branch with
          | Sum.inl t2 => t2
          | Sum.inr (ci, idx, c, mno2, mxo2) =>
            let c2 := deleteF fuel c idx
            if c2.min = none then
              let cl2 := delEntry cl ci
              match sm with
              | some s =>
                let s2 := deleteF fuel s ci
                if s2.min = none then .mk r mno2 mxo2 none cl2
                else .mk r mno2 mxo2 (some s2) cl2
              | none => .mk r mno2 mxo2 none cl2   -- unreachable: no summary
            else .mk r mno2 mxo2 sm (setEntry cl ci c2)

/-- Method `delete`. -/
def VanEmdeBoasTree.delete (t : VanEmdeBoasTree) (x : Nat) : VanEmdeBoasTree :=
  deleteF t.valueRange t x

/-- Method `__iter__`: walk upward from a start value by `successor`.
The fuel bounds the number of produced elements (they strictly increase
and stay below `valueRange`, so `valueRange` is enough fuel). -/
def iterFrom : Nat → VanEmdeBoasTree → Option Nat → List Nat
  | _, _, none => []
  | 0, _, some _ => []
  | fuel + 1, t, some v => v :: iterFrom fuel t (t.successor v)

/-- Method `__iter__` collected into a list: start at `min`, repeatedly
apply `successor` until `None`. -/
def VanEmdeBoasTree.iter (t : VanEmdeBoasTree) : List Nat :=
  iterFrom t.valueRange t t.min

/-- A single client operation. -/
inductive Op : Type where
  | ins (x : Nat)
  | del (x : Nat)

/-- The integer argument of an operation. -/
def Op.arg : Op → Nat
  | .ins x => x
  | .del x => x

/-- Apply one operation to a tree. -/
def applyOp (t : VanEmdeBoasTree) : Op → VanEmdeBoasTree
  | .ins x => t.insert x
  | .del x => t.delete x

/-- Apply a sequence of operations, left to right. -/
def applyOps (t : VanEmdeBoasTree) (ops : List Op) : VanEmdeBoasTree :=
  ops.foldl applyOp t

/-- Specification-side net membership of `x` after a history of
operations: `x` was inserted at some point and not deleted since its most
recent insertion. -/
def netMem (ops : List Op) (x : Nat) : Bool :=
  ops.foldl
    (fun b op =>
      match op with
      | .ins y => if y = x then true else b
      | .del y => if y = x then false else b)
    false

/-- A state reachable from a freshly constructed tree by a sequence of
in-range operations. -/
def Reachable (R : Nat) (t : VanEmdeBoasTree) : Prop :=
  ∃ ops : List Op,
    (∀ op ∈ ops, op.arg < (VanEmdeBoasTree.init R).valueRange) ∧
    t = applyOps (VanEmdeBoasTree.init R) ops

/-! ### Bridge lemmas for the kernel-evaluable logarithms -/

theorem log2F_eq : ∀ f n, n ≤ f → log2F f n = Nat.log 2 n := by
  intro f
  induction f with
  | zero =>
    intro n hn
    have h0 : n = 0 := by omega
    subst h0
    exact (Nat.log_of_lt (by norm_num)).symm
  | succ f ih =>
    intro n hn
    have hunf : log2F (f + 1) n = if n < 2 then 0 else log2F f (n / 2) + 1 := rfl
    by_cases h : n < 2
    · rw [hunf, if_pos h, Nat.log_of_lt h]
    · have h2 : 2 ≤ n := by omega
      have hrec : Nat.log 2 n = Nat.log 2 (n / 2) + 1 :=
        Nat.log_of_one_lt_of_le (by norm_num) h2
      have hle : n / 2 ≤ f := by omega
      rw [hunf, if_neg h, ih (n / 2) hle, ← hrec]

theorem floorLog2_eq (n : Nat) : floorLog2 n = Nat.log 2 n :=
  log2F_eq n n le_rfl

theorem clog2F_eq : ∀ f n, n ≤ f → clog2F f n = Nat.clog 2 n := by
  intro f
  induction f with
  | zero =>
    intro n hn
    have h0 : n = 0 := by omega
    subst h0
    exact (Nat.clog_of_right_le_one (by norm_num) 2).symm
  | succ f ih =>
    intro n hn
    have hunf : clog2F (f + 1) n = if n ≤ 1 then 0 else clog2F f ((n + 1) / 2) + 1 := rfl
    by_cases h : n ≤ 1
    · rw [hunf, if_pos h, Nat.clog_of_right_le_one h]
    · have h2 : 2 ≤ n := by omega
      have hrec : Nat.clog 2 n = Nat.clog 2 ((n + 1) / 2) + 1 := by
        have hx := Nat.clog_of_two_le (b := 2) (n := n) (by norm_num) h2
        have harg : (n + 2 - 1) / 2 = (n + 1) / 2 := by omega
        rw [hx, harg]
      have hle : (n + 1) / 2 ≤ f := by omega
      rw [hunf, if_neg h, ih _ hle, ← hrec]

theorem ceilLog2_eq (n : Nat) : ceilLog2 n = Nat.clog 2 n :=
  clog2F_eq n n le_rfl

theorem floorLog2_two_pow (k : Nat) : floorLog2 (2 ^ k) = k := by
  rw [floorLog2_eq]
  exact Nat.log_pow (by norm_num) k

theorem ceilLog2_two_pow (k : Nat) : ceilLog2 (2 ^ k) = k := by
  rw [ceilLog2_eq]
  exact Nat.clog_pow 2 k (by norm_num)

/-! ### Arithmetic of the universe split

For a node over universe `2 ^ k` the low half has `k / 2` bits and the
high half `(k + 1) / 2` bits. -/

theorem low_add_high (k : Nat) : k / 2 + (k + 1) / 2 = k := by omega

theorem two_pow_low_mul_high (k : Nat) :
    2 ^ (k / 2) * 2 ^ ((k + 1) / 2) = 2 ^ k := by
  rw [← pow_add, low_add_high]

theorem value_div {e i j : Nat} (hj : j < 2 ^ e) :
    (i * 2 ^ e + j) / 2 ^ e = i := by
  rw [mul_comm, Nat.mul_add_div (Nat.two_pow_pos e), Nat.div_eq_of_lt hj,
    Nat.add_zero]

theorem value_mod {e i j : Nat} (hj : j < 2 ^ e) :
    (i * 2 ^ e + j) % 2 ^ e = j := by
  rw [mul_comm, Nat.mul_add_mod, Nat.mod_eq_of_lt hj]

theorem div_mod_recompose (e x : Nat) : x / 2 ^ e * 2 ^ e + x % 2 ^ e = x := by
  rw [mul_comm]
  exact Nat.div_add_mod x (2 ^ e)

theorem value_lt_two_pow {e h i j : Nat} (hi : i < 2 ^ h) (hj : j < 2 ^ e) :
    i * 2 ^ e + j < 2 ^ (e + h) := by
  calc i * 2 ^ e + j < (i + 1) * 2 ^ e := by
        rw [add_mul, one_mul]
        omega
    _ ≤ 2 ^ h * 2 ^ e := Nat.mul_le_mul_right _ (by omega)
    _ = 2 ^ (e + h) := by rw [← pow_add, Nat.add_comm]

theorem value_lt_of_lt (e i j i2 j2 : Nat) (hj : j < 2 ^ e) (h : i < i2) :
    i * 2 ^ e + j < i2 * 2 ^ e + j2 := by
  have hm : (i + 1) * 2 ^ e ≤ i2 * 2 ^ e := Nat.mul_le_mul_right _ h
  rw [add_mul, one_mul] at hm
  omega

theorem value_lt_value_iff {e i j i2 j2 : Nat}
    (hj : j < 2 ^ e) (hj2 : j2 < 2 ^ e) :
    i * 2 ^ e + j < i2 * 2 ^ e + j2 ↔ i < i2 ∨ (i = i2 ∧ j < j2) := by
  constructor
  · intro h
    rcases Nat.lt_trichotomy i i2 with hc | hc | hc
    · exact Or.inl hc
    · subst hc
      right
      exact ⟨rfl, by omega⟩
    · exact absurd (value_lt_of_lt e i2 j2 i j hj2 hc) (by omega)
  · rintro (hc | ⟨rfl, hc⟩)
    · exact value_lt_of_lt e i j i2 j2 hj hc
    · omega

theorem value_inj {e i j i2 j2 : Nat}
    (hj : j < 2 ^ e) (hj2 : j2 < 2 ^ e) :
    i * 2 ^ e + j = i2 * 2 ^ e + j2 ↔ i = i2 ∧ j = j2 := by
  constructor
  · intro h
    have hi : i = i2 := by
      have hd := congrArg (fun z => z / 2 ^ e) h
      simpa [value_div hj, value_div hj2] using hd
    have hjj : j = j2 := by
      have hd := congrArg (fun z => z % 2 ^ e) h
      simpa [value_mod hj, value_mod hj2] using hd
    exact ⟨hi, hjj⟩
  · rintro ⟨rfl, rfl⟩
    rfl

/-! ### Derived-field computations on a node of universe `2 ^ k` -/

theorem bitSize_mk (k : Nat) (mno mxo : Option Nat)
    (sm : Option VanEmdeBoasTree) (cl : List (Nat × VanEmdeBoasTree)) :
    (VanEmdeBoasTree.mk (2 ^ k) mno mxo sm cl).bitSize = k := by
  simp [VanEmdeBoasTree.bitSize, VanEmdeBoasTree.valueRange, floorLog2_two_pow]

theorem lsbSize_mk (k : Nat) (mno mxo : Option Nat)
    (sm : Option VanEmdeBoasTree) (cl : List (Nat × VanEmdeBoasTree)) :
    (VanEmdeBoasTree.mk (2 ^ k) mno mxo sm cl).lsbSize = k / 2 := by
  simp [VanEmdeBoasTree.lsbSize, bitSize_mk]

theorem lsqrt_mk (k : Nat) (mno mxo : Option Nat)
    (sm : Option VanEmdeBoasTree) (cl : List (Nat × VanEmdeBoasTree)) :
    (VanEmdeBoasTree.mk (2 ^ k) mno mxo sm cl).lsqrt = 2 ^ (k / 2) := by
  simp [VanEmdeBoasTree.lsqrt, lsbSize_mk, Nat.shiftLeft_eq]

theorem hsqrt_mk (k : Nat) (mno mxo : Option Nat)
    (sm : Option VanEmdeBoasTree) (cl : List (Nat × VanEmdeBoasTree)) :
    (VanEmdeBoasTree.mk (2 ^ k) mno mxo sm cl).hsqrt = 2 ^ ((k + 1) / 2) := by
  simp [VanEmdeBoasTree.hsqrt, bitSize_mk, Nat.shiftLeft_eq]

theorem clusterIndex_mk (k : Nat) (mno mxo : Option Nat)
    (sm : Option VanEmdeBoasTree) (cl : List (Nat × VanEmdeBoasTree)) (x : Nat) :
    (VanEmdeBoasTree.mk (2 ^ k) mno mxo sm cl).clusterIndex x = x / 2 ^ (k / 2) := by
  simp [VanEmdeBoasTree.clusterIndex, lsbSize_mk, Nat.shiftRight_eq_div_pow]

theorem valueIndex_mk (k : Nat) (mno mxo : Option Nat)
    (sm : Option VanEmdeBoasTree) (cl : List (Nat × VanEmdeBoasTree)) (x : Nat) :
    (VanEmdeBoasTree.mk (2 ^ k) mno mxo sm cl).valueIndex x = x % 2 ^ (k / 2) := by
  show x &&& ((VanEmdeBoasTree.mk (2 ^ k) mno mxo sm cl).lsqrt - 1) = x % 2 ^ (k / 2)
  rw [lsqrt_mk]
  exact Nat.and_pow_two_sub_one_eq_mod x (k / 2)

theorem value_mk (k : Nat) (mno mxo : Option Nat)
    (sm : Option VanEmdeBoasTree) (cl : List (Nat × VanEmdeBoasTree)) (ci vi : Nat) :
    (VanEmdeBoasTree.mk (2 ^ k) mno mxo sm cl).value ci vi = ci * 2 ^ (k / 2) + vi := by
  simp [VanEmdeBoasTree.value, lsbSize_mk, Nat.shiftLeft_eq]

/-! ### The stored-set abstraction and the structural invariant -/

/-- The set of values represented by a tree at recursion level `k`
(`valueRange = 2 ^ k`): the cached `min`, the cached `max`, and all
values recomposed from the cluster children. -/
inductive Stores : Nat → VanEmdeBoasTree → Nat → Prop where
  | viaMin (k r mn : Nat) (mxo : Option Nat) (sm : Option VanEmdeBoasTree)
      (cl : List (Nat × VanEmdeBoasTree)) :
      Stores k (.mk r (some mn) mxo sm cl) mn
  | viaMax (k r : Nat) (mno : Option Nat) (mx : Nat) (sm : Option VanEmdeBoasTree)
      (cl : List (Nat × VanEmdeBoasTree)) :
      Stores k (.mk r mno (some mx) sm cl) mx
  | viaCluster (k r : Nat) (mno mxo : Option Nat) (sm : Option VanEmdeBoasTree)
      (cl : List (Nat × VanEmdeBoasTree)) (i : Nat) (c : VanEmdeBoasTree) (j : Nat) :
      (i, c) ∈ cl → Stores (k / 2) c j →
      Stores k (.mk r mno mxo sm cl) (i * 2 ^ (k / 2) + j)

theorem stores_iff {k r : Nat} {mno mxo : Option Nat}
    {sm : Option VanEmdeBoasTree} {cl : List (Nat × VanEmdeBoasTree)} {y : Nat} :
    Stores k (.mk r mno mxo sm cl) y ↔
      mno = some y ∨ mxo = some y ∨
        ∃ i c j, (i, c) ∈ cl ∧ Stores (k / 2) c j ∧ y = i * 2 ^ (k / 2) + j := by
  constructor
  · intro h
    cases h with
    | viaMin => exact Or.inl rfl
    | viaMax => exact Or.inr (Or.inl rfl)
    | viaCluster _ _ _ _ _ _ i c j hmem hs =>
      exact Or.inr (Or.inr ⟨i, c, j, hmem, hs, rfl⟩)
  · rintro (h | h | ⟨i, c, j, hmem, hs, rfl⟩)
    · subst h
      exact Stores.viaMin ..
    · subst h
      exact Stores.viaMax ..
    · exact Stores.viaCluster _ _ _ _ _ _ _ _ _ hmem hs

theorem stores_of_min_eq {k : Nat} {t : VanEmdeBoasTree} {m : Nat}
    (h : t.min = some m) : Stores k t m := by
  cases t with
  | mk r mno mxo sm cl =>
    simp only [VanEmdeBoasTree.min] at h
    subst h
    exact Stores.viaMin ..

theorem stores_of_max_eq {k : Nat} {t : VanEmdeBoasTree} {m : Nat}
    (h : t.max = some m) : Stores k t m := by
  cases t with
  | mk r mno mxo sm cl =>
    simp only [VanEmdeBoasTree.max] at h
    subst h
    exact Stores.viaMax ..

/-- Consistency of the cached bounds: both absent, or both present with
`min ≤ max < valueRange`. -/
def minmaxOK (r : Nat) : Option Nat → Option Nat → Prop
  | none, none => True
  | some mn, some mx => mn ≤ mx ∧ mx < r
  | _, _ => False

/-- `v` lies strictly between the cached bounds (both present). -/
def strictlyInside (mno mxo : Option Nat) (v : Nat) : Prop :=
  match mno, mxo with
  | some mn, some mx => mn < v ∧ v < mx
  | _, _ => False

/-- The structural invariant of every reachable tree at level `k`:
`valueRange = 2 ^ k`; consistent cached bounds; base-case nodes
(`valueRange ≤ 2`) carry no recursive state; recursive nodes have
well-formed, nonempty, strictly-bounded cluster children with distinct
in-range keys, and a summary that is present exactly when some cluster
is and then stores exactly the cluster keys. -/
inductive WF : Nat → VanEmdeBoasTree → Prop where
  | leaf (k r : Nat) (mno mxo : Option Nat)
      (hk : k ≤ 1) (hr : r = 2 ^ k) (hmm : minmaxOK r mno mxo) :
      WF k (.mk r mno mxo none [])
  | node (k r : Nat) (mno mxo : Option Nat) (sm : Option VanEmdeBoasTree)
      (cl : List (Nat × VanEmdeBoasTree))
      (hk : 2 ≤ k) (hr : r = 2 ^ k)
      (hmm : minmaxOK r mno mxo)
      (hkeys : (cl.map Prod.fst).Nodup)
      (hkeyLt : ∀ p ∈ cl, p.1 < 2 ^ ((k + 1) / 2))
      (hchild : ∀ p ∈ cl, WF (k / 2) p.2)
      (hne : ∀ p ∈ cl, p.2.min ≠ none)
      (hsummaryNone : sm = none ↔ cl = [])
      (hsummaryWF : ∀ s, sm = some s → WF ((k + 1) / 2) s)
      (hsummaryStores : ∀ s, sm = some s →
          ∀ j, Stores ((k + 1) / 2) s j ↔ j ∈ cl.map Prod.fst)
      (hbound : ∀ p ∈ cl, ∀ j, Stores (k / 2) p.2 j →
          strictlyInside mno mxo (p.1 * 2 ^ (k / 2) + j)) :
      WF k (.mk r mno mxo sm cl)

theorem WF.valueRange_eq {k : Nat} {t : VanEmdeBoasTree} (h : WF k t) :
    t.valueRange = 2 ^ k := by
  cases h with
  | leaf k r mno mxo hk hr hmm => simpa [VanEmdeBoasTree.valueRange] using hr
  | node k r mno mxo sm cl hk hr => simpa [VanEmdeBoasTree.valueRange] using hr

/-! ### Association-list lemmas (the dict model) -/

section AssocList

variable {α : Type}

theorem mem_of_getEntry_eq_some {cl : List (Nat × α)} {i : Nat} {c : α}
    (h : getEntry cl i = some c) : (i, c) ∈ cl := by
  induction cl with
  | nil => simp [getEntry] at h
  | cons p rest ih =>
    match p with
    | (j, d) =>
      by_cases hj : j = i
      · subst hj
        simp [getEntry] at h
        subst h
        exact List.mem_cons_self _ _
      · simp [getEntry, hj] at h
        exact List.mem_cons_of_mem _ (ih h)

theorem getEntry_eq_some_of_mem {cl : List (Nat × α)} {i : Nat} {c : α}
    (hnd : (cl.map Prod.fst).Nodup) (h : (i, c) ∈ cl) :
    getEntry cl i = some c := by
  induction cl with
  | nil => simp at h
  | cons p rest ih =>
    match p with
    | (j, d) =>
      simp only [List.map_cons, List.nodup_cons] at hnd
      rcases List.mem_cons.mp h with heq | hmem
      · cases heq
        simp [getEntry]
      · have hji : j ≠ i := by
          intro hji
          subst hji
          exact hnd.1 (List.mem_map.mpr ⟨(j, c), hmem, rfl⟩)
        simp [getEntry, hji]
        exact ih hnd.2 hmem

theorem getEntry_eq_none_iff {cl : List (Nat × α)} {i : Nat} :
    getEntry cl i = none ↔ i ∉ cl.map Prod.fst := by
  induction cl with
  | nil => simp [getEntry]
  | cons p rest ih =>
    match p with
    | (j, d) =>
      by_cases hj : j = i
      · subst hj
        simp [getEntry]
      · have hgj : getEntry ((j, d) :: rest) i = getEntry rest i := by
          simp [getEntry, hj]
        rw [hgj, ih]
        simp only [List.map_cons, List.mem_cons, not_or]
        constructor
        · intro h
          exact ⟨fun he => hj he.symm, h⟩
        · intro h
          exact h.2

theorem setEntry_of_getEntry_eq {cl : List (Nat × α)} {i : Nat} {c : α}
    (h : getEntry cl i = some c) : setEntry cl i c = cl := by
  induction cl with
  | nil => simp [getEntry] at h
  | cons p rest ih =>
    match p with
    | (j, d) =>
      by_cases hj : j = i
      · subst hj
        simp [getEntry] at h
        simp [setEntry, h]
      · simp [getEntry, hj] at h
        simp [setEntry, hj, ih h]

theorem getEntry_setEntry_self {cl : List (Nat × α)} {i : Nat} {c : α} :
    getEntry (setEntry cl i c) i = some c := by
  induction cl with
  | nil => simp [setEntry, getEntry]
  | cons p rest ih =>
    match p with
    | (j, d) =>
      by_cases hj : j = i
      · subst hj
        simp [setEntry, getEntry]
      · simp [setEntry, getEntry, hj, ih]

theorem getEntry_setEntry_ne {cl : List (Nat × α)} {i x : Nat} {c : α}
    (hx : x ≠ i) : getEntry (setEntry cl i c) x = getEntry cl x := by
  induction cl with
  | nil =>
    have hix : ¬ (i = x) := fun h => hx h.symm
    simp [setEntry, getEntry, hix]
  | cons p rest ih =>
    match p with
    | (j, d) =>
      by_cases hj : j = i
      · subst hj
        have hjx : ¬ (j = x) := fun h => hx h.symm
        simp [setEntry, getEntry, hjx]
      · by_cases hjx : j = x
        · subst hjx
          simp [setEntry, getEntry, hj]
        · simp [setEntry, getEntry, hj, hjx, ih]

theorem keys_setEntry_of_mem {cl : List (Nat × α)} {i : Nat} {c : α}
    (h : i ∈ cl.map Prod.fst) :
    (setEntry cl i c).map Prod.fst = cl.map Prod.fst := by
  induction cl with
  | nil => simp at h
  | cons p rest ih =>
    match p with
    | (j, d) =>
      by_cases hj : j = i
      · subst hj
        simp [setEntry]
      · simp only [List.map_cons] at h
        rcases List.mem_cons.mp h with heq | hmem
        · exact absurd heq.symm hj
        · simp [setEntry, hj, ih hmem]

theorem keys_setEntry_of_notMem {cl : List (Nat × α)} {i : Nat} {c : α}
    (h : i ∉ cl.map Prod.fst) :
    (setEntry cl i c).map Prod.fst = cl.map Prod.fst ++ [i] := by
  induction cl with
  | nil => simp [setEntry]
  | cons p rest ih =>
    match p with
    | (j, d) =>
      simp only [List.map_cons, List.mem_cons] at h
      push_neg at h
      have hji : ¬ (j = i) := fun hh => h.1 hh.symm
      simp [setEntry, hji, ih h.2]

theorem mem_setEntry {cl : List (Nat × α)} {i : Nat} {c : α}
    {p : Nat × α} (hnd : (cl.map Prod.fst).Nodup) :
    p ∈ setEntry cl i c ↔ p = (i, c) ∨ (p.1 ≠ i ∧ p ∈ cl) := by
  induction cl with
  | nil =>
    constructor
    · intro h
      simp [setEntry] at h
      exact Or.inl h
    · rintro (rfl | ⟨_, h⟩)
      · simp [setEntry]
      · simp at h
  | cons q rest ih =>
    match q with
    | (j, d) =>
      simp only [List.map_cons, List.nodup_cons] at hnd
      by_cases hj : j = i
      · subst hj
        constructor
        · intro h
          simp only [setEntry, if_pos rfl] at h
          rcases List.mem_cons.mp h with heq | hmem
          · exact Or.inl heq
          · refine Or.inr ⟨?_, List.mem_cons_of_mem _ hmem⟩
            intro hpi
            exact hnd.1 (List.mem_map.mpr ⟨p, hmem, hpi⟩)
        · rintro (rfl | ⟨hne, hmem⟩)
          · simp [setEntry]
          · simp only [setEntry, if_pos rfl]
            rcases List.mem_cons.mp hmem with heq | hmem2
            · exact absurd (by rw [heq]) hne
            · exact List.mem_cons_of_mem _ hmem2
      · constructor
        · intro h
          simp only [setEntry, if_neg hj] at h
          rcases List.mem_cons.mp h with heq | hmem
          · subst heq
            exact Or.inr ⟨hj, List.mem_cons_self _ _⟩
          · rcases (ih hnd.2).mp hmem with heq | ⟨hne, hmem2⟩
            · exact Or.inl heq
            · exact Or.inr ⟨hne, List.mem_cons_of_mem _ hmem2⟩
        · rintro (rfl | ⟨hne, hmem⟩)
          · simp only [setEntry, if_neg hj]
            exact List.mem_cons_of_mem _ ((ih hnd.2).mpr (Or.inl rfl))
          · simp only [setEntry, if_neg hj]
            rcases List.mem_cons.mp hmem with heq | hmem2
            · subst heq
              exact List.mem_cons_self _ _
            · exact List.mem_cons_of_mem _ ((ih hnd.2).mpr (Or.inr ⟨hne, hmem2⟩))

theorem keys_delEntry {cl : List (Nat × α)} {i : Nat} :
    (delEntry cl i).map Prod.fst = (cl.map Prod.fst).erase i := by
  induction cl with
  | nil => simp [delEntry]
  | cons p rest ih =>
    match p with
    | (j, d) =>
      by_cases hj : j = i
      · subst hj
        simp [delEntry, List.erase_cons_head]
      · simp [delEntry, hj, List.erase_cons_tail, ih]

theorem getEntry_delEntry_ne {cl : List (Nat × α)} {i x : Nat}
    (hx : x ≠ i) : getEntry (delEntry cl i) x = getEntry cl x := by
  induction cl with
  | nil => simp [delEntry]
  | cons p rest ih =>
    match p with
    | (j, d) =>
      by_cases hj : j = i
      · subst hj
        have hjx : ¬ (j = x) := fun h => hx h.symm
        simp [delEntry, getEntry, hjx]
      · by_cases hjx : j = x
        · subst hjx
          simp [delEntry, getEntry, hj]
        · simp [delEntry, getEntry, hj, hjx, ih]

theorem getEntry_delEntry_self {cl : List (Nat × α)} {i : Nat}
    (hnd : (cl.map Prod.fst).Nodup) : getEntry (delEntry cl i) i = none := by
  rw [getEntry_eq_none_iff, keys_delEntry]
  exact hnd.not_mem_erase

theorem mem_delEntry {cl : List (Nat × α)} {i : Nat} {p : Nat × α}
    (hnd : (cl.map Prod.fst).Nodup) :
    p ∈ delEntry cl i ↔ p ∈ cl ∧ p.1 ≠ i := by
  induction cl with
  | nil => simp [delEntry]
  | cons q rest ih =>
    match q with
    | (j, d) =>
      simp only [List.map_cons, List.nodup_cons] at hnd
      by_cases hj : j = i
      · subst hj
        simp only [delEntry, if_pos rfl]
        constructor
        · intro hmem
          refine ⟨List.mem_cons_of_mem _ hmem, ?_⟩
          intro hpj
          exact hnd.1 (List.mem_map.mpr ⟨p, hmem, hpj⟩)
        · rintro ⟨hmem, hne⟩
          rcases List.mem_cons.mp hmem with heq | hmem2
          · exact absurd (by rw [heq]) hne
          · exact hmem2
      · simp only [delEntry, if_neg hj]
        constructor
        · intro hmem
          rcases List.mem_cons.mp hmem with heq | hmem2
          · subst heq
            exact ⟨List.mem_cons_self _ _, hj⟩
          · rcases (ih hnd.2).mp hmem2 with ⟨hmem3, hne⟩
            exact ⟨List.mem_cons_of_mem _ hmem3, hne⟩
        · rintro ⟨hmem, hne⟩
          rcases List.mem_cons.mp hmem with heq | hmem2
          · subst heq
            exact List.mem_cons_self _ _
          · exact List.mem_cons_of_mem _ ((ih hnd.2).mpr ⟨hmem2, hne⟩)

end AssocList

/-! ### Basic consequences of the invariant -/

theorem minmaxOK_some_left {r mn : Nat} {mxo : Option Nat}
    (h : minmaxOK r (some mn) mxo) :
    ∃ mx, mxo = some mx ∧ mn ≤ mx ∧ mx < r := by
  cases mxo with
  | none => exact absurd h (by simp [minmaxOK])
  | some mx => exact ⟨mx, rfl, h⟩

theorem minmaxOK_some_right {r mx : Nat} {mno : Option Nat}
    (h : minmaxOK r mno (some mx)) :
    ∃ mn, mno = some mn ∧ mn ≤ mx ∧ mx < r := by
  cases mno with
  | none => exact absurd h (by simp [minmaxOK])
  | some mn => exact ⟨mn, rfl, h⟩

theorem minmaxOK_none_left {r : Nat} {mxo : Option Nat}
    (h : minmaxOK r none mxo) : mxo = none := by
  cases mxo with
  | none => rfl
  | some mx => exact absurd h (by simp [minmaxOK])

theorem minmaxOK_none_right {r : Nat} {mno : Option Nat}
    (h : minmaxOK r mno none) : mno = none := by
  cases mno with
  | none => rfl
  | some mn => exact absurd h (by simp [minmaxOK])

theorem strictlyInside_elim {mno mxo : Option Nat} {v : Nat}
    (h : strictlyInside mno mxo v) :
    ∃ mn mx, mno = some mn ∧ mxo = some mx ∧ mn < v ∧ v < mx := by
  cases mno with
  | none => exact absurd h (by simp [strictlyInside])
  | some mn =>
    cases mxo with
    | none => exact absurd h (by simp [strictlyInside])
    | some mx => exact ⟨mn, mx, rfl, rfl, h⟩

/-- Every stored value is below the universe size. -/
theorem stores_lt : ∀ k t y, WF k t → Stores k t y → y < 2 ^ k := by
  intro k
  induction k using Nat.strong_induction_on with
  | _ k ih =>
    intro t y hwf hst
    cases hwf with
    | leaf k r mno mxo hk hr hmm =>
      subst hr
      cases hst with
      | viaMin =>
        obtain ⟨mx, hmx, h1, h2⟩ := minmaxOK_some_left hmm
        omega
      | viaMax =>
        obtain ⟨mn, hmn, h1, h2⟩ := minmaxOK_some_right hmm
        omega
      | viaCluster _ _ _ _ _ _ _ _ _ hmem _ => simp at hmem
    | node k r mno mxo sm cl hk hr hmm hkeys hkeyLt hchild hne hsummaryNone
        hsummaryWF hsummaryStores hbound =>
      subst hr
      cases hst with
      | viaMin =>
        obtain ⟨mx, hmx, h1, h2⟩ := minmaxOK_some_left hmm
        omega
      | viaMax =>
        obtain ⟨mn, hmn, h1, h2⟩ := minmaxOK_some_right hmm
        omega
      | viaCluster _ _ _ _ _ _ i c j hmem hs =>
        have hi : i < 2 ^ ((k + 1) / 2) := hkeyLt (i, c) hmem
        have hj : j < 2 ^ (k / 2) :=
          ih (k / 2) (by omega) c j (hchild (i, c) hmem) hs
        have := value_lt_two_pow hi hj
        rwa [low_add_high] at this

/-- The cached `min` is a lower bound for every stored value. -/
theorem min_le_stores {k : Nat} {t : VanEmdeBoasTree} {mn : Nat}
    (h : WF k t) (hm : t.min = some mn) :
    ∀ y, Stores k t y → mn ≤ y := by
  cases h with
  | leaf k r mno mxo hk hr hmm =>
    simp only [VanEmdeBoasTree.min] at hm
    subst hm
    intro y hy
    cases hy with
    | viaMin => exact le_rfl
    | viaMax =>
      obtain ⟨mx, hmx, h1, h2⟩ := minmaxOK_some_left hmm
      cases hmx
      omega
    | viaCluster _ _ _ _ _ _ _ _ _ hmem _ => simp at hmem
  | node k r mno mxo sm cl hk hr hmm hkeys hkeyLt hchild hne hsummaryNone
      hsummaryWF hsummaryStores hbound =>
    simp only [VanEmdeBoasTree.min] at hm
    subst hm
    intro y hy
    cases hy with
    | viaMin => exact le_rfl
    | viaMax =>
      obtain ⟨mx, hmx, h1, h2⟩ := minmaxOK_some_left hmm
      cases hmx
      omega
    | viaCluster _ _ _ _ _ _ i c j hmem hs =>
      obtain ⟨mn2, mx2, hmn2, hmx2, h1, h2⟩ :=
        strictlyInside_elim (hbound (i, c) hmem j hs)
      cases hmn2
      exact Nat.le_of_lt h1

/-- The cached `max` is an upper bound for every stored value. -/
theorem stores_le_max {k : Nat} {t : VanEmdeBoasTree} {mx : Nat}
    (h : WF k t) (hm : t.max = some mx) :
    ∀ y, Stores k t y → y ≤ mx := by
  cases h with
  | leaf k r mno mxo hk hr hmm =>
    simp only [VanEmdeBoasTree.max] at hm
    subst hm
    intro y hy
    cases hy with
    | viaMin =>
      obtain ⟨mn, hmn, h1, h2⟩ := minmaxOK_some_right hmm
      cases hmn
      omega
    | viaMax => exact le_rfl
    | viaCluster _ _ _ _ _ _ _ _ _ hmem _ => simp at hmem
  | node k r mno mxo sm cl hk hr hmm hkeys hkeyLt hchild hne hsummaryNone
      hsummaryWF hsummaryStores hbound =>
    simp only [VanEmdeBoasTree.max] at hm
    subst hm
    intro y hy
    cases hy with
    | viaMin =>
      obtain ⟨mn, hmn, h1, h2⟩ := minmaxOK_some_right hmm
      cases hmn
      omega
    | viaMax => exact le_rfl
    | viaCluster _ _ _ _ _ _ i c j hmem hs =>
      obtain ⟨mn2, mx2, hmn2, hmx2, h1, h2⟩ :=
        strictlyInside_elim (hbound (i, c) hmem j hs)
      cases hmx2
      exact Nat.le_of_lt h2

/-- An empty cache means an empty tree. -/
theorem not_stores_of_min_none {k : Nat} {t : VanEmdeBoasTree}
    (h : WF k t) (hm : t.min = none) : ∀ y, ¬ Stores k t y := by
  cases h with
  | leaf k r mno mxo hk hr hmm =>
    simp only [VanEmdeBoasTree.min] at hm
    subst hm
    have hmx := minmaxOK_none_left hmm
    subst hmx
    intro y hy
    cases hy with
    | viaCluster _ _ _ _ _ _ _ _ _ hmem _ => simp at hmem
  | node k r mno mxo sm cl hk hr hmm hkeys hkeyLt hchild hne hsummaryNone
      hsummaryWF hsummaryStores hbound =>
    simp only [VanEmdeBoasTree.min] at hm
    subst hm
    have hmx := minmaxOK_none_left hmm
    subst hmx
    intro y hy
    cases hy with
    | viaCluster _ _ _ _ _ _ i c j hmem hs =>
      exact absurd (hbound (i, c) hmem j hs) (by simp [strictlyInside])

theorem min_none_iff_empty {k : Nat} {t : VanEmdeBoasTree} (h : WF k t) :
    t.min = none ↔ ∀ y, ¬ Stores k t y := by
  constructor
  · exact not_stores_of_min_none h
  · intro hempty
    cases hmo : t.min with
    | none => rfl
    | some m => exact absurd (stores_of_min_eq hmo) (hempty m)

theorem min_none_iff_max_none {k : Nat} {t : VanEmdeBoasTree} (h : WF k t) :
    t.min = none ↔ t.max = none := by
  have hmm : minmaxOK t.valueRange t.min t.max := by
    cases h with
    | leaf k r mno mxo hk hr hmm => exact hmm
    | node k r mno mxo sm cl hk hr hmm => exact hmm
  cases hmo : t.min with
  | none =>
    rw [hmo] at hmm
    simp [minmaxOK_none_left hmm]
  | some mn =>
    rw [hmo] at hmm
    obtain ⟨mx, hmx, _, _⟩ := minmaxOK_some_left hmm
    simp [hmx]

theorem min_le_max {k : Nat} {t : VanEmdeBoasTree} {mn mx : Nat}
    (h : WF k t) (hmn : t.min = some mn) (hmx : t.max = some mx) :
    mn ≤ mx ∧ mx < 2 ^ k := by
  have hr := h.valueRange_eq
  have hmm : minmaxOK t.valueRange t.min t.max := by
    cases h with
    | leaf k r mno mxo hk hr2 hmm => exact hmm
    | node k r mno mxo sm cl hk hr2 hmm => exact hmm
  rw [hmn, hmx, hr] at hmm
  exact hmm

/-- A singleton (`min = max`) carries no recursive state. -/
theorem singleton_no_rec {k : Nat} {t : VanEmdeBoasTree} {m : Nat}
    (h : WF k t) (hmn : t.min = some m) (hmx : t.max = some m) :
    t.cluster = [] ∧ t.summary = none := by
  cases h with
  | leaf k r mno mxo hk hr hmm => exact ⟨rfl, rfl⟩
  | node k r mno mxo sm cl hk hr hmm hkeys hkeyLt hchild hne hsummaryNone
      hsummaryWF hsummaryStores hbound =>
    simp only [VanEmdeBoasTree.min] at hmn
    simp only [VanEmdeBoasTree.max] at hmx
    subst hmn
    subst hmx
    have hcl : cl = [] := by
      cases hcl : cl with
      | nil => rfl
      | cons p rest =>
        exfalso
        have hmem : p ∈ cl := by rw [hcl]; exact List.mem_cons_self _ _
        have hpmin := hne p hmem
        cases hpm : p.2.min with
        | none => exact hpmin hpm
        | some cm =>
          obtain ⟨mn2, mx2, hmn2, hmx2, h1, h2⟩ :=
            strictlyInside_elim
              (hbound p hmem cm (stores_of_min_eq hpm))
          cases hmn2
          cases hmx2
          omega
    exact ⟨by simpa [VanEmdeBoasTree.cluster] using hcl,
      by simpa [VanEmdeBoasTree.summary] using hsummaryNone.mpr hcl⟩

theorem stores_singleton_iff {k : Nat} {t : VanEmdeBoasTree} {m : Nat}
    (h : WF k t) (hmn : t.min = some m) (hmx : t.max = some m) :
    ∀ y, Stores k t y ↔ y = m := by
  intro y
  constructor
  · intro hy
    have h1 := min_le_stores h hmn y hy
    have h2 := stores_le_max h hmx y hy
    omega
  · rintro rfl
    exact stores_of_min_eq hmn

theorem init_eq (R : Nat) :
    VanEmdeBoasTree.init R = .mk (2 ^ ceilLog2 R) none none none [] := by
  simp [VanEmdeBoasTree.init, Nat.shiftLeft_eq]

theorem WF_empty (k : Nat) :
    WF k (.mk (2 ^ k) none none none []) := by
  by_cases hk : k ≤ 1
  · exact WF.leaf k _ none none hk rfl trivial
  · refine WF.node k _ none none none [] (by omega) rfl trivial
      (by simp) (by simp) (by simp) (by simp) (by simp) ?_ ?_ (by simp)
    · intro s hs
      simp at hs
    · intro s hs
      simp at hs

theorem WF_init (R : Nat) : WF (ceilLog2 R) (VanEmdeBoasTree.init R) := by
  rw [init_eq]
  exact WF_empty _

/-! ### Fuel irrelevance: `valueRange` is always enough fuel

Each operation recurses into the summary (level `(k+1)/2`) or a cluster
child (level `k/2`); both levels are strictly below `k` and both
universe sizes fit under any fuel of at least `2 ^ k - 1`. -/

theorem pow_half_le {k f : Nat} (hk : 2 ≤ k) (hf : 2 ^ k ≤ f + 1) :
    2 ^ ((k + 1) / 2) ≤ f ∧ 2 ^ (k / 2) ≤ f := by
  have h1 : (k + 1) / 2 ≤ k - 1 := by omega
  have h2 : k / 2 ≤ k - 1 := by omega
  have hpow : 2 ^ (k - 1) * 2 = 2 ^ k := by
    rw [← pow_succ]
    congr 1
    omega
  have hp1 : 2 ^ ((k + 1) / 2) ≤ 2 ^ (k - 1) :=
    Nat.pow_le_pow_right (by norm_num) h1
  have hp2 : 2 ^ (k / 2) ≤ 2 ^ (k - 1) :=
    Nat.pow_le_pow_right (by norm_num) h2
  omega

theorem two_pow_ne_two {k : Nat} (hk : 2 ≤ k) : 2 ^ k ≠ 2 := by
  have : 2 ^ 2 ≤ 2 ^ k := Nat.pow_le_pow_right (by norm_num) hk
  omega

theorem containsF_irrel : ∀ k t x f g, WF k t → 2 ^ k ≤ f → 2 ^ k ≤ g →
    containsF f t x = containsF g t x := by
  intro k
  induction k using Nat.strong_induction_on with
  | _ k ih =>
    intro t x f g hwf hf hg
    have hpos : 0 < 2 ^ k := Nat.two_pow_pos k
    obtain ⟨f2, rfl⟩ : ∃ f2, f = f2 + 1 := ⟨f - 1, by omega⟩
    obtain ⟨g2, rfl⟩ : ∃ g2, g = g2 + 1 := ⟨g - 1, by omega⟩
    cases hwf with
    | leaf k r mno mxo hk hr hmm =>
      subst hr
      rcases mno with _ | mn <;> rcases mxo with _ | mx <;>
        simp [containsF, getEntry]
    | node k r mno mxo sm cl hk hr hmm hkeys hkeyLt hchild hne hsn hsWF
        hsSt hbound =>
      subst hr
      rcases mno with _ | mn
      · simp [containsF]
      · obtain ⟨mx, rfl, hle, hlt⟩ := minmaxOK_some_left hmm
        simp only [containsF]
        by_cases hx : some mn = some x ∨ some mx = some x
        · rw [if_pos hx, if_pos hx]
        · rw [if_neg hx, if_neg hx]
          by_cases hcond : x < mn ∨ mx < x ∨ 2 ^ k = 2
          · rw [if_pos hcond, if_pos hcond]
          · rw [if_neg hcond, if_neg hcond]
            cases hget : getEntry cl
                ((VanEmdeBoasTree.mk (2 ^ k) (some mn) (some mx) sm cl).clusterIndex x) with
            | none => simp [hget]
            | some c =>
              simp only [hget]
              have hmem := mem_of_getEntry_eq_some hget
              have hwfc := hchild _ hmem
              have hff := (pow_half_le hk hf).2
              have hgg := (pow_half_le hk hg).2
              exact ih (k / 2) (by omega) c _ f2 g2 hwfc hff hgg

theorem predecessorF_irrel : ∀ k t x f g, WF k t → 2 ^ k ≤ f → 2 ^ k ≤ g →
    predecessorF f t x = predecessorF g t x := by
  intro k
  induction k using Nat.strong_induction_on with
  | _ k ih =>
    intro t x f g hwf hf hg
    have hpos : 0 < 2 ^ k := Nat.two_pow_pos k
    obtain ⟨f2, rfl⟩ : ∃ f2, f = f2 + 1 := ⟨f - 1, by omega⟩
    obtain ⟨g2, rfl⟩ : ∃ g2, g = g2 + 1 := ⟨g - 1, by omega⟩
    cases hwf with
    | leaf k r mno mxo hk hr hmm =>
      subst hr
      simp [predecessorF, getEntry]
    | node k r mno mxo sm cl hk hr hmm hkeys hkeyLt hchild hne hsn hsWF
        hsSt hbound =>
      subst hr
      have hf2 := pow_half_le hk hf
      have hg2 := pow_half_le hk hg
      simp only [predecessorF]
      rw [if_neg (two_pow_ne_two hk), if_neg (two_pow_ne_two hk)]
      cases hsm : sm with
      | none =>
        subst hsm
        cases hget : getEntry cl
            ((VanEmdeBoasTree.mk (2 ^ k) mno mxo none cl).clusterIndex x) with
        | none => simp only [hget]
        | some c =>
          simp only [hget]
          have hmem := mem_of_getEntry_eq_some hget
          have hrecC : predecessorF f2 c
                ((VanEmdeBoasTree.mk (2 ^ k) mno mxo none cl).valueIndex x) =
              predecessorF g2 c
                ((VanEmdeBoasTree.mk (2 ^ k) mno mxo none cl).valueIndex x) :=
            ih (k / 2) (by omega) c _ f2 g2 (hchild _ hmem) hf2.2 hg2.2
          simp only [hrecC]
      | some s =>
        subst hsm
        have hrecS : predecessorF f2 s
              ((VanEmdeBoasTree.mk (2 ^ k) mno mxo (some s) cl).clusterIndex x) =
            predecessorF g2 s
              ((VanEmdeBoasTree.mk (2 ^ k) mno mxo (some s) cl).clusterIndex x) :=
          ih ((k + 1) / 2) (by omega) s _ f2 g2 (hsWF s rfl) hf2.1 hg2.1
        cases hget : getEntry cl
            ((VanEmdeBoasTree.mk (2 ^ k) mno mxo (some s) cl).clusterIndex x) with
        | none => simp only [hget, hrecS]
        | some c =>
          simp only [hget]
          have hmem := mem_of_getEntry_eq_some hget
          have hrecC : predecessorF f2 c
                ((VanEmdeBoasTree.mk (2 ^ k) mno mxo (some s) cl).valueIndex x) =
              predecessorF g2 c
                ((VanEmdeBoasTree.mk (2 ^ k) mno mxo (some s) cl).valueIndex x) :=
            ih (k / 2) (by omega) c _ f2 g2 (hchild _ hmem) hf2.2 hg2.2
          simp only [hrecC, hrecS]

theorem successorF_irrel : ∀ k t x f g, WF k t → 2 ^ k ≤ f → 2 ^ k ≤ g →
    successorF f t x = successorF g t x := by
  intro k
  induction k using Nat.strong_induction_on with
  | _ k ih =>
    intro t x f g hwf hf hg
    have hpos : 0 < 2 ^ k := Nat.two_pow_pos k
    obtain ⟨f2, rfl⟩ : ∃ f2, f = f2 + 1 := ⟨f - 1, by omega⟩
    obtain ⟨g2, rfl⟩ : ∃ g2, g = g2 + 1 := ⟨g - 1, by omega⟩
    cases hwf with
    | leaf k r mno mxo hk hr hmm =>
      subst hr
      simp [successorF, getEntry]
    | node k r mno mxo sm cl hk hr hmm hkeys hkeyLt hchild hne hsn hsWF
        hsSt hbound =>
      subst hr
      have hf2 := pow_half_le hk hf
      have hg2 := pow_half_le hk hg
      simp only [successorF]
      rw [if_neg (two_pow_ne_two hk), if_neg (two_pow_ne_two hk)]
      cases hsm : sm with
      | none =>
        subst hsm
        cases hget : getEntry cl
            ((VanEmdeBoasTree.mk (2 ^ k) mno mxo none cl).clusterIndex x) with
        | none => simp only [hget]
        | some c =>
          simp only [hget]
          have hmem := mem_of_getEntry_eq_some hget
          have hrecC : successorF f2 c
                ((VanEmdeBoasTree.mk (2 ^ k) mno mxo none cl).valueIndex x) =
              successorF g2 c
                ((VanEmdeBoasTree.mk (2 ^ k) mno mxo none cl).valueIndex x) :=
            ih (k / 2) (by omega) c _ f2 g2 (hchild _ hmem) hf2.2 hg2.2
          simp only [hrecC]
      | some s =>
        subst hsm
        have hrecS : successorF f2 s
              ((VanEmdeBoasTree.mk (2 ^ k) mno mxo (some s) cl).clusterIndex x) =
            successorF g2 s
              ((VanEmdeBoasTree.mk (2 ^ k) mno mxo (some s) cl).clusterIndex x) :=
          ih ((k + 1) / 2) (by omega) s _ f2 g2 (hsWF s rfl) hf2.1 hg2.1
        cases hget : getEntry cl
            ((VanEmdeBoasTree.mk (2 ^ k) mno mxo (some s) cl).clusterIndex x) with
        | none => simp only [hget, hrecS]
        | some c =>
          simp only [hget]
          have hmem := mem_of_getEntry_eq_some hget
          have hrecC : successorF f2 c
                ((VanEmdeBoasTree.mk (2 ^ k) mno mxo (some s) cl).valueIndex x) =
              successorF g2 c
                ((VanEmdeBoasTree.mk (2 ^ k) mno mxo (some s) cl).valueIndex x) :=
            ih (k / 2) (by omega) c _ f2 g2 (hchild _ hmem) hf2.2 hg2.2
          simp only [hrecC, hrecS]

theorem WF_init_pow (m : Nat) : WF m (VanEmdeBoasTree.init (2 ^ m)) := by
  rw [init_eq, ceilLog2_two_pow]
  exact WF_empty m

/-- The summary target of `insert` (existing summary, or a fresh empty
one over the high square root) is well-formed. -/
theorem WF_summary0 (H : Nat) (sm : Option VanEmdeBoasTree)
    (hsWF : ∀ s, sm = some s → WF H s) :
    WF H (match sm with
          | some s => s
          | none => VanEmdeBoasTree.init (2 ^ H)) := by
  cases sm with
  | some s => exact hsWF s rfl
  | none => exact WF_init_pow H

theorem insertF_irrel : ∀ k t x f g, WF k t → 2 ^ k ≤ f → 2 ^ k ≤ g →
    insertF f t x = insertF g t x := by
  intro k
  induction k using Nat.strong_induction_on with
  | _ k ih =>
    intro t x f g hwf hf hg
    have hpos : 0 < 2 ^ k := Nat.two_pow_pos k
    obtain ⟨f2, rfl⟩ : ∃ f2, f = f2 + 1 := ⟨f - 1, by omega⟩
    obtain ⟨g2, rfl⟩ : ∃ g2, g = g2 + 1 := ⟨g - 1, by omega⟩
    cases hwf with
    | leaf k r mno mxo hk hr hmm =>
      subst hr
      rcases mno with _ | mn
      · have hmx := minmaxOK_none_left hmm
        subst hmx
        simp [insertF]
      · obtain ⟨mx, rfl, hle, hlt⟩ := minmaxOK_some_left hmm
        simp only [insertF]
        by_cases hx : some mn = some x ∨ some mx = some x
        · rw [if_pos hx, if_pos hx]
        · rw [if_neg hx, if_neg hx]
          by_cases hmneq : mn = mx
          · rw [if_pos hmneq, if_pos hmneq]
          · rw [if_neg hmneq, if_neg hmneq]
            have hr2 : 2 ^ k = 2 := by
              have h1 : 2 ^ k ≤ 2 ^ 1 := Nat.pow_le_pow_right (by norm_num) hk
              omega
            rw [if_pos hr2, if_pos hr2]
    | node k r mno mxo sm cl hk hr hmm hkeys hkeyLt hchild hne hsn hsWF
        hsSt hbound =>
      subst hr
      have hf2 := pow_half_le hk hf
      have hg2 := pow_half_le hk hg
      rcases mno with _ | mn
      · have hmx := minmaxOK_none_left hmm
        subst hmx
        simp [insertF]
      · obtain ⟨mx, rfl, hle, hlt⟩ := minmaxOK_some_left hmm
        simp only [insertF]
        by_cases hx : some mn = some x ∨ some mx = some x
        · rw [if_pos hx, if_pos hx]
        · rw [if_neg hx, if_neg hx]
          by_cases hmneq : mn = mx
          · rw [if_pos hmneq, if_pos hmneq]
          · rw [if_neg hmneq, if_neg hmneq,
              if_neg (two_pow_ne_two hk), if_neg (two_pow_ne_two hk)]
            cases hsm : sm with
            | none =>
              subst hsm
              cases hget : getEntry cl
                  ((VanEmdeBoasTree.mk (2 ^ k) (some mn) (some mx) none cl).clusterIndex
                    (if x < mn then mn else if mx < x then mx else x)) with
              | some c =>
                have hmem := mem_of_getEntry_eq_some hget
                have hrecC := ih (k / 2) (by omega) c
                  ((VanEmdeBoasTree.mk (2 ^ k) (some mn) (some mx) none cl).valueIndex
                    (if x < mn then mn else if mx < x then mx else x))
                  f2 g2 (hchild _ hmem) hf2.2 hg2.2
                simp only [hget, hrecC]
              | none =>
                have hrecS := ih ((k + 1) / 2) (by omega)
                  (VanEmdeBoasTree.init (2 ^ ((k + 1) / 2)))
                  ((VanEmdeBoasTree.mk (2 ^ k) (some mn) (some mx) none cl).clusterIndex
                    (if x < mn then mn else if mx < x then mx else x))
                  f2 g2 (WF_init_pow _) hf2.1 hg2.1
                have hrec0 := ih (k / 2) (by omega)
                  (VanEmdeBoasTree.init (2 ^ (k / 2)))
                  ((VanEmdeBoasTree.mk (2 ^ k) (some mn) (some mx) none cl).valueIndex
                    (if x < mn then mn else if mx < x then mx else x))
                  f2 g2 (WF_init_pow _) hf2.2 hg2.2
                simp only [hget, hsqrt_mk, lsqrt_mk, hrecS, hrec0]
            | some s =>
              subst hsm
              cases hget : getEntry cl
                  ((VanEmdeBoasTree.mk (2 ^ k) (some mn) (some mx) (some s) cl).clusterIndex
                    (if x < mn then mn else if mx < x then mx else x)) with
              | some c =>
                have hmem := mem_of_getEntry_eq_some hget
                have hrecC := ih (k / 2) (by omega) c
                  ((VanEmdeBoasTree.mk (2 ^ k) (some mn) (some mx) (some s) cl).valueIndex
                    (if x < mn then mn else if mx < x then mx else x))
                  f2 g2 (hchild _ hmem) hf2.2 hg2.2
                simp only [hget, hrecC]
              | none =>
                have hrecS := ih ((k + 1) / 2) (by omega) s
                  ((VanEmdeBoasTree.mk (2 ^ k) (some mn) (some mx) (some s) cl).clusterIndex
                    (if x < mn then mn else if mx < x then mx else x))
                  f2 g2 (hsWF s rfl) hf2.1 hg2.1
                have hrec0 := ih (k / 2) (by omega)
                  (VanEmdeBoasTree.init (2 ^ (k / 2)))
                  ((VanEmdeBoasTree.mk (2 ^ k) (some mn) (some mx) (some s) cl).valueIndex
                    (if x < mn then mn else if mx < x then mx else x))
                  f2 g2 (WF_init_pow _) hf2.2 hg2.2
                simp only [hget, lsqrt_mk, hrecS, hrec0]
theorem deleteF_irrel : ∀ k t x f g, WF k t → 2 ^ k ≤ f → 2 ^ k ≤ g →
    deleteF f t x = deleteF g t x := by
  intro k
  induction k using Nat.strong_induction_on with
  | _ k ih =>
    intro t x f g hwf hf hg
    have hpos : 0 < 2 ^ k := Nat.two_pow_pos k
    obtain ⟨f2, rfl⟩ : ∃ f2, f = f2 + 1 := ⟨f - 1, by omega⟩
    obtain ⟨g2, rfl⟩ : ∃ g2, g = g2 + 1 := ⟨g - 1, by omega⟩
    cases hwf with
    | leaf k r mno mxo hk hr hmm =>
      subst hr
      rcases mno with _ | mn
      · have hmx := minmaxOK_none_left hmm
        subst hmx
        simp [deleteF]
      · obtain ⟨mx, rfl, hle, hlt⟩ := minmaxOK_some_left hmm
        simp only [deleteF]
        by_cases hout : x < mn ∨ mx < x
        · rw [if_pos hout, if_pos hout]
        · rw [if_neg hout, if_neg hout]
          by_cases hmneq : mn = mx
          · rw [if_pos hmneq, if_pos hmneq]
          · rw [if_neg hmneq, if_neg hmneq]
            have hr2 : 2 ^ k = 2 := by
              have h1 : 2 ^ k ≤ 2 ^ 1 := Nat.pow_le_pow_right (by norm_num) hk
              omega
            rw [if_pos hr2, if_pos hr2]
    | node k r mno mxo sm cl hk hr hmm hkeys hkeyLt hchild hne hsn hsWF
        hsSt hbound =>
      subst hr
      have hf2 := pow_half_le hk hf
      have hg2 := pow_half_le hk hg
      rcases mno with _ | mn
      · have hmx := minmaxOK_none_left hmm
        subst hmx
        simp [deleteF]
      · obtain ⟨mx, rfl, hle, hlt⟩ := minmaxOK_some_left hmm
        simp only [deleteF]
        by_cases hout : x < mn ∨ mx < x
        · rw [if_pos hout, if_pos hout]
        · rw [if_neg hout, if_neg hout]
          by_cases hmneq : mn = mx
          · rw [if_pos hmneq, if_pos hmneq]
          · rw [if_neg hmneq, if_neg hmneq,
              if_neg (two_pow_ne_two hk), if_neg (two_pow_ne_two hk)]
            by_cases hxmn : x = mn
            · rw [if_pos hxmn]
              cases hsm : sm with
              | none => subst hsm; rfl
              | some s =>
                subst hsm
                simp only []
                cases hsmin : s.min with
                | none => rfl
                | some sci =>
                  simp only []
                  cases hgc : getEntry cl sci with
                  | none => rfl
                  | some c =>
                    simp only []
                    cases hcm : c.min with
                    | none => rfl
                    | some cidx =>
                      have hmem := mem_of_getEntry_eq_some hgc
                      have hrecC := ih (k / 2) (by omega) c cidx
                        f2 g2 (hchild _ hmem) hf2.2 hg2.2
                      have hrecS := ih ((k + 1) / 2) (by omega) s sci
                        f2 g2 (hsWF s rfl) hf2.1 hg2.1
                      simp only [hrecC, hrecS]
            · rw [if_neg hxmn]
              by_cases hxmx : x = mx
              · rw [if_pos hxmx]
                cases hsm : sm with
                | none => subst hsm; rfl
                | some s =>
                  subst hsm
                  simp only []
                  cases hsmax : s.max with
                  | none => rfl
                  | some sci =>
                    simp only []
                    cases hgc : getEntry cl sci with
                    | none => rfl
                    | some c =>
                      simp only []
                      cases hcm : c.max with
                      | none => rfl
                      | some cidx =>
                        have hmem := mem_of_getEntry_eq_some hgc
                        have hrecC := ih (k / 2) (by omega) c cidx
                          f2 g2 (hchild _ hmem) hf2.2 hg2.2
                        have hrecS := ih ((k + 1) / 2) (by omega) s sci
                          f2 g2 (hsWF s rfl) hf2.1 hg2.1
                        simp only [hrecC, hrecS]
              · rw [if_neg hxmx]
                cases hsm : sm with
                | none =>
                  subst hsm
                  cases hget : getEntry cl
                      ((VanEmdeBoasTree.mk (2 ^ k) (some mn) (some mx) none cl).clusterIndex x) with
                  | none => rfl
                  | some c =>
                    have hmem := mem_of_getEntry_eq_some hget
                    have hrecC := ih (k / 2) (by omega) c
                      ((VanEmdeBoasTree.mk (2 ^ k) (some mn) (some mx) none cl).valueIndex x)
                      f2 g2 (hchild _ hmem) hf2.2 hg2.2
                    simp only [hget, hrecC]
                | some s =>
                  subst hsm
                  cases hget : getEntry cl
                      ((VanEmdeBoasTree.mk (2 ^ k) (some mn) (some mx) (some s) cl).clusterIndex x) with
                  | none => rfl
                  | some c =>
                    have hmem := mem_of_getEntry_eq_some hget
                    have hrecC := ih (k / 2) (by omega) c
                      ((VanEmdeBoasTree.mk (2 ^ k) (some mn) (some mx) (some s) cl).valueIndex x)
                      f2 g2 (hchild _ hmem) hf2.2 hg2.2
                    have hrecS := ih ((k + 1) / 2) (by omega) s
                      ((VanEmdeBoasTree.mk (2 ^ k) (some mn) (some mx) (some s) cl).clusterIndex x)
                      f2 g2 (hsWF s rfl) hf2.1 hg2.1
                    simp only [hget, hrecC, hrecS]

/-! ### Correctness of `contains` -/

theorem containsF_eq_stores : ∀ k t x f, WF k t → 2 ^ k ≤ f →
    (containsF f t x = true ↔ Stores k t x) := by
  intro k
  induction k using Nat.strong_induction_on with
  | _ k ih =>
    intro t x f hwf hf
    have hpos : 0 < 2 ^ k := Nat.two_pow_pos k
    obtain ⟨f2, rfl⟩ : ∃ f2, f = f2 + 1 := ⟨f - 1, by omega⟩
    cases hwf with
    | leaf k r mno mxo hk hr hmm =>
      subst hr
      rcases mno with _ | mn
      · have hmx := minmaxOK_none_left hmm
        subst hmx
        simp [containsF, stores_iff]
      · obtain ⟨mx, rfl, hle, hlt⟩ := minmaxOK_some_left hmm
        simp only [containsF]
        by_cases hx : some mn = some x ∨ some mx = some x
        · rw [if_pos hx]
          simp only [stores_iff]
          simp only [Option.some.injEq] at hx ⊢
          constructor
          · intro _
            rcases hx with h | h
            · exact Or.inl h
            · exact Or.inr (Or.inl h)
          · intro _
            trivial
        · rw [if_neg hx]
          simp only [stores_iff]
          simp only [Option.some.injEq] at hx ⊢
          push_neg at hx
          constructor
          · intro h
            exfalso
            by_cases hcond : x < mn ∨ mx < x ∨ 2 ^ k = 2
            · rw [if_pos hcond] at h
              exact Bool.noConfusion h
            · rw [if_neg hcond] at h
              simp [getEntry] at h
          · rintro (h | h | ⟨i, c, j, hmem, _, _⟩)
            · exact absurd h hx.1
            · exact absurd h hx.2
            · simp at hmem
    | node k r mno mxo sm cl hk hr hmm hkeys hkeyLt hchild hne hsn hsWF
        hsSt hbound =>
      subst hr
      have hwf2 : WF k (VanEmdeBoasTree.mk (2 ^ k) mno mxo sm cl) :=
        WF.node k _ mno mxo sm cl hk rfl hmm hkeys hkeyLt hchild hne hsn
          hsWF hsSt hbound
      have hf2 := pow_half_le hk hf
      rcases mno with _ | mn
      · have hmx := minmaxOK_none_left hmm
        subst hmx
        simp only [containsF]
        constructor
        · intro h
          simp at h
        · intro h
          exact absurd h (not_stores_of_min_none hwf2 rfl x)
      · obtain ⟨mx, rfl, hle, hlt⟩ := minmaxOK_some_left hmm
        simp only [containsF]
        by_cases hx : some mn = some x ∨ some mx = some x
        · rw [if_pos hx]
          simp only [Option.some.injEq] at hx
          constructor
          · intro _
            rcases hx with h | h
            · subst h
              exact Stores.viaMin ..
            · subst h
              exact Stores.viaMax ..
          · intro _
            rfl
        · rw [if_neg hx]
          simp only [Option.some.injEq] at hx
          push_neg at hx
          by_cases hcond : x < mn ∨ mx < x ∨ 2 ^ k = 2
          · constructor
            · intro h
              rw [if_pos hcond] at h
              simp at h
            · intro h
              exfalso
              rcases hcond with hc | hc | hc
              · have := min_le_stores hwf2 rfl x h
                omega
              · have := stores_le_max hwf2 rfl x h
                omega
              · exact two_pow_ne_two hk hc
          · rw [if_neg hcond]
            rw [clusterIndex_mk, valueIndex_mk]
            cases hget : getEntry cl (x / 2 ^ (k / 2)) with
            | none =>
              constructor
              · intro h
                simp at h
              · intro h
                exfalso
                rcases (stores_iff).mp h with hc | hc | ⟨i, c, j, hmem, hs, hval⟩
                · exact hx.1 (by injection hc)
                · exact hx.2 (by injection hc)
                · have hj : j < 2 ^ (k / 2) :=
                    stores_lt (k / 2) c j (hchild _ hmem) hs
                  have hi : i = x / 2 ^ (k / 2) := by
                    rw [hval, value_div hj]
                  subst hi
                  rw [getEntry_eq_some_of_mem hkeys hmem] at hget
                  exact Option.noConfusion hget
            | some c =>
              have hmem := mem_of_getEntry_eq_some hget
              have hih := ih (k / 2) (by omega) c (x % 2 ^ (k / 2)) f2
                (hchild _ hmem) hf2.2
              rw [hih]
              constructor
              · intro h
                have hx2 : (x / 2 ^ (k / 2)) * 2 ^ (k / 2) + x % 2 ^ (k / 2) = x :=
                  div_mod_recompose (k / 2) x
                rw [← hx2]
                exact Stores.viaCluster _ _ _ _ _ _ _ _ _ hmem h
              · intro h
                rcases (stores_iff).mp h with hc | hc | ⟨i, c2, j, hmem2, hs, hval⟩
                · exact absurd (by injection hc) hx.1
                · exact absurd (by injection hc) hx.2
                · have hj : j < 2 ^ (k / 2) :=
                    stores_lt (k / 2) c2 j (hchild _ hmem2) hs
                  have hi : i = x / 2 ^ (k / 2) := by
                    rw [hval, value_div hj]
                  subst hi
                  have hc2 : c2 = c := by
                    have := getEntry_eq_some_of_mem hkeys hmem2
                    rw [hget] at this
                    injection this with h2
                    exact h2.symm
                  subst hc2
                  have hjx : j = x % 2 ^ (k / 2) := by
                    rw [hval, value_mod hj]
                  subst hjx
                  exact hs

/-- `contains` decides membership in the stored set. -/
theorem contains_iff_stores {k : Nat} {t : VanEmdeBoasTree} {x : Nat}
    (hwf : WF k t) : t.contains x = true ↔ Stores k t x := by
  show containsF t.valueRange t x = true ↔ _
  rw [hwf.valueRange_eq]
  exact containsF_eq_stores k t x _ hwf le_rfl

/-! ### Correctness of `insert` -/

theorem div_lt_high {k x : Nat} (hx : x < 2 ^ k) :
    x / 2 ^ (k / 2) < 2 ^ ((k + 1) / 2) := by
  rw [Nat.div_lt_iff_lt_mul (Nat.two_pow_pos _)]
  calc x < 2 ^ k := hx
    _ = 2 ^ ((k + 1) / 2) * 2 ^ (k / 2) := by
        rw [← pow_add]
        congr 1
        omega

theorem min_ne_none_of_stores {k : Nat} {t : VanEmdeBoasTree} {y : Nat}
    (h : WF k t) (hs : Stores k t y) : t.min ≠ none :=
  fun hn => not_stores_of_min_none h hn y hs

theorem not_stores_init (m j : Nat) :
    ¬ Stores m (VanEmdeBoasTree.init (2 ^ m)) j :=
  not_stores_of_min_none (WF_init_pow m) (by rw [init_eq]; rfl) j

/-- Statement of the insert induction hypothesis, shared by the helper
lemmas below. -/
def InsertIH (k : Nat) : Prop :=
  ∀ m, m < k → ∀ t x f, WF m t → x < 2 ^ m → 2 ^ m ≤ f →
    WF m (insertF f t x) ∧
      ∀ y, Stores m (insertF f t x) y ↔ (y = x ∨ Stores m t y)

/-- `insert` step at a recursive node when the target cluster exists. -/
theorem insert_node_existing
    (k f2 mn2 mx2 x2 : Nat)
    (sm : Option VanEmdeBoasTree) (cl : List (Nat × VanEmdeBoasTree))
    (c : VanEmdeBoasTree)
    (ihAll : InsertIH k)
    (hk : 2 ≤ k)
    (hkeys : (cl.map Prod.fst).Nodup)
    (hkeyLt : ∀ p ∈ cl, p.1 < 2 ^ ((k + 1) / 2))
    (hchild : ∀ p ∈ cl, WF (k / 2) p.2)
    (hne : ∀ p ∈ cl, p.2.min ≠ none)
    (hsn : sm = none ↔ cl = [])
    (hsWF : ∀ s, sm = some s → WF ((k + 1) / 2) s)
    (hsSt : ∀ s, sm = some s → ∀ j, Stores ((k + 1) / 2) s j ↔ j ∈ cl.map Prod.fst)
    (hbound2 : ∀ p ∈ cl, ∀ j, Stores (k / 2) p.2 j →
      strictlyInside (some mn2) (some mx2) (p.1 * 2 ^ (k / 2) + j))
    (hin1 : mn2 < x2) (hin2 : x2 < mx2) (hmx2 : mx2 < 2 ^ k)
    (hfL : 2 ^ (k / 2) ≤ f2)
    (hget : getEntry cl (x2 / 2 ^ (k / 2)) = some c) :
    WF k (.mk (2 ^ k) (some mn2) (some mx2) sm
        (setEntry cl (x2 / 2 ^ (k / 2)) (insertF f2 c (x2 % 2 ^ (k / 2))))) ∧
    ∀ y, Stores k (.mk (2 ^ k) (some mn2) (some mx2) sm
        (setEntry cl (x2 / 2 ^ (k / 2)) (insertF f2 c (x2 % 2 ^ (k / 2))))) y ↔
      (y = x2 ∨ Stores k (.mk (2 ^ k) (some mn2) (some mx2) sm cl) y) := by
  have hpos : 0 < 2 ^ (k / 2) := Nat.two_pow_pos _
  set L := k / 2 with hL
  set ci := x2 / 2 ^ L with hci
  set idx := x2 % 2 ^ L with hidx
  have hidxlt : idx < 2 ^ L := Nat.mod_lt _ hpos
  have hval : ci * 2 ^ L + idx = x2 := div_mod_recompose L x2
  have hmem : (ci, c) ∈ cl := mem_of_getEntry_eq_some hget
  have hwfc := hchild _ hmem
  obtain ⟨hwfc2, hstc⟩ := ihAll L (by omega) c idx f2 hwfc hidxlt hfL
  set c2 := insertF f2 c idx with hc2
  have hcikeys : ci ∈ cl.map Prod.fst := by
    by_contra hcontra
    rw [← getEntry_eq_none_iff] at hcontra
    rw [hget] at hcontra
    exact Option.noConfusion hcontra
  have hkeq : (setEntry cl ci c2).map Prod.fst = cl.map Prod.fst :=
    keys_setEntry_of_mem hcikeys
  have hclne : cl ≠ [] := by
    intro h
    subst h
    simp at hmem
  -- membership description of the updated cluster list
  have hmem2 : ∀ p : Nat × VanEmdeBoasTree,
      p ∈ setEntry cl ci c2 ↔ p = (ci, c2) ∨ (p.1 ≠ ci ∧ p ∈ cl) :=
    fun p => mem_setEntry hkeys
  refine ⟨WF.node k _ _ _ _ _ hk rfl ⟨by omega, hmx2⟩ (hkeq ▸ hkeys) ?_ ?_ ?_ ?_ ?_ ?_ ?_, ?_⟩
  · -- key bounds
    intro p hp
    rcases (hmem2 p).mp hp with rfl | ⟨_, hp2⟩
    · exact div_lt_high (by omega)
    · exact hkeyLt p hp2
  · -- children well-formed
    intro p hp
    rcases (hmem2 p).mp hp with rfl | ⟨_, hp2⟩
    · exact hwfc2
    · exact hchild p hp2
  · -- children nonempty
    intro p hp
    rcases (hmem2 p).mp hp with rfl | ⟨_, hp2⟩
    · exact min_ne_none_of_stores hwfc2 ((hstc idx).mpr (Or.inl rfl))
    · exact hne p hp2
  · -- summary present iff clusters exist
    constructor
    · intro h
      exact absurd (hsn.mp h) hclne
    · intro h
      have : (ci, c2) ∈ setEntry cl ci c2 := (hmem2 _).mpr (Or.inl rfl)
      rw [h] at this
      simp at this
  · -- summary well-formed
    exact hsWF
  · -- summary stores exactly the cluster keys
    intro s hs j
    rw [hsSt s hs j, hkeq]
  · -- cluster values strictly inside the bounds
    intro p hp j hs
    rcases (hmem2 p).mp hp with rfl | ⟨_, hp2⟩
    · rcases (hstc j).mp hs with heq | hs2
      · subst heq
        show mn2 < ci * 2 ^ L + idx ∧ ci * 2 ^ L + idx < mx2
        rw [hval]
        exact ⟨hin1, hin2⟩
      · exact hbound2 (ci, c) hmem j hs2
    · exact hbound2 p hp2 j hs
  · -- the stored set: old set plus x2
    intro y
    rw [stores_iff, stores_iff]
    constructor
    · rintro (h | h | ⟨i, d, j, hp, hs, rfl⟩)
      · exact Or.inr (Or.inl h)
      · exact Or.inr (Or.inr (Or.inl h))
      · rcases (hmem2 (i, d)).mp hp with heq | ⟨hne2, hp2⟩
        · have hi : i = ci := congrArg Prod.fst heq
          have hd : d = c2 := congrArg Prod.snd heq
          subst hi
          subst hd
          rcases (hstc j).mp hs with rfl | hs2
          · exact Or.inl hval
          · exact Or.inr (Or.inr (Or.inr ⟨ci, c, j, hmem, hs2, rfl⟩))
        · exact Or.inr (Or.inr (Or.inr ⟨i, d, j, hp2, hs, rfl⟩))
    · rintro (rfl | h | h | ⟨i, d, j, hp, hs, rfl⟩)
      · refine Or.inr (Or.inr ⟨ci, c2, idx, (hmem2 _).mpr (Or.inl rfl), ?_, hval.symm⟩)
        exact (hstc idx).mpr (Or.inl rfl)
      · exact Or.inl h
      · exact Or.inr (Or.inl h)
      · by_cases hi : i = ci
        · subst hi
          have hd : d = c := by
            have hq := getEntry_eq_some_of_mem hkeys hp
            rw [hget] at hq
            injection hq with h2
            exact h2.symm
          subst hd
          refine Or.inr (Or.inr ⟨ci, c2, j, (hmem2 _).mpr (Or.inl rfl), ?_, rfl⟩)
          exact (hstc j).mpr (Or.inr hs)
        · exact Or.inr (Or.inr ⟨i, d, j, (hmem2 _).mpr (Or.inr ⟨hi, hp⟩), hs, rfl⟩)

/-- `insert` step at a recursive node when the target cluster is freshly
created (and the cluster index is inserted into the summary, itself
created if absent: `S0` is the summary target). -/
theorem insert_node_fresh
    (k f2 mn2 mx2 x2 : Nat)
    (cl : List (Nat × VanEmdeBoasTree))
    (S0 : VanEmdeBoasTree) (S0o : Option VanEmdeBoasTree)
    (ihAll : InsertIH k)
    (hk : 2 ≤ k)
    (hkeys : (cl.map Prod.fst).Nodup)
    (hkeyLt : ∀ p ∈ cl, p.1 < 2 ^ ((k + 1) / 2))
    (hchild : ∀ p ∈ cl, WF (k / 2) p.2)
    (hne : ∀ p ∈ cl, p.2.min ≠ none)
    (hS0WF : WF ((k + 1) / 2) S0)
    (hS0St : ∀ j, Stores ((k + 1) / 2) S0 j ↔ j ∈ cl.map Prod.fst)
    (hbound2 : ∀ p ∈ cl, ∀ j, Stores (k / 2) p.2 j →
      strictlyInside (some mn2) (some mx2) (p.1 * 2 ^ (k / 2) + j))
    (hin1 : mn2 < x2) (hin2 : x2 < mx2) (hmx2 : mx2 < 2 ^ k)
    (hfL : 2 ^ (k / 2) ≤ f2) (hfH : 2 ^ ((k + 1) / 2) ≤ f2)
    (hget : getEntry cl (x2 / 2 ^ (k / 2)) = none) :
    WF k (.mk (2 ^ k) (some mn2) (some mx2)
        (some (insertF f2 S0 (x2 / 2 ^ (k / 2))))
        (setEntry cl (x2 / 2 ^ (k / 2))
          (insertF f2 (VanEmdeBoasTree.init (2 ^ (k / 2))) (x2 % 2 ^ (k / 2))))) ∧
    ∀ y, Stores k (.mk (2 ^ k) (some mn2) (some mx2)
        (some (insertF f2 S0 (x2 / 2 ^ (k / 2))))
        (setEntry cl (x2 / 2 ^ (k / 2))
          (insertF f2 (VanEmdeBoasTree.init (2 ^ (k / 2))) (x2 % 2 ^ (k / 2))))) y ↔
      (y = x2 ∨ Stores k (.mk (2 ^ k) (some mn2) (some mx2) S0o cl) y) := by
  have hpos : 0 < 2 ^ (k / 2) := Nat.two_pow_pos _
  set L := k / 2 with hL
  set ci := x2 / 2 ^ L with hci
  set idx := x2 % 2 ^ L with hidx
  have hidxlt : idx < 2 ^ L := Nat.mod_lt _ hpos
  have hval : ci * 2 ^ L + idx = x2 := div_mod_recompose L x2
  have hcilt : ci < 2 ^ ((k + 1) / 2) := div_lt_high (by omega)
  obtain ⟨hwfc2, hstc0⟩ :=
    ihAll L (by omega) (VanEmdeBoasTree.init (2 ^ L)) idx f2
      (WF_init_pow L) hidxlt hfL
  set c2 := insertF f2 (VanEmdeBoasTree.init (2 ^ L)) idx with hc2
  have hstc : ∀ y, Stores L c2 y ↔ y = idx := by
    intro y
    rw [hstc0 y]
    simp [not_stores_init]
  obtain ⟨hwfs2, hsts0⟩ :=
    ihAll ((k + 1) / 2) (by omega) S0 ci f2 hS0WF hcilt hfH
  set sm2 := insertF f2 S0 ci with hsm2
  have hsts : ∀ j, Stores ((k + 1) / 2) sm2 j ↔ j = ci ∨ j ∈ cl.map Prod.fst := by
    intro j
    rw [hsts0 j, hS0St j]
  have hcikeys : ci ∉ cl.map Prod.fst := getEntry_eq_none_iff.mp hget
  have hkeq : (setEntry cl ci c2).map Prod.fst = cl.map Prod.fst ++ [ci] :=
    keys_setEntry_of_notMem hcikeys
  have hnodup2 : (cl.map Prod.fst ++ [ci]).Nodup := by
    rw [List.nodup_append]
    refine ⟨hkeys, List.nodup_singleton ci, ?_⟩
    intro a ha hb
    simp only [List.mem_singleton] at hb
    subst hb
    exact hcikeys ha
  have hmem2 : ∀ p : Nat × VanEmdeBoasTree,
      p ∈ setEntry cl ci c2 ↔ p = (ci, c2) ∨ (p.1 ≠ ci ∧ p ∈ cl) :=
    fun p => mem_setEntry hkeys
  refine ⟨WF.node k _ _ _ _ _ hk rfl ⟨by omega, hmx2⟩ (by rw [hkeq]; exact hnodup2)
      ?_ ?_ ?_ ?_ ?_ ?_ ?_, ?_⟩
  · -- key bounds
    intro p hp
    rcases (hmem2 p).mp hp with rfl | ⟨_, hp2⟩
    · exact hcilt
    · exact hkeyLt p hp2
  · -- children well-formed
    intro p hp
    rcases (hmem2 p).mp hp with rfl | ⟨_, hp2⟩
    · exact hwfc2
    · exact hchild p hp2
  · -- children nonempty
    intro p hp
    rcases (hmem2 p).mp hp with rfl | ⟨_, hp2⟩
    · exact min_ne_none_of_stores hwfc2 ((hstc idx).mpr rfl)
    · exact hne p hp2
  · -- summary present iff clusters exist
    constructor
    · intro h
      exact Option.noConfusion h
    · intro h
      have : (ci, c2) ∈ setEntry cl ci c2 := (hmem2 _).mpr (Or.inl rfl)
      rw [h] at this
      simp at this
  · -- summary well-formed
    intro s hs
    injection hs with hs
    subst hs
    exact hwfs2
  · -- summary stores exactly the cluster keys
    intro s hs j
    injection hs with hs
    subst hs
    rw [hsts j, hkeq]
    simp only [List.mem_append, List.mem_singleton]
    constructor
    · rintro (h | h)
      · exact Or.inr h
      · exact Or.inl h
    · rintro (h | h)
      · exact Or.inr h
      · exact Or.inl h
  · -- cluster values strictly inside the bounds
    intro p hp j hs
    rcases (hmem2 p).mp hp with rfl | ⟨_, hp2⟩
    · have heq := (hstc j).mp hs
      subst heq
      show mn2 < ci * 2 ^ L + idx ∧ ci * 2 ^ L + idx < mx2
      rw [hval]
      exact ⟨hin1, hin2⟩
    · exact hbound2 p hp2 j hs
  · -- the stored set: old set plus x2
    intro y
    rw [stores_iff, stores_iff]
    constructor
    · rintro (h | h | ⟨i, d, j, hp, hs, rfl⟩)
      · exact Or.inr (Or.inl h)
      · exact Or.inr (Or.inr (Or.inl h))
      · rcases (hmem2 (i, d)).mp hp with heq | ⟨hne2, hp2⟩
        · have hi : i = ci := congrArg Prod.fst heq
          have hd : d = c2 := congrArg Prod.snd heq
          subst hi
          subst hd
          have heq2 := (hstc j).mp hs
          subst heq2
          exact Or.inl hval
        · exact Or.inr (Or.inr (Or.inr ⟨i, d, j, hp2, hs, rfl⟩))
    · rintro (rfl | h | h | ⟨i, d, j, hp, hs, rfl⟩)
      · refine Or.inr (Or.inr ⟨ci, c2, idx, (hmem2 _).mpr (Or.inl rfl), ?_, hval.symm⟩)
        exact (hstc idx).mpr rfl
      · exact Or.inl h
      · exact Or.inr (Or.inl h)
      · have hi : i ≠ ci := by
          intro h
          apply hcikeys
          rw [← h]
          exact List.mem_map.mpr ⟨(i, d), hp, rfl⟩
        exact Or.inr (Or.inr ⟨i, d, j, (hmem2 _).mpr (Or.inr ⟨hi, hp⟩), hs, rfl⟩)

/-- An empty node carries no recursive state. -/
theorem empty_no_rec {k : Nat} {t : VanEmdeBoasTree}
    (h : WF k t) (hm : t.min = none) :
    t.cluster = [] ∧ t.summary = none := by
  cases h with
  | leaf k r mno mxo hk hr hmm => exact ⟨rfl, rfl⟩
  | node k r mno mxo sm cl hk hr hmm hkeys hkeyLt hchild hne hsn hsWF
      hsSt hbound =>
    simp only [VanEmdeBoasTree.min] at hm
    subst hm
    have hcl : cl = [] := by
      cases hcl : cl with
      | nil => rfl
      | cons p rest =>
        exfalso
        have hmem : p ∈ cl := by
          rw [hcl]
          exact List.mem_cons_self _ _
        cases hpm : p.2.min with
        | none => exact hne p hmem hpm
        | some cm =>
          exact absurd (hbound p hmem cm (stores_of_min_eq hpm))
            (by simp [strictlyInside])
    exact ⟨by simpa [VanEmdeBoasTree.cluster] using hcl,
      by simpa [VanEmdeBoasTree.summary] using hsn.mpr hcl⟩

/-- Relating the stored set written with the swapped bounds to the one
written with the original bounds: `{x2} ∪ {mn2, mx2} = {x} ∪ {mn, mx}`
under the swap performed by `insert`. -/
theorem swap_bridge (mn mx x y : Nat) (C : Prop)
    (hmnmx : mn < mx) :
    (y = (if x < mn then mn else if mx < x then mx else x) ∨
      ((if x < mn then x else mn) = y ∨
        (if ¬ x < mn ∧ mx < x then x else mx) = y ∨ C)) ↔
    (y = x ∨ (mn = y ∨ mx = y ∨ C)) := by
  by_cases h1 : x < mn
  · rw [if_pos h1, if_pos h1, if_neg (by omega : ¬ (¬ x < mn ∧ mx < x))]
    constructor
    · rintro (rfl | rfl | h | h)
      · exact Or.inr (Or.inl rfl)
      · exact Or.inl rfl
      · exact Or.inr (Or.inr (Or.inl h))
      · exact Or.inr (Or.inr (Or.inr h))
    · rintro (rfl | h | h | h)
      · exact Or.inr (Or.inl rfl)
      · exact Or.inl h.symm
      · exact Or.inr (Or.inr (Or.inl h))
      · exact Or.inr (Or.inr (Or.inr h))
  · by_cases h2 : mx < x
    · rw [if_neg h1, if_pos h2, if_neg h1,
        if_pos (⟨h1, h2⟩ : ¬ x < mn ∧ mx < x)]
      constructor
      · rintro (rfl | rfl | rfl | h)
        · exact Or.inr (Or.inr (Or.inl rfl))
        · exact Or.inr (Or.inl rfl)
        · exact Or.inl rfl
        · exact Or.inr (Or.inr (Or.inr h))
      · rintro (rfl | h | h | h)
        · exact Or.inr (Or.inr (Or.inl rfl))
        · exact Or.inr (Or.inl h)
        · exact Or.inl h.symm
        · exact Or.inr (Or.inr (Or.inr h))
    · rw [if_neg h1, if_neg h2, if_neg h1,
        if_neg (by omega : ¬ (¬ x < mn ∧ mx < x))]

theorem insertF_correct : ∀ k t x f, WF k t → x < 2 ^ k → 2 ^ k ≤ f →
    WF k (insertF f t x) ∧
      ∀ y, Stores k (insertF f t x) y ↔ (y = x ∨ Stores k t y) := by
  intro k
  induction k using Nat.strong_induction_on with
  | _ k ih =>
    have ihAll : InsertIH k := fun m hm => ih m hm
    intro t x f hwf hx2k hf
    have hpos : 0 < 2 ^ k := Nat.two_pow_pos k
    obtain ⟨f2, rfl⟩ : ∃ f2, f = f2 + 1 := ⟨f - 1, by omega⟩
    cases hwf with
    | leaf k r mno mxo hk hr hmm =>
      subst hr
      rcases mno with _ | mn
      · have hmx := minmaxOK_none_left hmm
        subst hmx
        have hwf2 : WF k (VanEmdeBoasTree.mk (2 ^ k) none none none []) :=
          WF.leaf k _ none none hk rfl trivial
        simp only [insertF]
        rw [if_neg (by simp)]
        refine ⟨WF.leaf k _ (some x) (some x) hk rfl ⟨le_rfl, hx2k⟩, fun y => ?_⟩
        rw [stores_iff, stores_iff]
        simp only [Option.some.injEq]
        constructor
        · rintro (rfl | rfl | ⟨i, c, j, hmem, _, _⟩)
          · exact Or.inl rfl
          · exact Or.inl rfl
          · simp at hmem
        · rintro (rfl | h)
          · exact Or.inl rfl
          · rcases h with h | h | ⟨i, c, j, hmem, _, _⟩ <;> simp_all
      · obtain ⟨mx, rfl, hle, hlt⟩ := minmaxOK_some_left hmm
        have hwf2 : WF k (VanEmdeBoasTree.mk (2 ^ k) (some mn) (some mx) none []) :=
          WF.leaf k _ (some mn) (some mx) hk rfl ⟨hle, hlt⟩
        simp only [insertF]
        by_cases hx : some mn = some x ∨ some mx = some x
        · rw [if_pos hx]
          refine ⟨hwf2, fun y => ?_⟩
          simp only [Option.some.injEq] at hx
          constructor
          · intro h
            exact Or.inr h
          · rintro (rfl | h)
            · rcases hx with rfl | rfl
              · exact Stores.viaMin ..
              · exact Stores.viaMax ..
            · exact h
        · rw [if_neg hx]
          simp only [Option.some.injEq] at hx
          push_neg at hx
          by_cases hmneq : mn = mx
          · subst hmneq
            rw [if_pos rfl]
            by_cases hxlt : x < mn
            · rw [if_pos hxlt]
              refine ⟨WF.leaf k _ (some x) (some mn) hk rfl ⟨by omega, hlt⟩,
                fun y => ?_⟩
              rw [stores_iff, stores_iff]
              simp only [Option.some.injEq]
              constructor
              · rintro (rfl | rfl | ⟨i, c, j, hmem, _, _⟩)
                · exact Or.inl rfl
                · exact Or.inr (Or.inl rfl)
                · simp at hmem
              · rintro (rfl | h | h | ⟨i, c, j, hmem, _, _⟩)
                · exact Or.inl rfl
                · exact Or.inr (Or.inl h)
                · exact Or.inr (Or.inl h)
                · simp at hmem
            · rw [if_neg hxlt]
              by_cases hxgt : mn < x
              · rw [if_pos hxgt]
                refine ⟨WF.leaf k _ (some mn) (some x) hk rfl ⟨by omega, hx2k⟩,
                  fun y => ?_⟩
                rw [stores_iff, stores_iff]
                simp only [Option.some.injEq]
                constructor
                · rintro (rfl | rfl | ⟨i, c, j, hmem, _, _⟩)
                  · exact Or.inr (Or.inl rfl)
                  · exact Or.inl rfl
                  · simp at hmem
                · rintro (rfl | h | h | ⟨i, c, j, hmem, _, _⟩)
                  · exact Or.inr (Or.inl rfl)
                  · exact Or.inl h
                  · exact Or.inl h
                  · simp at hmem
              · exfalso
                exact hx.1 (by omega)
          · -- the two-element leaf already holds both values
            rw [if_neg hmneq]
            have hr2 : 2 ^ k = 2 := by
              have h1 : 2 ^ k ≤ 2 ^ 1 := Nat.pow_le_pow_right (by norm_num) hk
              omega
            rw [if_pos hr2]
            exfalso
            have hmn0 : mn = 0 := by omega
            have hmx1 : mx = 1 := by omega
            have : x = 0 ∨ x = 1 := by omega
            rcases this with rfl | rfl
            · exact hx.1 hmn0
            · exact hx.2 hmx1
    | node k r mno mxo sm cl hk hr hmm hkeys hkeyLt hchild hne hsn hsWF
        hsSt hbound =>
      subst hr
      have hwf2 : WF k (VanEmdeBoasTree.mk (2 ^ k) mno mxo sm cl) :=
        WF.node k _ mno mxo sm cl hk rfl hmm hkeys hkeyLt hchild hne hsn
          hsWF hsSt hbound
      have hf2 := pow_half_le hk hf
      rcases mno with _ | mn
      · have hmx := minmaxOK_none_left hmm
        subst hmx
        obtain ⟨hcl, hsm0⟩ := empty_no_rec hwf2 rfl
        simp only [VanEmdeBoasTree.cluster] at hcl
        simp only [VanEmdeBoasTree.summary] at hsm0
        subst hcl
        subst hsm0
        simp only [insertF]
        rw [if_neg (by simp)]
        refine ⟨WF.node k _ (some x) (some x) none [] hk rfl ⟨le_rfl, hx2k⟩
          (by simp) (by simp) (by simp) (by simp) (by simp)
          (fun s hs => by simp at hs) (fun s hs => by simp at hs) (by simp),
          fun y => ?_⟩
        rw [stores_iff, stores_iff]
        simp only [Option.some.injEq]
        constructor
        · rintro (rfl | rfl | ⟨i, c, j, hmem, _, _⟩)
          · exact Or.inl rfl
          · exact Or.inl rfl
          · simp at hmem
        · rintro (rfl | h)
          · exact Or.inl rfl
          · rcases h with h | h | ⟨i, c, j, hmem, _, _⟩ <;> simp_all
      · obtain ⟨mx, rfl, hle, hlt⟩ := minmaxOK_some_left hmm
        simp only [insertF]
        by_cases hx : some mn = some x ∨ some mx = some x
        · rw [if_pos hx]
          refine ⟨hwf2, fun y => ?_⟩
          simp only [Option.some.injEq] at hx
          constructor
          · intro h
            exact Or.inr h
          · rintro (rfl | h)
            · rcases hx with rfl | rfl
              · exact Stores.viaMin ..
              · exact Stores.viaMax ..
            · exact h
        · rw [if_neg hx]
          simp only [Option.some.injEq] at hx
          push_neg at hx
          by_cases hmneq : mn = mx
          · -- singleton node: only the cached bounds move
            subst hmneq
            obtain ⟨hcl, hsm0⟩ := singleton_no_rec hwf2 rfl rfl
            simp only [VanEmdeBoasTree.cluster] at hcl
            simp only [VanEmdeBoasTree.summary] at hsm0
            subst hcl
            subst hsm0
            rw [if_pos rfl]
            by_cases hxlt : x < mn
            · rw [if_pos hxlt]
              refine ⟨WF.node k _ (some x) (some mn) none [] hk rfl
                ⟨by omega, hlt⟩ (by simp) (by simp) (by simp) (by simp)
                (by simp) (fun s hs => by simp at hs)
                (fun s hs => by simp at hs) (by simp), fun y => ?_⟩
              rw [stores_iff, stores_iff]
              simp only [Option.some.injEq]
              constructor
              · rintro (rfl | rfl | ⟨i, c, j, hmem, _, _⟩)
                · exact Or.inl rfl
                · exact Or.inr (Or.inl rfl)
                · simp at hmem
              · rintro (rfl | h | h | ⟨i, c, j, hmem, _, _⟩)
                · exact Or.inl rfl
                · exact Or.inr (Or.inl h)
                · exact Or.inr (Or.inl h)
                · simp at hmem
            · rw [if_neg hxlt]
              by_cases hxgt : mn < x
              · rw [if_pos hxgt]
                refine ⟨WF.node k _ (some mn) (some x) none [] hk rfl
                  ⟨by omega, hx2k⟩ (by simp) (by simp) (by simp) (by simp)
                  (by simp) (fun s hs => by simp at hs)
                  (fun s hs => by simp at hs) (by simp), fun y => ?_⟩
                rw [stores_iff, stores_iff]
                simp only [Option.some.injEq]
                constructor
                · rintro (rfl | rfl | ⟨i, c, j, hmem, _, _⟩)
                  · exact Or.inr (Or.inl rfl)
                  · exact Or.inl rfl
                  · simp at hmem
                · rintro (rfl | h | h | ⟨i, c, j, hmem, _, _⟩)
                  · exact Or.inr (Or.inl rfl)
                  · exact Or.inl h
                  · exact Or.inl h
                  · simp at hmem
              · exfalso
                exact hx.1 (by omega)
          · -- recursive node with at least two values
            rw [if_neg hmneq, if_neg (two_pow_ne_two hk)]
            have hne1 : mn ≠ x := hx.1
            have hne2 : mx ≠ x := hx.2
            have hmnmx : mn < mx := by omega
            simp only [clusterIndex_mk, valueIndex_mk, hsqrt_mk, lsqrt_mk]
            have hin1 : (if x < mn then x else mn) <
                (if x < mn then mn else if mx < x then mx else x) := by
              split_ifs <;> omega
            have hin2 : (if x < mn then mn else if mx < x then mx else x) <
                (if ¬ x < mn ∧ mx < x then x else mx) := by
              split_ifs <;> omega
            have hmx2lt : (if ¬ x < mn ∧ mx < x then x else mx) < 2 ^ k := by
              split_ifs <;> omega
            have hboundNew : ∀ p ∈ cl, ∀ j, Stores (k / 2) p.2 j →
                strictlyInside (some (if x < mn then x else mn))
                  (some (if ¬ x < mn ∧ mx < x then x else mx))
                  (p.1 * 2 ^ (k / 2) + j) := by
              intro p hp j hs
              obtain ⟨a, b, ha, hb, h1, h2⟩ :=
                strictlyInside_elim (hbound p hp j hs)
              injection ha with ha
              injection hb with hb
              subst ha
              subst hb
              show (if x < mn then x else mn) < p.1 * 2 ^ (k / 2) + j ∧
                p.1 * 2 ^ (k / 2) + j < (if ¬ x < mn ∧ mx < x then x else mx)
              constructor <;> split_ifs <;> omega
            cases hsm : sm with
            | none =>
              subst hsm
              have hcl : cl = [] := hsn.mp rfl
              subst hcl
              simp only [getEntry]
              obtain ⟨hwfres, hstres⟩ := insert_node_fresh k f2
                (if x < mn then x else mn)
                (if ¬ x < mn ∧ mx < x then x else mx)
                (if x < mn then mn else if mx < x then mx else x)
                [] (VanEmdeBoasTree.init (2 ^ ((k + 1) / 2))) none ihAll hk
                (by simp) (by simp) (by simp) (by simp)
                (WF_init_pow _)
                (fun j => by simp [not_stores_init])
                (by simp) hin1 hin2 hmx2lt hf2.2 hf2.1 rfl
              refine ⟨hwfres, fun y => ?_⟩
              rw [hstres y, stores_iff, stores_iff]
              simp only [Option.some.injEq]
              exact swap_bridge mn mx x y _ hmnmx
            | some s =>
              subst hsm
              cases hget : getEntry cl
                  ((if x < mn then mn else if mx < x then mx else x) / 2 ^ (k / 2)) with
              | some c =>
                simp only [hget]
                obtain ⟨hwfres, hstres⟩ := insert_node_existing k f2
                  (if x < mn then x else mn)
                  (if ¬ x < mn ∧ mx < x then x else mx)
                  (if x < mn then mn else if mx < x then mx else x)
                  (some s) cl c ihAll hk hkeys hkeyLt hchild hne hsn hsWF hsSt
                  hboundNew hin1 hin2 hmx2lt hf2.2 hget
                refine ⟨hwfres, fun y => ?_⟩
                rw [hstres y, stores_iff, stores_iff]
                simp only [Option.some.injEq]
                exact swap_bridge mn mx x y _ hmnmx
              | none =>
                simp only [hget]
                obtain ⟨hwfres, hstres⟩ := insert_node_fresh k f2
                  (if x < mn then x else mn)
                  (if ¬ x < mn ∧ mx < x then x else mx)
                  (if x < mn then mn else if mx < x then mx else x)
                  cl s (some s) ihAll hk hkeys hkeyLt hchild hne
                  (hsWF s rfl) (hsSt s rfl)
                  hboundNew hin1 hin2 hmx2lt hf2.2 hf2.1 hget
                refine ⟨hwfres, fun y => ?_⟩
                rw [hstres y, stores_iff, stores_iff]
                simp only [Option.some.injEq]
                exact swap_bridge mn mx x y _ hmnmx

/-- Top-level `insert`: preserves the invariant and adds exactly `x`. -/
theorem insert_correct {k : Nat} {t : VanEmdeBoasTree} {x : Nat}
    (hwf : WF k t) (hx : x < 2 ^ k) :
    WF k (t.insert x) ∧
      ∀ y, Stores k (t.insert x) y ↔ (y = x ∨ Stores k t y) := by
  show WF k (insertF t.valueRange t x) ∧
    ∀ y, Stores k (insertF t.valueRange t x) y ↔ (y = x ∨ Stores k t y)
  rw [hwf.valueRange_eq]
  exact insertF_correct k t x _ hwf hx le_rfl

/-! ### Correctness of `delete` -/

/-- Statement of the delete induction hypothesis. -/
def DeleteIH (k : Nat) : Prop :=
  ∀ m, m < k → ∀ t x f, WF m t → 2 ^ m ≤ f →
    WF m (deleteF f t x) ∧
      ∀ y, Stores m (deleteF f t x) y ↔ (y ≠ x ∧ Stores m t y)

/-- The shared tail of `delete` at a recursive node: delete `idx` from the
cluster at `ci` (which exists) and clean up empty cluster and summary.
`mno2`/`mxo2` are the already-updated cached bounds. -/
theorem delete_tail_correct
    (k f2 ci idx : Nat) (mno2 mxo2 : Option Nat)
    (s c : VanEmdeBoasTree) (cl : List (Nat × VanEmdeBoasTree))
    (ihAll : DeleteIH k)
    (hk : 2 ≤ k)
    (hkeys : (cl.map Prod.fst).Nodup)
    (hkeyLt : ∀ p ∈ cl, p.1 < 2 ^ ((k + 1) / 2))
    (hchild : ∀ p ∈ cl, WF (k / 2) p.2)
    (hne : ∀ p ∈ cl, p.2.min ≠ none)
    (hsWF2 : WF ((k + 1) / 2) s)
    (hsSt2 : ∀ j, Stores ((k + 1) / 2) s j ↔ j ∈ cl.map Prod.fst)
    (hmm2 : minmaxOK (2 ^ k) mno2 mxo2)
    (hboundNew : ∀ p ∈ cl, ∀ j, Stores (k / 2) p.2 j →
      ¬ (p.1 = ci ∧ j = idx) →
      strictlyInside mno2 mxo2 (p.1 * 2 ^ (k / 2) + j))
    (hget : getEntry cl ci = some c)
    (hfL : 2 ^ (k / 2) ≤ f2) (hfH : 2 ^ ((k + 1) / 2) ≤ f2) :
    WF k (if (deleteF f2 c idx).min = none then
        (if (deleteF f2 s ci).min = none then
          .mk (2 ^ k) mno2 mxo2 none (delEntry cl ci)
        else
          .mk (2 ^ k) mno2 mxo2 (some (deleteF f2 s ci)) (delEntry cl ci))
      else
        .mk (2 ^ k) mno2 mxo2 (some s) (setEntry cl ci (deleteF f2 c idx))) ∧
    ∀ y, Stores k (if (deleteF f2 c idx).min = none then
        (if (deleteF f2 s ci).min = none then
          .mk (2 ^ k) mno2 mxo2 none (delEntry cl ci)
        else
          .mk (2 ^ k) mno2 mxo2 (some (deleteF f2 s ci)) (delEntry cl ci))
      else
        .mk (2 ^ k) mno2 mxo2 (some s) (setEntry cl ci (deleteF f2 c idx))) y ↔
      (mno2 = some y ∨ mxo2 = some y ∨
        ∃ i c2 j, (i, c2) ∈ cl ∧ Stores (k / 2) c2 j ∧
          y = i * 2 ^ (k / 2) + j ∧ ¬ (i = ci ∧ j = idx)) := by
  have hmemc : (ci, c) ∈ cl := mem_of_getEntry_eq_some hget
  have hcikeys : ci ∈ cl.map Prod.fst := List.mem_map.mpr ⟨(ci, c), hmemc, rfl⟩
  have hwfc := hchild _ hmemc
  obtain ⟨hwfc2, hstc⟩ := ihAll (k / 2) (by omega) c idx f2 hwfc hfL
  obtain ⟨hwfs2, hsts⟩ := ihAll ((k + 1) / 2) (by omega) s ci f2 hsWF2 hfH
  set c2 := deleteF f2 c idx with hc2def
  set s2 := deleteF f2 s ci with hs2def
  have hsts2 : ∀ j, Stores ((k + 1) / 2) s2 j ↔ j ≠ ci ∧ j ∈ cl.map Prod.fst := by
    intro j
    rw [hsts j, hsSt2 j]
  by_cases hc2e : c2.min = none
  · -- the cluster became empty: remove it and update the summary
    have hcempty : ∀ j, Stores (k / 2) c j → j = idx := by
      intro j hj
      by_contra hne2
      exact (min_none_iff_empty hwfc2).mp hc2e j ((hstc j).mpr ⟨hne2, hj⟩)
    have hmemdel : ∀ p : Nat × VanEmdeBoasTree,
        p ∈ delEntry cl ci ↔ p ∈ cl ∧ p.1 ≠ ci := fun p => mem_delEntry hkeys
    have hkeysdel : (delEntry cl ci).map Prod.fst = (cl.map Prod.fst).erase ci :=
      keys_delEntry
    have hkeysdel2 : ∀ j, j ∈ (delEntry cl ci).map Prod.fst ↔
        j ≠ ci ∧ j ∈ cl.map Prod.fst := by
      intro j
      rw [hkeysdel, hkeys.mem_erase_iff]
    have hnodupdel : ((delEntry cl ci).map Prod.fst).Nodup := by
      rw [hkeysdel]
      exact hkeys.erase ci
    have hsts3 : ∀ j, Stores ((k + 1) / 2) s2 j ↔
        j ∈ (delEntry cl ci).map Prod.fst := by
      intro j
      rw [hsts2 j, hkeysdel2 j]
    -- the residual cluster contents
    have hcontent : ∀ y,
        (∃ i d j, (i, d) ∈ delEntry cl ci ∧ Stores (k / 2) d j ∧
          y = i * 2 ^ (k / 2) + j) ↔
        (∃ i d j, (i, d) ∈ cl ∧ Stores (k / 2) d j ∧
          y = i * 2 ^ (k / 2) + j ∧ ¬ (i = ci ∧ j = idx)) := by
      intro y
      constructor
      · rintro ⟨i, d, j, hp, hs, rfl⟩
        obtain ⟨hp2, hne3⟩ := (hmemdel _).mp hp
        exact ⟨i, d, j, hp2, hs, rfl, fun h => hne3 h.1⟩
      · rintro ⟨i, d, j, hp, hs, rfl, hne3⟩
        by_cases hi : i = ci
        · subst hi
          have hd : d = c := by
            have hq := getEntry_eq_some_of_mem hkeys hp
            rw [hget] at hq
            injection hq with h2
            exact h2.symm
          subst hd
          exact absurd ⟨rfl, hcempty j hs⟩ hne3
        · exact ⟨i, d, j, (hmemdel _).mpr ⟨hp, hi⟩, hs, rfl⟩
    rw [if_pos hc2e]
    by_cases hs2e : s2.min = none
    · -- the summary became empty too: all clusters are gone
      have hdelnil : delEntry cl ci = [] := by
        rw [List.eq_nil_iff_forall_not_mem]
        intro p hp
        obtain ⟨hp2, hne3⟩ := (hmemdel _).mp hp
        have : Stores ((k + 1) / 2) s2 p.1 :=
          (hsts2 p.1).mpr ⟨hne3, List.mem_map.mpr ⟨p, hp2, rfl⟩⟩
        exact (min_none_iff_empty hwfs2).mp hs2e p.1 this
      rw [if_pos hs2e]
      constructor
      · rw [hdelnil]
        refine WF.node k _ mno2 mxo2 none [] hk rfl hmm2 (by simp) (by simp)
          (by simp) (by simp) (by simp) (fun s3 hs3 => by simp at hs3)
          (fun s3 hs3 => by simp at hs3) (by simp)
      · intro y
        rw [stores_iff, ← hcontent y]
    · -- keep the pruned summary
      rw [if_neg hs2e]
      have hdelne : delEntry cl ci ≠ [] := by
        intro hnil
        apply hs2e
        rw [min_none_iff_empty hwfs2]
        intro j hj
        have := (hsts3 j).mp hj
        rw [hnil] at this
        simp at this
      constructor
      · refine WF.node k _ mno2 mxo2 (some s2) (delEntry cl ci) hk rfl hmm2
          hnodupdel ?_ ?_ ?_ ?_ ?_ ?_ ?_
        · intro p hp
          exact hkeyLt p ((hmemdel p).mp hp).1
        · intro p hp
          exact hchild p ((hmemdel p).mp hp).1
        · intro p hp
          exact hne p ((hmemdel p).mp hp).1
        · constructor
          · intro h
            exact Option.noConfusion h
          · intro h
            exact absurd h hdelne
        · intro s3 hs3
          injection hs3 with hs3
          subst hs3
          exact hwfs2
        · intro s3 hs3 j
          injection hs3 with hs3
          subst hs3
          exact hsts3 j
        · intro p hp j hs
          obtain ⟨hp2, hne3⟩ := (hmemdel p).mp hp
          exact hboundNew p hp2 j hs (fun h => hne3 h.1)
      · intro y
        rw [stores_iff, ← hcontent y]
  · -- the cluster stays nonempty: write the shrunken child back
    rw [if_neg hc2e]
    have hmemset : ∀ p : Nat × VanEmdeBoasTree,
        p ∈ setEntry cl ci c2 ↔ p = (ci, c2) ∨ (p.1 ≠ ci ∧ p ∈ cl) :=
      fun p => mem_setEntry hkeys
    have hkeq : (setEntry cl ci c2).map Prod.fst = cl.map Prod.fst :=
      keys_setEntry_of_mem hcikeys
    constructor
    · refine WF.node k _ mno2 mxo2 (some s) (setEntry cl ci c2) hk rfl hmm2
        (hkeq ▸ hkeys) ?_ ?_ ?_ ?_ ?_ ?_ ?_
      · intro p hp
        rcases (hmemset p).mp hp with rfl | ⟨_, hp2⟩
        · exact hkeyLt (ci, c) hmemc
        · exact hkeyLt p hp2
      · intro p hp
        rcases (hmemset p).mp hp with rfl | ⟨_, hp2⟩
        · exact hwfc2
        · exact hchild p hp2
      · intro p hp
        rcases (hmemset p).mp hp with rfl | ⟨_, hp2⟩
        · exact hc2e
        · exact hne p hp2
      · constructor
        · intro h
          exact Option.noConfusion h
        · intro h
          have : (ci, c2) ∈ setEntry cl ci c2 := (hmemset _).mpr (Or.inl rfl)
          rw [h] at this
          simp at this
      · intro s3 hs3
        injection hs3 with hs3
        subst hs3
        exact hsWF2
      · intro s3 hs3 j
        injection hs3 with hs3
        subst hs3
        rw [hkeq]
        exact hsSt2 j
      · intro p hp j hs
        rcases (hmemset p).mp hp with rfl | ⟨hne3, hp2⟩
        · obtain ⟨hjne, hjs⟩ := (hstc j).mp hs
          exact hboundNew (ci, c) hmemc j hjs (fun h => hjne h.2)
        · exact hboundNew p hp2 j hs (fun h => hne3 h.1)
    · intro y
      rw [stores_iff]
      constructor
      · rintro (h | h | ⟨i, d, j, hp, hs, rfl⟩)
        · exact Or.inl h
        · exact Or.inr (Or.inl h)
        · rcases (hmemset (i, d)).mp hp with heq | ⟨hne3, hp2⟩
          · have hi : i = ci := congrArg Prod.fst heq
            have hd : d = c2 := congrArg Prod.snd heq
            subst hi
            subst hd
            obtain ⟨hjne, hjs⟩ := (hstc j).mp hs
            exact Or.inr (Or.inr ⟨i, c, j, hmemc, hjs, rfl, fun h => hjne h.2⟩)
          · exact Or.inr (Or.inr ⟨i, d, j, hp2, hs, rfl, fun h => hne3 h.1⟩)
      · rintro (h | h | ⟨i, d, j, hp, hs, rfl, hne3⟩)
        · exact Or.inl h
        · exact Or.inr (Or.inl h)
        · by_cases hi : i = ci
          · subst hi
            have hd : d = c := by
              have hq := getEntry_eq_some_of_mem hkeys hp
              rw [hget] at hq
              injection hq with h2
              exact h2.symm
            subst hd
            have hjne : j ≠ idx := fun h => hne3 ⟨rfl, h⟩
            exact Or.inr (Or.inr ⟨i, c2, j, (hmemset _).mpr (Or.inl rfl),
              (hstc j).mpr ⟨hjne, hs⟩, rfl⟩)
          · exact Or.inr (Or.inr ⟨i, d, j,
              (hmemset _).mpr (Or.inr ⟨hi, hp⟩), hs, rfl⟩)

theorem deleteF_correct : ∀ k t x f, WF k t → 2 ^ k ≤ f →
    WF k (deleteF f t x) ∧
      ∀ y, Stores k (deleteF f t x) y ↔ (y ≠ x ∧ Stores k t y) := by
  intro k
  induction k using Nat.strong_induction_on with
  | _ k ih =>
    have ihAll : DeleteIH k := fun m hm => ih m hm
    intro t x f hwf hf
    have hpos : 0 < 2 ^ k := Nat.two_pow_pos k
    obtain ⟨f2, rfl⟩ : ∃ f2, f = f2 + 1 := ⟨f - 1, by omega⟩
    cases hwf with
    | leaf k r mno mxo hk hr hmm =>
      subst hr
      have hwf2 : WF k (VanEmdeBoasTree.mk (2 ^ k) mno mxo none []) :=
        WF.leaf k _ mno mxo hk rfl hmm
      rcases mno with _ | mn
      · have hmx := minmaxOK_none_left hmm
        subst hmx
        simp only [deleteF]
        have hemp := not_stores_of_min_none hwf2 rfl
        refine ⟨hwf2, fun y => ?_⟩
        constructor
        · intro h
          exact absurd h (hemp y)
        · rintro ⟨_, h⟩
          exact absurd h (hemp y)
      · obtain ⟨mx, rfl, hle, hlt⟩ := minmaxOK_some_left hmm
        simp only [deleteF]
        by_cases hout : x < mn ∨ mx < x
        · rw [if_pos hout]
          refine ⟨hwf2, fun y => ?_⟩
          constructor
          · intro h
            have h1 := min_le_stores hwf2 rfl y h
            have h2 := stores_le_max hwf2 rfl y h
            exact ⟨by omega, h⟩
          · exact And.right
        · rw [if_neg hout]
          push_neg at hout
          by_cases hmneq : mn = mx
          · subst hmneq
            rw [if_pos rfl]
            have hxeq : x = mn := by omega
            subst hxeq
            refine ⟨WF.leaf k _ none none hk rfl trivial, fun y => ?_⟩
            rw [stores_iff]
            constructor
            · rintro (h | h | ⟨i, d, j, hp, _, _⟩)
              · exact Option.noConfusion h
              · exact Option.noConfusion h
              · simp at hp
            · rintro ⟨hyne, h⟩
              have := (stores_singleton_iff hwf2 rfl rfl y).mp h
              exact absurd this hyne
          · rw [if_neg hmneq]
            have hr2 : 2 ^ k = 2 := by
              have h1 : 2 ^ k ≤ 2 ^ 1 := Nat.pow_le_pow_right (by norm_num) hk
              omega
            rw [if_pos hr2]
            have hmn0 : mn = 0 := by omega
            have hmx1 : mx = 1 := by omega
            subst hmn0
            subst hmx1
            by_cases hx0 : x = 0
            · subst hx0
              rw [if_pos rfl]
              refine ⟨WF.leaf k _ (some 1) (some 1) hk rfl ⟨le_rfl, by omega⟩,
                fun y => ?_⟩
              rw [stores_iff, stores_iff]
              simp only [Option.some.injEq]
              constructor
              · rintro (rfl | rfl | ⟨i, d, j, hp, _, _⟩)
                · exact ⟨by omega, Or.inr (Or.inl rfl)⟩
                · exact ⟨by omega, Or.inr (Or.inl rfl)⟩
                · simp at hp
              · rintro ⟨hyne, (h | h | ⟨i, d, j, hp, _, _⟩)⟩
                · omega
                · exact Or.inl h
                · simp at hp
            · rw [if_neg hx0]
              have hx1 : x = 1 := by omega
              subst hx1
              refine ⟨WF.leaf k _ (some 0) (some 0) hk rfl ⟨le_rfl, by omega⟩,
                fun y => ?_⟩
              rw [stores_iff, stores_iff]
              simp only [Option.some.injEq]
              constructor
              · rintro (rfl | rfl | ⟨i, d, j, hp, _, _⟩)
                · exact ⟨by omega, Or.inl rfl⟩
                · exact ⟨by omega, Or.inl rfl⟩
                · simp at hp
              · rintro ⟨hyne, (h | h | ⟨i, d, j, hp, _, _⟩)⟩
                · exact Or.inl h
                · omega
                · simp at hp
    | node k r mno mxo sm cl hk hr hmm hkeys hkeyLt hchild hne hsn hsWF
        hsSt hbound =>
      subst hr
      have hwf2 : WF k (VanEmdeBoasTree.mk (2 ^ k) mno mxo sm cl) :=
        WF.node k _ mno mxo sm cl hk rfl hmm hkeys hkeyLt hchild hne hsn
          hsWF hsSt hbound
      have hf2 := pow_half_le hk hf
      rcases mno with _ | mn
      · have hmx := minmaxOK_none_left hmm
        subst hmx
        simp only [deleteF]
        have hemp := not_stores_of_min_none hwf2 rfl
        refine ⟨hwf2, fun y => ?_⟩
        constructor
        · intro h
          exact absurd h (hemp y)
        · rintro ⟨_, h⟩
          exact absurd h (hemp y)
      · obtain ⟨mx, rfl, hle, hlt⟩ := minmaxOK_some_left hmm
        simp only [deleteF]
        by_cases hout : x < mn ∨ mx < x
        · rw [if_pos hout]
          refine ⟨hwf2, fun y => ?_⟩
          constructor
          · intro h
            have h1 := min_le_stores hwf2 rfl y h
            have h2 := stores_le_max hwf2 rfl y h
            exact ⟨by omega, h⟩
          · exact And.right
        · rw [if_neg hout]
          push_neg at hout
          by_cases hmneq : mn = mx
          · subst hmneq
            obtain ⟨hcl, hsm0⟩ := singleton_no_rec hwf2 rfl rfl
            simp only [VanEmdeBoasTree.cluster] at hcl
            simp only [VanEmdeBoasTree.summary] at hsm0
            subst hcl
            subst hsm0
            rw [if_pos rfl]
            have hxeq : x = mn := by omega
            subst hxeq
            refine ⟨WF_empty k, fun y => ?_⟩
            rw [stores_iff]
            constructor
            · rintro (h | h | ⟨i, d, j, hp, _, _⟩)
              · exact Option.noConfusion h
              · exact Option.noConfusion h
              · simp at hp
            · rintro ⟨hyne, h⟩
              have := (stores_singleton_iff hwf2 rfl rfl y).mp h
              exact absurd this hyne
          · rw [if_neg hmneq, if_neg (two_pow_ne_two hk)]
            have hmnmx : mn < mx := by omega
            by_cases hxmn : x = mn
            · -- delete the cached minimum
              subst hxmn
              rw [if_pos rfl]
              cases hsm : sm with
              | none =>
                subst hsm
                have hcl : cl = [] := hsn.mp rfl
                subst hcl
                simp only []
                refine ⟨WF.node k _ (some mx) (some mx) none [] hk rfl
                  ⟨le_rfl, hlt⟩ (by simp) (by simp) (by simp) (by simp)
                  (by simp) (fun s3 hs3 => by simp at hs3)
                  (fun s3 hs3 => by simp at hs3) (by simp), fun y => ?_⟩
                rw [stores_iff, stores_iff]
                simp only [Option.some.injEq]
                constructor
                · rintro (rfl | rfl | ⟨i, d, j, hp, _, _⟩)
                  · exact ⟨by omega, Or.inr (Or.inl rfl)⟩
                  · exact ⟨by omega, Or.inr (Or.inl rfl)⟩
                  · simp at hp
                · rintro ⟨hyne, (h | h | ⟨i, d, j, hp, _, _⟩)⟩
                  · omega
                  · exact Or.inl h
                  · simp at hp
              | some s =>
                subst hsm
                have hwfS : WF ((k + 1) / 2) s := hsWF s rfl
                have hstS : ∀ j, Stores ((k + 1) / 2) s j ↔ j ∈ cl.map Prod.fst :=
                  hsSt s rfl
                simp only []
                cases hsmin : s.min with
                | none =>
                  exfalso
                  cases hcl : cl with
                  | nil => exact Option.noConfusion (hsn.mpr hcl)
                  | cons p rest =>
                    have hpK : p.1 ∈ cl.map Prod.fst := by
                      rw [hcl]
                      exact List.mem_map.mpr ⟨p, List.mem_cons_self _ _, rfl⟩
                    exact not_stores_of_min_none hwfS hsmin p.1
                      ((hstS p.1).mpr hpK)
                | some sci =>
                  simp only []
                  cases hgc : getEntry cl sci with
                  | none =>
                    exfalso
                    have hsciK : sci ∈ cl.map Prod.fst :=
                      (hstS sci).mp (stores_of_min_eq hsmin)
                    exact getEntry_eq_none_iff.mp hgc hsciK
                  | some c =>
                    simp only []
                    cases hcm : c.min with
                    | none =>
                      exact absurd hcm (hne _ (mem_of_getEntry_eq_some hgc))
                    | some cidx =>
                      simp only [value_mk]
                      have hmemc : (sci, c) ∈ cl := mem_of_getEntry_eq_some hgc
                      have hwfc : WF (k / 2) c := hchild _ hmemc
                      have hstcidx : Stores (k / 2) c cidx := stores_of_min_eq hcm
                      have hBsc : strictlyInside (some x) (some mx)
                          (sci * 2 ^ (k / 2) + cidx) :=
                        hbound (sci, c) hmemc cidx hstcidx
                      obtain ⟨a, b, ha, hb, hNlo, hNhi⟩ :=
                        strictlyInside_elim hBsc
                      injection ha with ha
                      injection hb with hb
                      subst ha
                      subst hb
                      have hcidxlt : cidx < 2 ^ (k / 2) :=
                        stores_lt _ _ _ hwfc hstcidx
                      have hboundNew : ∀ p ∈ cl, ∀ j, Stores (k / 2) p.2 j →
                          ¬ (p.1 = sci ∧ j = cidx) →
                          strictlyInside (some (sci * 2 ^ (k / 2) + cidx))
                            (some mx) (p.1 * 2 ^ (k / 2) + j) := by
                        intro p hp j hs hnot
                        obtain ⟨a2, b2, ha2, hb2, h1, h2⟩ :=
                          strictlyInside_elim (hbound p hp j hs)
                        injection ha2 with ha2
                        injection hb2 with hb2
                        subst ha2
                        subst hb2
                        refine ⟨?_, h2⟩
                        have hpK : p.1 ∈ cl.map Prod.fst :=
                          List.mem_map.mpr ⟨p, hp, rfl⟩
                        have hscile : sci ≤ p.1 :=
                          min_le_stores hwfS hsmin p.1 ((hstS p.1).mpr hpK)
                        have hjlt : j < 2 ^ (k / 2) :=
                          stores_lt _ _ _ (hchild p hp) hs
                        rcases Nat.lt_or_ge sci p.1 with hlt2 | hge
                        · exact value_lt_of_lt (k / 2) sci cidx p.1 j hcidxlt hlt2
                        · have hpe : p.1 = sci := by omega
                          have hq : getEntry cl p.1 = some p.2 :=
                            getEntry_eq_some_of_mem hkeys hp
                          rw [hpe, hgc] at hq
                          injection hq with hq
                          have hcidxle : cidx ≤ j := by
                            apply min_le_stores hwfc hcm j
                            rw [hq]
                            exact hs
                          have hjne : j ≠ cidx := fun h => hnot ⟨hpe, h⟩
                          rw [hpe]
                          omega
                      obtain ⟨hwfres, hstres⟩ := delete_tail_correct k f2 sci cidx
                        (some (sci * 2 ^ (k / 2) + cidx)) (some mx) s c cl
                        ihAll hk hkeys hkeyLt hchild hne hwfS hstS
                        ⟨by omega, hlt⟩ hboundNew hgc hf2.2 hf2.1
                      refine ⟨hwfres, fun y => ?_⟩
                      rw [hstres y, stores_iff]
                      simp only [Option.some.injEq]
                      constructor
                      · rintro (rfl | rfl | ⟨i, d, j, hp, hs, rfl, hnot⟩)
                        · exact ⟨by omega,
                            Or.inr (Or.inr ⟨sci, c, cidx, hmemc, hstcidx, rfl⟩)⟩
                        · exact ⟨by omega, Or.inr (Or.inl rfl)⟩
                        · have hBi : strictlyInside (some x) (some mx)
                              (i * 2 ^ (k / 2) + j) := hbound (i, d) hp j hs
                          obtain ⟨a2, b2, ha2, hb2, h1, h2⟩ :=
                            strictlyInside_elim hBi
                          injection ha2 with ha2
                          injection hb2 with hb2
                          subst ha2
                          subst hb2
                          exact ⟨by omega, Or.inr (Or.inr ⟨i, d, j, hp, hs, rfl⟩)⟩
                      · rintro ⟨hyne, (h | h | ⟨i, d, j, hp, hs, rfl⟩)⟩
                        · omega
                        · exact Or.inr (Or.inl h)
                        · by_cases hij : i = sci ∧ j = cidx
                          · obtain ⟨rfl, rfl⟩ := hij
                            exact Or.inl rfl
                          · exact Or.inr (Or.inr ⟨i, d, j, hp, hs, rfl, hij⟩)
            · -- not the minimum
              rw [if_neg hxmn]
              by_cases hxmx : x = mx
              · -- delete the cached maximum
                subst hxmx
                rw [if_pos rfl]
                cases hsm : sm with
                | none =>
                  subst hsm
                  have hcl : cl = [] := hsn.mp rfl
                  subst hcl
                  simp only []
                  refine ⟨WF.node k _ (some mn) (some mn) none [] hk rfl
                    ⟨le_rfl, by omega⟩ (by simp) (by simp) (by simp) (by simp)
                    (by simp) (fun s3 hs3 => by simp at hs3)
                    (fun s3 hs3 => by simp at hs3) (by simp), fun y => ?_⟩
                  rw [stores_iff, stores_iff]
                  simp only [Option.some.injEq]
                  constructor
                  · rintro (rfl | rfl | ⟨i, d, j, hp, _, _⟩)
                    · exact ⟨by omega, Or.inl rfl⟩
                    · exact ⟨by omega, Or.inl rfl⟩
                    · simp at hp
                  · rintro ⟨hyne, (h | h | ⟨i, d, j, hp, _, _⟩)⟩
                    · exact Or.inl h
                    · omega
                    · simp at hp
                | some s =>
                  subst hsm
                  have hwfS : WF ((k + 1) / 2) s := hsWF s rfl
                  have hstS : ∀ j, Stores ((k + 1) / 2) s j ↔ j ∈ cl.map Prod.fst :=
                    hsSt s rfl
                  simp only []
                  cases hsmax : s.max with
                  | none =>
                    exfalso
                    have hsmin2 : s.min = none :=
                      (min_none_iff_max_none hwfS).mpr hsmax
                    cases hcl : cl with
                    | nil => exact Option.noConfusion (hsn.mpr hcl)
                    | cons p rest =>
                      have hpK : p.1 ∈ cl.map Prod.fst := by
                        rw [hcl]
                        exact List.mem_map.mpr ⟨p, List.mem_cons_self _ _, rfl⟩
                      exact not_stores_of_min_none hwfS hsmin2 p.1
                        ((hstS p.1).mpr hpK)
                  | some sci =>
                    simp only []
                    cases hgc : getEntry cl sci with
                    | none =>
                      exfalso
                      have hsciK : sci ∈ cl.map Prod.fst :=
                        (hstS sci).mp (stores_of_max_eq hsmax)
                      exact getEntry_eq_none_iff.mp hgc hsciK
                    | some c =>
                      simp only []
                      cases hcm : c.max with
                      | none =>
                        exfalso
                        have hmemc : (sci, c) ∈ cl := mem_of_getEntry_eq_some hgc
                        have hcmin : c.min = none :=
                          (min_none_iff_max_none (hchild _ hmemc)).mpr hcm
                        exact hne _ hmemc hcmin
                      | some cidx =>
                        simp only [value_mk]
                        have hmemc : (sci, c) ∈ cl := mem_of_getEntry_eq_some hgc
                        have hwfc : WF (k / 2) c := hchild _ hmemc
                        have hstcidx : Stores (k / 2) c cidx := stores_of_max_eq hcm
                        have hBsc : strictlyInside (some mn) (some x)
                            (sci * 2 ^ (k / 2) + cidx) :=
                          hbound (sci, c) hmemc cidx hstcidx
                        obtain ⟨a, b, ha, hb, hNlo, hNhi⟩ :=
                          strictlyInside_elim hBsc
                        injection ha with ha
                        injection hb with hb
                        subst ha
                        subst hb
                        have hcidxlt : cidx < 2 ^ (k / 2) :=
                          stores_lt _ _ _ hwfc hstcidx
                        have hboundNew : ∀ p ∈ cl, ∀ j, Stores (k / 2) p.2 j →
                            ¬ (p.1 = sci ∧ j = cidx) →
                            strictlyInside (some mn)
                              (some (sci * 2 ^ (k / 2) + cidx))
                              (p.1 * 2 ^ (k / 2) + j) := by
                          intro p hp j hs hnot
                          obtain ⟨a2, b2, ha2, hb2, h1, h2⟩ :=
                            strictlyInside_elim (hbound p hp j hs)
                          injection ha2 with ha2
                          injection hb2 with hb2
                          subst ha2
                          subst hb2
                          refine ⟨h1, ?_⟩
                          have hpK : p.1 ∈ cl.map Prod.fst :=
                            List.mem_map.mpr ⟨p, hp, rfl⟩
                          have hscile : p.1 ≤ sci :=
                            stores_le_max hwfS hsmax p.1 ((hstS p.1).mpr hpK)
                          have hjlt : j < 2 ^ (k / 2) :=
                            stores_lt _ _ _ (hchild p hp) hs
                          rcases Nat.lt_or_ge p.1 sci with hlt2 | hge
                          · exact value_lt_of_lt (k / 2) p.1 j sci cidx hjlt hlt2
                          · have hpe : p.1 = sci := by omega
                            have hq : getEntry cl p.1 = some p.2 :=
                              getEntry_eq_some_of_mem hkeys hp
                            rw [hpe, hgc] at hq
                            injection hq with hq
                            have hcidxle : j ≤ cidx := by
                              apply stores_le_max hwfc hcm j
                              rw [hq]
                              exact hs
                            have hjne : j ≠ cidx := fun h => hnot ⟨hpe, h⟩
                            rw [hpe]
                            omega
                        obtain ⟨hwfres, hstres⟩ := delete_tail_correct k f2 sci cidx
                          (some mn) (some (sci * 2 ^ (k / 2) + cidx)) s c cl
                          ihAll hk hkeys hkeyLt hchild hne hwfS hstS
                          ⟨by omega, by omega⟩ hboundNew hgc hf2.2 hf2.1
                        refine ⟨hwfres, fun y => ?_⟩
                        rw [hstres y, stores_iff]
                        simp only [Option.some.injEq]
                        constructor
                        · rintro (rfl | rfl | ⟨i, d, j, hp, hs, rfl, hnot⟩)
                          · exact ⟨by omega, Or.inl rfl⟩
                          · exact ⟨by omega,
                              Or.inr (Or.inr ⟨sci, c, cidx, hmemc, hstcidx, rfl⟩)⟩
                          · have hBi : strictlyInside (some mn) (some x)
                                (i * 2 ^ (k / 2) + j) := hbound (i, d) hp j hs
                            obtain ⟨a2, b2, ha2, hb2, h1, h2⟩ :=
                              strictlyInside_elim hBi
                            injection ha2 with ha2
                            injection hb2 with hb2
                            subst ha2
                            subst hb2
                            exact ⟨by omega, Or.inr (Or.inr ⟨i, d, j, hp, hs, rfl⟩)⟩
                        · rintro ⟨hyne, (h | h | ⟨i, d, j, hp, hs, rfl⟩)⟩
                          · exact Or.inl h
                          · omega
                          · by_cases hij : i = sci ∧ j = cidx
                            · obtain ⟨rfl, rfl⟩ := hij
                              exact Or.inr (Or.inl rfl)
                            · exact Or.inr (Or.inr ⟨i, d, j, hp, hs, rfl, hij⟩)
              · -- strictly between the cached bounds
                rw [if_neg hxmx]
                rw [clusterIndex_mk, valueIndex_mk]
                have hxlt : x < 2 ^ k := by omega
                have hidxlt : x % 2 ^ (k / 2) < 2 ^ (k / 2) :=
                  Nat.mod_lt _ (Nat.two_pow_pos _)
                have hxval : x / 2 ^ (k / 2) * 2 ^ (k / 2) + x % 2 ^ (k / 2) = x :=
                  div_mod_recompose (k / 2) x
                cases hget : getEntry cl (x / 2 ^ (k / 2)) with
                | none =>
                  simp only []
                  -- x is not stored: nothing changes
                  have hnx : ¬ Stores k (VanEmdeBoasTree.mk (2 ^ k) (some mn)
                      (some mx) sm cl) x := by
                    intro h
                    rcases (stores_iff).mp h with hc | hc | ⟨i, d, j, hp, hs, hv⟩
                    · exact hxmn (by injection hc with hc; exact hc.symm)
                    · exact hxmx (by injection hc with hc; exact hc.symm)
                    · have hj : j < 2 ^ (k / 2) :=
                        stores_lt _ _ _ (hchild _ hp) hs
                      have hi : i = x / 2 ^ (k / 2) := by
                        rw [hv, value_div hj]
                      subst hi
                      rw [getEntry_eq_some_of_mem hkeys hp] at hget
                      exact Option.noConfusion hget
                  refine ⟨hwf2, fun y => ?_⟩
                  constructor
                  · intro h
                    refine ⟨?_, h⟩
                    rintro rfl
                    exact hnx h
                  · exact And.right
                | some c =>
                  cases hsm : sm with
                  | none =>
                    exfalso
                    have hcl : cl = [] := hsn.mp hsm
                    subst hcl
                    simp [getEntry] at hget
                  | some s =>
                    subst hsm
                    simp only []
                    have hwfS : WF ((k + 1) / 2) s := hsWF s rfl
                    have hstS : ∀ j, Stores ((k + 1) / 2) s j ↔
                        j ∈ cl.map Prod.fst := hsSt s rfl
                    have hmemc : (x / 2 ^ (k / 2), c) ∈ cl :=
                      mem_of_getEntry_eq_some hget
                    have hboundNew : ∀ p ∈ cl, ∀ j, Stores (k / 2) p.2 j →
                        ¬ (p.1 = x / 2 ^ (k / 2) ∧ j = x % 2 ^ (k / 2)) →
                        strictlyInside (some mn) (some mx)
                          (p.1 * 2 ^ (k / 2) + j) := by
                      intro p hp j hs _
                      exact hbound p hp j hs
                    obtain ⟨hwfres, hstres⟩ := delete_tail_correct k f2
                      (x / 2 ^ (k / 2)) (x % 2 ^ (k / 2))
                      (some mn) (some mx) s c cl
                      ihAll hk hkeys hkeyLt hchild hne hwfS hstS
                      ⟨hle, hlt⟩ hboundNew hget hf2.2 hf2.1
                    refine ⟨hwfres, fun y => ?_⟩
                    rw [hstres y, stores_iff]
                    simp only [Option.some.injEq]
                    constructor
                    · rintro (rfl | rfl | ⟨i, d, j, hp, hs, rfl, hnot⟩)
                      · exact ⟨fun h => hxmn h.symm, Or.inl rfl⟩
                      · exact ⟨fun h => hxmx h.symm, Or.inr (Or.inl rfl)⟩
                      · have hj : j < 2 ^ (k / 2) :=
                          stores_lt _ _ _ (hchild _ hp) hs
                        refine ⟨?_, Or.inr (Or.inr ⟨i, d, j, hp, hs, rfl⟩)⟩
                        intro hv
                        apply hnot
                        constructor
                        · rw [← hv] at hxval ⊢
                          rw [value_div hj]
                        · rw [← hv] at hxval ⊢
                          rw [value_mod hj]
                    · rintro ⟨hyne, (h | h | ⟨i, d, j, hp, hs, rfl⟩)⟩
                      · exact Or.inl h
                      · exact Or.inr (Or.inl h)
                      · refine Or.inr (Or.inr ⟨i, d, j, hp, hs, rfl, ?_⟩)
                        rintro ⟨rfl, rfl⟩
                        exact hyne hxval

/-- Top-level correctness of `delete`: it preserves the invariant and
removes exactly `x` from the stored set. -/
theorem delete_correct {k : Nat} {t : VanEmdeBoasTree} {x : Nat}
    (hwf : WF k t) :
    WF k (t.delete x) ∧
      ∀ y, Stores k (t.delete x) y ↔ (y ≠ x ∧ Stores k t y) := by
  show WF k (deleteF t.valueRange t x) ∧
    ∀ y, Stores k (deleteF t.valueRange t x) y ↔ (y ≠ x ∧ Stores k t y)
  rw [hwf.valueRange_eq]
  exact deleteF_correct k t x _ hwf le_rfl

/-! ### Absorption: inserting a present value / deleting an absent value
changes nothing, at the level of the concrete state -/

theorem insertF_absorb : ∀ k t x f, WF k t → Stores k t x → 2 ^ k ≤ f →
    insertF f t x = t := by
  intro k
  induction k using Nat.strong_induction_on with
  | _ k ih =>
    intro t x f hwf hst hf
    have hpos : 0 < 2 ^ k := Nat.two_pow_pos k
    obtain ⟨f2, rfl⟩ : ∃ f2, f = f2 + 1 := ⟨f - 1, by omega⟩
    cases hwf with
    | leaf k r mno mxo hk hr hmm =>
      subst hr
      rcases (stores_iff).mp hst with h | h | ⟨i, c, j, hp, _, _⟩
      · simp only [insertF]
        rw [if_pos (Or.inl h)]
      · simp only [insertF]
        rw [if_pos (Or.inr h)]
      · simp at hp
    | node k r mno mxo sm cl hk hr hmm hkeys hkeyLt hchild hne hsn hsWF
        hsSt hbound =>
      subst hr
      have hwf2 : WF k (VanEmdeBoasTree.mk (2 ^ k) mno mxo sm cl) :=
        WF.node k _ mno mxo sm cl hk rfl hmm hkeys hkeyLt hchild hne hsn
          hsWF hsSt hbound
      have hf2 := pow_half_le hk hf
      simp only [insertF]
      by_cases hx : mno = some x ∨ mxo = some x
      · rw [if_pos hx]
      · rw [if_neg hx]
        push_neg at hx
        rcases (stores_iff).mp hst with h | h | ⟨i, c, j, hp, hs, hxval⟩
        · exact absurd h hx.1
        · exact absurd h hx.2
        · rcases mno with _ | mn
          · exact absurd hst (not_stores_of_min_none hwf2 rfl x)
          · obtain ⟨mx, rfl, hle, hlt⟩ := minmaxOK_some_left hmm
            simp only []
            by_cases hmneq : mn = mx
            · exfalso
              subst hmneq
              have := (stores_singleton_iff hwf2 rfl rfl x).mp hst
              exact hx.1 (congrArg some this.symm)
            · rw [if_neg hmneq, if_neg (two_pow_ne_two hk)]
              have hBi : strictlyInside (some mn) (some mx)
                  (i * 2 ^ (k / 2) + j) := hbound (i, c) hp j hs
              obtain ⟨a, b, ha, hb, h1, h2⟩ := strictlyInside_elim hBi
              injection ha with ha
              injection hb with hb
              subst ha
              subst hb
              subst hxval
              have hA : ¬ i * 2 ^ (k / 2) + j < mn := by omega
              have hB : ¬ mx < i * 2 ^ (k / 2) + j := by omega
              have hC : ¬ (¬ i * 2 ^ (k / 2) + j < mn ∧
                  mx < i * 2 ^ (k / 2) + j) := fun h => hB h.2
              simp only [clusterIndex_mk, valueIndex_mk, hsqrt_mk, lsqrt_mk]
              rw [if_neg hA, if_neg hC, if_neg hA, if_neg hB]
              have hj : j < 2 ^ (k / 2) := stores_lt _ _ _ (hchild _ hp) hs
              have hget : getEntry cl i = some c :=
                getEntry_eq_some_of_mem hkeys hp
              simp only [value_div hj, value_mod hj, hget]
              rw [ih (k / 2) (by omega) c j f2 (hchild _ hp) hs hf2.2,
                setEntry_of_getEntry_eq hget]

theorem deleteF_absorb : ∀ k t x f, WF k t → ¬ Stores k t x → 2 ^ k ≤ f →
    deleteF f t x = t := by
  intro k
  induction k using Nat.strong_induction_on with
  | _ k ih =>
    intro t x f hwf hst hf
    have hpos : 0 < 2 ^ k := Nat.two_pow_pos k
    obtain ⟨f2, rfl⟩ : ∃ f2, f = f2 + 1 := ⟨f - 1, by omega⟩
    cases hwf with
    | leaf k r mno mxo hk hr hmm =>
      subst hr
      rcases mno with _ | mn
      · simp only [deleteF]
      · obtain ⟨mx, rfl, hle, hlt⟩ := minmaxOK_some_left hmm
        simp only [deleteF]
        by_cases hout : x < mn ∨ mx < x
        · rw [if_pos hout]
        · exfalso
          push_neg at hout
          have hr2 : 2 ^ k ≤ 2 := by
            have h1 : 2 ^ k ≤ 2 ^ 1 := Nat.pow_le_pow_right (by norm_num) hk
            omega
          have hxcase : x = mn ∨ x = mx := by omega
          rcases hxcase with rfl | rfl
          · exact hst (Stores.viaMin ..)
          · exact hst (Stores.viaMax ..)
    | node k r mno mxo sm cl hk hr hmm hkeys hkeyLt hchild hne hsn hsWF
        hsSt hbound =>
      subst hr
      have hwf2 : WF k (VanEmdeBoasTree.mk (2 ^ k) mno mxo sm cl) :=
        WF.node k _ mno mxo sm cl hk rfl hmm hkeys hkeyLt hchild hne hsn
          hsWF hsSt hbound
      have hf2 := pow_half_le hk hf
      rcases mno with _ | mn
      · simp only [deleteF]
      · obtain ⟨mx, rfl, hle, hlt⟩ := minmaxOK_some_left hmm
        simp only [deleteF]
        by_cases hout : x < mn ∨ mx < x
        · rw [if_pos hout]
        · rw [if_neg hout]
          push_neg at hout
          have hxmn : x ≠ mn := fun h => hst (h ▸ Stores.viaMin ..)
          have hxmx : x ≠ mx := fun h => hst (h ▸ Stores.viaMax ..)
          have hmneq : mn ≠ mx := by omega
          rw [if_neg hmneq, if_neg (two_pow_ne_two hk)]
          rw [if_neg hxmn, if_neg hxmx]
          simp only [clusterIndex_mk, valueIndex_mk]
          cases hget : getEntry cl (x / 2 ^ (k / 2)) with
          | none => simp only []
          | some c =>
            simp only []
            have hmem : (x / 2 ^ (k / 2), c) ∈ cl := mem_of_getEntry_eq_some hget
            have hnst : ¬ Stores (k / 2) c (x % 2 ^ (k / 2)) := by
              intro hs
              apply hst
              have := Stores.viaCluster k (2 ^ k) (some mn) (some mx) sm cl
                (x / 2 ^ (k / 2)) c (x % 2 ^ (k / 2)) hmem hs
              rwa [div_mod_recompose] at this
            rw [ih (k / 2) (by omega) c (x % 2 ^ (k / 2)) f2 (hchild _ hmem)
              hnst hf2.2]
            have hcne : c.min ≠ none := hne _ hmem
            rw [if_neg hcne]
            rw [setEntry_of_getEntry_eq hget]

/-- Top-level absorption: inserting a stored value is a state-level no-op. -/
theorem insert_absorb {k : Nat} {t : VanEmdeBoasTree} {x : Nat}
    (hwf : WF k t) (hst : Stores k t x) : t.insert x = t := by
  show insertF t.valueRange t x = t
  rw [hwf.valueRange_eq]
  exact insertF_absorb k t x _ hwf hst le_rfl

/-- Top-level absorption: deleting an absent value is a state-level no-op. -/
theorem delete_absorb {k : Nat} {t : VanEmdeBoasTree} {x : Nat}
    (hwf : WF k t) (hst : ¬ Stores k t x) : t.delete x = t := by
  show deleteF t.valueRange t x = t
  rw [hwf.valueRange_eq]
  exact deleteF_absorb k t x _ hwf hst le_rfl

/-- State-level idempotence of `insert`. -/
theorem insert_idem {k : Nat} {t : VanEmdeBoasTree} {x : Nat}
    (hwf : WF k t) (hx : x < 2 ^ k) : (t.insert x).insert x = t.insert x := by
  obtain ⟨hwf2, hst⟩ := insert_correct hwf hx
  exact insert_absorb hwf2 ((hst x).mpr (Or.inl rfl))

/-- State-level idempotence of `delete`. -/
theorem delete_idem {k : Nat} {t : VanEmdeBoasTree} {x : Nat}
    (hwf : WF k t) : (t.delete x).delete x = t.delete x := by
  obtain ⟨hwf2, hst⟩ := delete_correct (x := x) hwf
  refine delete_absorb hwf2 (fun h => ?_)
  exact ((hst x).mp h).1 rfl

/-! ### Histories of operations -/

/-- One history step of net membership, insertion case. -/
theorem netMem_append_ins (ops : List Op) (a y : Nat) :
    netMem (ops ++ [Op.ins a]) y =
      if a = y then true else netMem ops y := by
  simp only [netMem, List.foldl_append, List.foldl_cons, List.foldl_nil]

/-- One history step of net membership, deletion case. -/
theorem netMem_append_del (ops : List Op) (a y : Nat) :
    netMem (ops ++ [Op.del a]) y =
      if a = y then false else netMem ops y := by
  simp only [netMem, List.foldl_append, List.foldl_cons, List.foldl_nil]

/-- Stepping a history by one operation. -/
theorem applyOps_append (t : VanEmdeBoasTree) (ops : List Op) (op : Op) :
    applyOps t (ops ++ [op]) = applyOp (applyOps t ops) op := by
  simp only [applyOps, List.foldl_append, List.foldl_cons, List.foldl_nil]

/-- Applying a valid history keeps the tree well formed and the stored
set is the net membership of the history. -/
theorem applyOps_stores (R : Nat) (ops : List Op)
    (hops : ∀ op ∈ ops, op.arg < 2 ^ ceilLog2 R) :
    WF (ceilLog2 R) (applyOps (VanEmdeBoasTree.init R) ops) ∧
      ∀ y, Stores (ceilLog2 R) (applyOps (VanEmdeBoasTree.init R) ops) y ↔
        netMem ops y = true := by
  induction ops using List.reverseRecOn with
  | nil =>
    refine ⟨WF_init R, fun y => ?_⟩
    simp only [applyOps, List.foldl_nil, netMem]
    constructor
    · intro h
      exact absurd h (not_stores_of_min_none (WF_init R)
        (by rw [init_eq]; rfl) y)
    · intro h
      exact absurd h (by simp)
  | append_singleton ops op ihops =>
    have hops0 : ∀ op2 ∈ ops, op2.arg < 2 ^ ceilLog2 R := by
      intro op2 h2
      exact hops op2 (by simp [h2])
    obtain ⟨hwf, hst⟩ := ihops hops0
    have hop : op.arg < 2 ^ ceilLog2 R := hops op (by simp)
    rw [applyOps_append]
    cases op with
    | ins a =>
      obtain ⟨hwf2, hst2⟩ := insert_correct (x := a) hwf (by exact hop)
      refine ⟨hwf2, fun y => ?_⟩
      show Stores _ ((applyOps (VanEmdeBoasTree.init R) ops).insert a) y ↔ _
      rw [hst2 y, hst y, netMem_append_ins]
      by_cases hay : a = y
      · subst hay
        simp
      · rw [if_neg hay]
        constructor
        · rintro (rfl | h)
          · exact absurd rfl hay
          · exact h
        · exact Or.inr
    | del a =>
      obtain ⟨hwf2, hst2⟩ := delete_correct (x := a) hwf
      refine ⟨hwf2, fun y => ?_⟩
      show Stores _ ((applyOps (VanEmdeBoasTree.init R) ops).delete a) y ↔ _
      rw [hst2 y, hst y, netMem_append_del]
      by_cases hay : a = y
      · subst hay
        simp
      · rw [if_neg hay]
        constructor
        · exact And.right
        · intro h
          exact ⟨fun h2 => hay h2.symm, h⟩

/-- `valueRange` of a freshly constructed tree. -/
theorem init_valueRange (R : Nat) :
    (VanEmdeBoasTree.init R).valueRange = 2 ^ ceilLog2 R := by
  rw [init_eq]
  rfl

/-- Every reachable state is well formed. -/
theorem reachable_WF {R : Nat} {t : VanEmdeBoasTree}
    (h : Reachable R t) : WF (ceilLog2 R) t := by
  obtain ⟨ops, hops, rfl⟩ := h
  exact (applyOps_stores R ops
    (fun op h2 => init_valueRange R ▸ hops op h2)).1

/-! ### Correctness of `successor` and `predecessor` -/

/-- `p` is the successor of `x`: the least stored value strictly above `x`. -/
def IsSucc (k : Nat) (t : VanEmdeBoasTree) (x p : Nat) : Prop :=
  Stores k t p ∧ x < p ∧ ∀ y, Stores k t y → x < y → p ≤ y

/-- No stored value lies strictly above `x`. -/
def NoSucc (k : Nat) (t : VanEmdeBoasTree) (x : Nat) : Prop :=
  ∀ y, Stores k t y → ¬ x < y

/-- `p` is the predecessor of `x`: the greatest stored value strictly
below `x`. -/
def IsPred (k : Nat) (t : VanEmdeBoasTree) (x p : Nat) : Prop :=
  Stores k t p ∧ p < x ∧ ∀ y, Stores k t y → y < x → y ≤ p

/-- No stored value lies strictly below `x`. -/
def NoPred (k : Nat) (t : VanEmdeBoasTree) (x : Nat) : Prop :=
  ∀ y, Stores k t y → ¬ y < x

/-- What a `successor` result must satisfy. -/
def SuccSpec (k : Nat) (t : VanEmdeBoasTree) (x : Nat) : Option Nat → Prop
  | none => NoSucc k t x
  | some p => IsSucc k t x p

/-- What a `predecessor` result must satisfy. -/
def PredSpec (k : Nat) (t : VanEmdeBoasTree) (x : Nat) : Option Nat → Prop
  | none => NoPred k t x
  | some p => IsPred k t x p

/-- Statement of the successor induction hypothesis. -/
def SuccIH (k : Nat) : Prop :=
  ∀ m, m < k → ∀ t x f, WF m t → 1 ≤ m → x < 2 ^ m → 2 ^ m ≤ f →
    SuccSpec m t x (successorF f t x)

/-- Statement of the predecessor induction hypothesis. -/
def PredIH (k : Nat) : Prop :=
  ∀ m, m < k → ∀ t x f, WF m t → 1 ≤ m → x < 2 ^ m → 2 ^ m ≤ f →
    PredSpec m t x (predecessorF f t x)

/-- If every cluster value is at most `x`, the cached `max` (when above
`x`) is the successor. -/
theorem succ_is_max_of_bounded (k x mn mx : Nat)
    (sm : Option VanEmdeBoasTree) (cl : List (Nat × VanEmdeBoasTree))
    (hmnx : mn ≤ x) (hxmx : x < mx)
    (hcb : ∀ i d j, (i, d) ∈ cl → Stores (k / 2) d j →
      i * 2 ^ (k / 2) + j ≤ x) :
    IsSucc k (.mk (2 ^ k) (some mn) (some mx) sm cl) x mx := by
  refine ⟨Stores.viaMax .., hxmx, ?_⟩
  intro y hy hxy
  rcases stores_iff.mp hy with h | h | ⟨i, d, j, hp, hs2, rfl⟩
  · injection h with h
    omega
  · injection h with h
    omega
  · have := hcb i d j hp hs2
    omega

/-- If every cluster value is at most `x` and so is the cached `max`,
nothing is stored above `x`. -/
theorem succ_none_of_bounded (k x mn mx : Nat)
    (sm : Option VanEmdeBoasTree) (cl : List (Nat × VanEmdeBoasTree))
    (hmnx : mn ≤ x) (hmxx : mx ≤ x)
    (hcb : ∀ i d j, (i, d) ∈ cl → Stores (k / 2) d j →
      i * 2 ^ (k / 2) + j ≤ x) :
    NoSucc k (.mk (2 ^ k) (some mn) (some mx) sm cl) x := by
  intro y hy hxy
  rcases stores_iff.mp hy with h | h | ⟨i, d, j, hp, hs2, rfl⟩
  · injection h with h
    omega
  · injection h with h
    omega
  · have := hcb i d j hp hs2
    omega

/-- Successor found inside `x`'s own cluster. -/
theorem succ_same_cluster (k x p mn mx : Nat)
    (sm : Option VanEmdeBoasTree) (cl : List (Nat × VanEmdeBoasTree))
    (c : VanEmdeBoasTree)
    (hkeys : (cl.map Prod.fst).Nodup)
    (hchild : ∀ p2 ∈ cl, WF (k / 2) p2.2)
    (hbound : ∀ p2 ∈ cl, ∀ j, Stores (k / 2) p2.2 j →
      strictlyInside (some mn) (some mx) (p2.1 * 2 ^ (k / 2) + j))
    (hmnx : mn ≤ x)
    (hget : getEntry cl (x / 2 ^ (k / 2)) = some c)
    (hIs : IsSucc (k / 2) c (x % 2 ^ (k / 2)) p) :
    IsSucc k (.mk (2 ^ k) (some mn) (some mx) sm cl) x
      (x / 2 ^ (k / 2) * 2 ^ (k / 2) + p) := by
  obtain ⟨hstp, hltp, hminp⟩ := hIs
  have hmem : (x / 2 ^ (k / 2), c) ∈ cl := mem_of_getEntry_eq_some hget
  have hxval : x / 2 ^ (k / 2) * 2 ^ (k / 2) + x % 2 ^ (k / 2) = x :=
    div_mod_recompose _ x
  have hplt : p < 2 ^ (k / 2) := stores_lt _ _ _ (hchild _ hmem) hstp
  refine ⟨Stores.viaCluster _ _ _ _ _ _ _ _ _ hmem hstp, by omega, ?_⟩
  intro y hy hxy
  rcases stores_iff.mp hy with h | h | ⟨i, d, j, hp2, hs2, rfl⟩
  · injection h with h
    omega
  · injection h with h
    have hB : strictlyInside (some mn) (some mx)
        (x / 2 ^ (k / 2) * 2 ^ (k / 2) + p) := hbound _ hmem p hstp
    obtain ⟨a, b, ha, hb, h1, h2⟩ := strictlyInside_elim hB
    injection ha with ha
    injection hb with hb
    omega
  · have hj : j < 2 ^ (k / 2) := stores_lt _ _ _ (hchild _ hp2) hs2
    rcases Nat.lt_trichotomy i (x / 2 ^ (k / 2)) with hlt | heq | hgt
    · exfalso
      have := value_lt_of_lt (k / 2) i j (x / 2 ^ (k / 2)) (x % 2 ^ (k / 2))
        hj hlt
      omega
    · subst heq
      have hq := getEntry_eq_some_of_mem hkeys hp2
      rw [hget] at hq
      injection hq with hq
      have hpj : p ≤ j := by
        apply hminp j
        · rw [hq]
          exact hs2
        · omega
      omega
    · have := value_lt_of_lt (k / 2) (x / 2 ^ (k / 2)) p i j hplt hgt
      omega

/-- The summary-directed tail of `successor` at a recursive node,
including the final `max` fallback. -/
def succFromSummary (k f2 x mx : Nat) (sm : Option VanEmdeBoasTree)
    (cl : List (Nat × VanEmdeBoasTree)) : Option Nat :=
  match sm with
  | some s =>
    match successorF f2 s (x / 2 ^ (k / 2)) with
    | some sci =>
      match getEntry cl sci with
      | some c2 =>
        match c2.min with
        | some cmn => some (sci * 2 ^ (k / 2) + cmn)
        | none => none
      | none => none
    | none => if x < mx then some mx else none
  | none => if x < mx then some mx else none

/-- The summary-directed branch of `successor` (reached when `x`'s own
cluster holds nothing above `x`), together with the final `max`
fallback. -/
theorem succ_summary_branch (k f2 x mn mx : Nat)
    (sm : Option VanEmdeBoasTree) (cl : List (Nat × VanEmdeBoasTree))
    (ihAll : SuccIH k)
    (hk : 2 ≤ k)
    (hkeys : (cl.map Prod.fst).Nodup)
    (hchild : ∀ p2 ∈ cl, WF (k / 2) p2.2)
    (hne : ∀ p2 ∈ cl, p2.2.min ≠ none)
    (hsn : sm = none ↔ cl = [])
    (hsWF : ∀ s, sm = some s → WF ((k + 1) / 2) s)
    (hsSt : ∀ s, sm = some s →
      ∀ j, Stores ((k + 1) / 2) s j ↔ j ∈ cl.map Prod.fst)
    (hbound : ∀ p2 ∈ cl, ∀ j, Stores (k / 2) p2.2 j →
      strictlyInside (some mn) (some mx) (p2.1 * 2 ^ (k / 2) + j))
    (hx : x < 2 ^ k)
    (hmnx : mn ≤ x)
    (hfH : 2 ^ ((k + 1) / 2) ≤ f2)
    (hnoc : ∀ d, getEntry cl (x / 2 ^ (k / 2)) = some d →
      ∀ j, Stores (k / 2) d j → j ≤ x % 2 ^ (k / 2)) :
    SuccSpec k (.mk (2 ^ k) (some mn) (some mx) sm cl) x
      (succFromSummary k f2 x mx sm cl) := by
  have hidx : x % 2 ^ (k / 2) < 2 ^ (k / 2) :=
    Nat.mod_lt _ (Nat.two_pow_pos _)
  have hxval : x / 2 ^ (k / 2) * 2 ^ (k / 2) + x % 2 ^ (k / 2) = x :=
    div_mod_recompose _ x
  have hci : x / 2 ^ (k / 2) < 2 ^ ((k + 1) / 2) := div_lt_high hx
  simp only [succFromSummary]
  cases sm with
  | none =>
    have hcl : cl = [] := hsn.mp rfl
    subst hcl
    have hcb : ∀ i d j, (i, d) ∈ ([] : List (Nat × VanEmdeBoasTree)) →
        Stores (k / 2) d j → i * 2 ^ (k / 2) + j ≤ x := by
      intro i d j hp
      simp at hp
    by_cases hxmx : x < mx
    · rw [if_pos hxmx]
      exact succ_is_max_of_bounded k x mn mx none [] hmnx hxmx hcb
    · rw [if_neg hxmx]
      exact succ_none_of_bounded k x mn mx none [] hmnx (by omega) hcb
  | some s =>
    have hwfS : WF ((k + 1) / 2) s := hsWF s rfl
    have hstS := hsSt s rfl
    have hrec2 := ihAll ((k + 1) / 2) (by omega) s (x / 2 ^ (k / 2)) f2 hwfS
      (by omega) hci hfH
    simp only []
    cases hrec : successorF f2 s (x / 2 ^ (k / 2)) with
    | none =>
      rw [hrec] at hrec2
      have hnosum : ∀ i ∈ cl.map Prod.fst, i ≤ x / 2 ^ (k / 2) := by
        intro i hiK
        have hsi : Stores ((k + 1) / 2) s i := (hstS i).mpr hiK
        have := hrec2 i hsi
        omega
      have hcb : ∀ i d j, (i, d) ∈ cl → Stores (k / 2) d j →
          i * 2 ^ (k / 2) + j ≤ x := by
        intro i d j hp hs2
        have hj : j < 2 ^ (k / 2) := stores_lt _ _ _ (hchild _ hp) hs2
        have hiK : i ∈ cl.map Prod.fst := List.mem_map.mpr ⟨_, hp, rfl⟩
        have hile := hnosum i hiK
        rcases Nat.lt_or_ge i (x / 2 ^ (k / 2)) with hlt | hge
        · have := value_lt_of_lt (k / 2) i j (x / 2 ^ (k / 2))
            (x % 2 ^ (k / 2)) hj hlt
          omega
        · have hieq : i = x / 2 ^ (k / 2) := by omega
          subst hieq
          have hq := getEntry_eq_some_of_mem hkeys hp
          have := hnoc d hq j hs2
          omega
      simp only []
      by_cases hxmx : x < mx
      · rw [if_pos hxmx]
        exact succ_is_max_of_bounded k x mn mx (some s) cl hmnx hxmx hcb
      · rw [if_neg hxmx]
        exact succ_none_of_bounded k x mn mx (some s) cl hmnx (by omega) hcb
    | some sci =>
      rw [hrec] at hrec2
      obtain ⟨hssci, hcisci, hscimin⟩ := hrec2
      have hsciK : sci ∈ cl.map Prod.fst := (hstS sci).mp hssci
      simp only []
      cases hget2 : getEntry cl sci with
      | none => exact (getEntry_eq_none_iff.mp hget2 hsciK).elim
      | some c2 =>
        have hmem2 : (sci, c2) ∈ cl := mem_of_getEntry_eq_some hget2
        simp only []
        cases hcmn : c2.min with
        | none => exact (hne _ hmem2 hcmn).elim
        | some cmn =>
          simp only []
          show IsSucc k _ x (sci * 2 ^ (k / 2) + cmn)
          have hwfc2 : WF (k / 2) c2 := hchild _ hmem2
          have hstcmn : Stores (k / 2) c2 cmn := stores_of_min_eq hcmn
          have hcmnlt : cmn < 2 ^ (k / 2) := stores_lt _ _ _ hwfc2 hstcmn
          refine ⟨Stores.viaCluster _ _ _ _ _ _ _ _ _ hmem2 hstcmn, ?_, ?_⟩
          · have := value_lt_of_lt (k / 2) (x / 2 ^ (k / 2)) (x % 2 ^ (k / 2))
              sci cmn hidx hcisci
            omega
          · intro y hy hxy
            rcases stores_iff.mp hy with h | h | ⟨i, d, j, hp, hs2, rfl⟩
            · injection h with h
              omega
            · injection h with h
              have hB : strictlyInside (some mn) (some mx)
                  (sci * 2 ^ (k / 2) + cmn) := hbound _ hmem2 cmn hstcmn
              obtain ⟨a, b, ha, hb, h1, h2⟩ := strictlyInside_elim hB
              injection ha with ha
              injection hb with hb
              omega
            · have hj : j < 2 ^ (k / 2) := stores_lt _ _ _ (hchild _ hp) hs2
              have hiK : i ∈ cl.map Prod.fst := List.mem_map.mpr ⟨_, hp, rfl⟩
              rcases Nat.lt_trichotomy i (x / 2 ^ (k / 2)) with hlt | heq | hgt
              · exfalso
                have := value_lt_of_lt (k / 2) i j (x / 2 ^ (k / 2))
                  (x % 2 ^ (k / 2)) hj hlt
                omega
              · exfalso
                subst heq
                have hq := getEntry_eq_some_of_mem hkeys hp
                have := hnoc d hq j hs2
                omega
              · have hsi : Stores ((k + 1) / 2) s i := (hstS i).mpr hiK
                have hscile : sci ≤ i := hscimin i hsi hgt
                rcases Nat.lt_or_ge sci i with hlt2 | hge2
                · have := value_lt_of_lt (k / 2) sci cmn i j hcmnlt hlt2
                  omega
                · have hieq : i = sci := by omega
                  subst hieq
                  have hq := getEntry_eq_some_of_mem hkeys hp
                  rw [hget2] at hq
                  injection hq with hq
                  have : cmn ≤ j := by
                    apply min_le_stores hwfc2 hcmn j
                    rw [hq]
                    exact hs2
                  omega

theorem successorF_correct : ∀ k t x f, WF k t → 1 ≤ k → x < 2 ^ k →
    2 ^ k ≤ f → SuccSpec k t x (successorF f t x) := by
  intro k
  induction k using Nat.strong_induction_on with
  | _ k ih =>
    have ihAll : SuccIH k := fun m hm => ih m hm
    intro t x f hwf hk1 hx hf
    have hpos : 0 < 2 ^ k := Nat.two_pow_pos k
    obtain ⟨f2, rfl⟩ : ∃ f2, f = f2 + 1 := ⟨f - 1, by omega⟩
    cases hwf with
    | leaf k r mno mxo hk hr hmm =>
      subst hr
      have hke : k = 1 := by omega
      subst hke
      simp only [successorF]
      rw [if_pos (by norm_num)]
      rcases mno with _ | mn
      · have hmx := minmaxOK_none_left hmm
        subst hmx
        rw [if_neg (by simp)]
        show NoSucc 1 _ x
        intro y hy _
        exact (not_stores_of_min_none
          (WF.leaf 1 _ none none (by omega) rfl trivial) rfl y) hy
      · obtain ⟨mx, rfl, hle, hlt⟩ := minmaxOK_some_left hmm
        simp only [pow_one] at hlt hx
        by_cases hc : x = 0 ∧ (some mx : Option Nat) = some 1
        · rw [if_pos hc]
          obtain ⟨rfl, hmx1⟩ := hc
          injection hmx1 with hmx1
          subst hmx1
          show IsSucc 1 _ 0 1
          refine ⟨Stores.viaMax .., by omega, ?_⟩
          intro y hy hxy
          rcases stores_iff.mp hy with h | h | ⟨i, d, j, hp, _, _⟩
          · rw [Option.some_inj] at h
            omega
          · rw [Option.some_inj] at h
            omega
          · simp at hp
        · rw [if_neg hc]
          show NoSucc 1 _ x
          intro y hy hxy
          have hc2 : ¬ (x = 0 ∧ mx = 1) := fun h => hc ⟨h.1, by rw [h.2]⟩
          rcases stores_iff.mp hy with h | h | ⟨i, d, j, hp, _, _⟩
          · injection h with h
            omega
          · injection h with h
            omega
          · simp at hp
    | node k r mno mxo sm cl hk hr hmm hkeys hkeyLt hchild hne hsn hsWF
        hsSt hbound =>
      subst hr
      have hwf2 : WF k (VanEmdeBoasTree.mk (2 ^ k) mno mxo sm cl) :=
        WF.node k _ mno mxo sm cl hk rfl hmm hkeys hkeyLt hchild hne hsn
          hsWF hsSt hbound
      have hf2 := pow_half_le hk hf
      simp only [successorF]
      rw [if_neg (two_pow_ne_two hk)]
      simp only [clusterIndex_mk, valueIndex_mk, value_mk]
      rcases mno with _ | mn
      · have hmx := minmaxOK_none_left hmm
        subst hmx
        obtain ⟨hcl, hsm0⟩ := empty_no_rec hwf2 rfl
        simp only [VanEmdeBoasTree.cluster] at hcl
        simp only [VanEmdeBoasTree.summary] at hsm0
        subst hcl
        subst hsm0
        simp only [getEntry]
        show NoSucc k _ x
        intro y hy _
        exact (not_stores_of_min_none hwf2 rfl y) hy
      · obtain ⟨mx, rfl, hle, hlt⟩ := minmaxOK_some_left hmm
        simp only []
        by_cases hxmn : x < mn
        · rw [if_pos hxmn]
          show IsSucc k _ x mn
          exact ⟨Stores.viaMin .., hxmn,
            fun y hy _ => min_le_stores hwf2 rfl y hy⟩
        · rw [if_neg hxmn]
          push_neg at hxmn
          cases hget : getEntry cl (x / 2 ^ (k / 2)) with
          | some c =>
            have hmem : (x / 2 ^ (k / 2), c) ∈ cl :=
              mem_of_getEntry_eq_some hget
            simp only []
            cases hcmx : c.max with
            | none =>
              exact ((hne _ hmem)
                ((min_none_iff_max_none (hchild _ hmem)).mpr hcmx)).elim
            | some cmx =>
              simp only []
              by_cases hlt2 : x % 2 ^ (k / 2) < cmx
              · rw [if_pos hlt2]
                have hIH := ihAll (k / 2) (by omega) c (x % 2 ^ (k / 2)) f2
                  (hchild _ hmem) (by omega)
                  (Nat.mod_lt _ (Nat.two_pow_pos _)) hf2.2
                cases hrec : successorF f2 c (x % 2 ^ (k / 2)) with
                | none =>
                  rw [hrec] at hIH
                  exact ((hIH cmx (stores_of_max_eq hcmx)) hlt2).elim
                | some p =>
                  rw [hrec] at hIH
                  simp only []
                  show IsSucc k _ x (x / 2 ^ (k / 2) * 2 ^ (k / 2) + p)
                  exact succ_same_cluster k x p mn mx sm cl c hkeys hchild
                    hbound hxmn hget hIH
              · rw [if_neg hlt2]
                refine succ_summary_branch k f2 x mn mx sm cl ihAll hk hkeys
                  hchild hne hsn hsWF hsSt hbound hx hxmn hf2.1 ?_
                intro d hq j hs2
                rw [hget] at hq
                injection hq with hq
                subst hq
                have := stores_le_max (hchild _ hmem) hcmx j hs2
                omega
          | none =>
            simp only []
            refine succ_summary_branch k f2 x mn mx sm cl ihAll hk hkeys
              hchild hne hsn hsWF hsSt hbound hx hxmn hf2.1 ?_
            intro d hq
            rw [hget] at hq
            exact Option.noConfusion hq

/-- Top-level `successor` meets its specification. -/
theorem successor_correct {k : Nat} {t : VanEmdeBoasTree} {x : Nat}
    (hwf : WF k t) (hk1 : 1 ≤ k) (hx : x < 2 ^ k) :
    SuccSpec k t x (t.successor x) := by
  show SuccSpec k t x (successorF t.valueRange t x)
  rw [hwf.valueRange_eq]
  exact successorF_correct k t x _ hwf hk1 hx le_rfl

/-- If every cluster value is at least `x`, the cached `min` (when below
`x`) is the predecessor. -/
theorem pred_is_min_of_bounded (k x mn mx : Nat)
    (sm : Option VanEmdeBoasTree) (cl : List (Nat × VanEmdeBoasTree))
    (hmxx : x ≤ mx) (hmnx : mn < x)
    (hcb : ∀ i d j, (i, d) ∈ cl → Stores (k / 2) d j →
      x ≤ i * 2 ^ (k / 2) + j) :
    IsPred k (.mk (2 ^ k) (some mn) (some mx) sm cl) x mn := by
  refine ⟨Stores.viaMin .., hmnx, ?_⟩
  intro y hy hxy
  rcases stores_iff.mp hy with h | h | ⟨i, d, j, hp, hs2, rfl⟩
  · rw [Option.some_inj] at h
    omega
  · rw [Option.some_inj] at h
    omega
  · have := hcb i d j hp hs2
    omega

/-- If every cluster value is at least `x` and so are both cached
bounds, nothing is stored below `x`. -/
theorem pred_none_of_bounded (k x mn mx : Nat)
    (sm : Option VanEmdeBoasTree) (cl : List (Nat × VanEmdeBoasTree))
    (hmnx : x ≤ mn) (hmxx : x ≤ mx)
    (hcb : ∀ i d j, (i, d) ∈ cl → Stores (k / 2) d j →
      x ≤ i * 2 ^ (k / 2) + j) :
    NoPred k (.mk (2 ^ k) (some mn) (some mx) sm cl) x := by
  intro y hy hxy
  rcases stores_iff.mp hy with h | h | ⟨i, d, j, hp, hs2, rfl⟩
  · rw [Option.some_inj] at h
    omega
  · rw [Option.some_inj] at h
    omega
  · have := hcb i d j hp hs2
    omega

/-- Predecessor found inside `x`'s own cluster. -/
theorem pred_same_cluster (k x p mn mx : Nat)
    (sm : Option VanEmdeBoasTree) (cl : List (Nat × VanEmdeBoasTree))
    (c : VanEmdeBoasTree)
    (hkeys : (cl.map Prod.fst).Nodup)
    (hchild : ∀ p2 ∈ cl, WF (k / 2) p2.2)
    (hbound : ∀ p2 ∈ cl, ∀ j, Stores (k / 2) p2.2 j →
      strictlyInside (some mn) (some mx) (p2.1 * 2 ^ (k / 2) + j))
    (hmxx : x ≤ mx)
    (hget : getEntry cl (x / 2 ^ (k / 2)) = some c)
    (hIs : IsPred (k / 2) c (x % 2 ^ (k / 2)) p) :
    IsPred k (.mk (2 ^ k) (some mn) (some mx) sm cl) x
      (x / 2 ^ (k / 2) * 2 ^ (k / 2) + p) := by
  obtain ⟨hstp, hltp, hmaxp⟩ := hIs
  have hmem : (x / 2 ^ (k / 2), c) ∈ cl := mem_of_getEntry_eq_some hget
  have hxval : x / 2 ^ (k / 2) * 2 ^ (k / 2) + x % 2 ^ (k / 2) = x :=
    div_mod_recompose _ x
  have hidx : x % 2 ^ (k / 2) < 2 ^ (k / 2) :=
    Nat.mod_lt _ (Nat.two_pow_pos _)
  have hplt : p < 2 ^ (k / 2) := stores_lt _ _ _ (hchild _ hmem) hstp
  refine ⟨Stores.viaCluster _ _ _ _ _ _ _ _ _ hmem hstp, by omega, ?_⟩
  intro y hy hxy
  rcases stores_iff.mp hy with h | h | ⟨i, d, j, hp2, hs2, rfl⟩
  · rw [Option.some_inj] at h
    have hB : strictlyInside (some mn) (some mx)
        (x / 2 ^ (k / 2) * 2 ^ (k / 2) + p) := hbound _ hmem p hstp
    obtain ⟨a, b, ha, hb, h1, h2⟩ := strictlyInside_elim hB
    injection ha with ha
    injection hb with hb
    omega
  · rw [Option.some_inj] at h
    omega
  · have hj : j < 2 ^ (k / 2) := stores_lt _ _ _ (hchild _ hp2) hs2
    rcases Nat.lt_trichotomy i (x / 2 ^ (k / 2)) with hlt | heq | hgt
    · have := value_lt_of_lt (k / 2) i j (x / 2 ^ (k / 2)) p hj hlt
      omega
    · subst heq
      have hq := getEntry_eq_some_of_mem hkeys hp2
      rw [hget] at hq
      injection hq with hq
      have hpj : j ≤ p := by
        apply hmaxp j
        · rw [hq]
          exact hs2
        · omega
      omega
    · exfalso
      have := value_lt_of_lt (k / 2) (x / 2 ^ (k / 2)) (x % 2 ^ (k / 2)) i j
        hidx hgt
      omega

/-- The summary-directed tail of `predecessor` at a recursive node,
including the final `min` fallback. -/
def predFromSummary (k f2 x mn : Nat) (sm : Option VanEmdeBoasTree)
    (cl : List (Nat × VanEmdeBoasTree)) : Option Nat :=
  match sm with
  | some s =>
    match predecessorF f2 s (x / 2 ^ (k / 2)) with
    | some pci =>
      match getEntry cl pci with
      | some c2 =>
        match c2.max with
        | some cmx2 => some (pci * 2 ^ (k / 2) + cmx2)
        | none => none
      | none => none
    | none => if mn < x then some mn else none
  | none => if mn < x then some mn else none

/-- The summary-directed branch of `predecessor` (reached when `x`'s own
cluster holds nothing below `x`), together with the final `min`
fallback. -/
theorem pred_summary_branch (k f2 x mn mx : Nat)
    (sm : Option VanEmdeBoasTree) (cl : List (Nat × VanEmdeBoasTree))
    (ihAll : PredIH k)
    (hk : 2 ≤ k)
    (hkeys : (cl.map Prod.fst).Nodup)
    (hchild : ∀ p2 ∈ cl, WF (k / 2) p2.2)
    (hne : ∀ p2 ∈ cl, p2.2.min ≠ none)
    (hsn : sm = none ↔ cl = [])
    (hsWF : ∀ s, sm = some s → WF ((k + 1) / 2) s)
    (hsSt : ∀ s, sm = some s →
      ∀ j, Stores ((k + 1) / 2) s j ↔ j ∈ cl.map Prod.fst)
    (hbound : ∀ p2 ∈ cl, ∀ j, Stores (k / 2) p2.2 j →
      strictlyInside (some mn) (some mx) (p2.1 * 2 ^ (k / 2) + j))
    (hx : x < 2 ^ k)
    (hmxx : x ≤ mx)
    (hfH : 2 ^ ((k + 1) / 2) ≤ f2)
    (hnoc : ∀ d, getEntry cl (x / 2 ^ (k / 2)) = some d →
      ∀ j, Stores (k / 2) d j → x % 2 ^ (k / 2) ≤ j) :
    PredSpec k (.mk (2 ^ k) (some mn) (some mx) sm cl) x
      (predFromSummary k f2 x mn sm cl) := by
  have hidx : x % 2 ^ (k / 2) < 2 ^ (k / 2) :=
    Nat.mod_lt _ (Nat.two_pow_pos _)
  have hxval : x / 2 ^ (k / 2) * 2 ^ (k / 2) + x % 2 ^ (k / 2) = x :=
    div_mod_recompose _ x
  have hci : x / 2 ^ (k / 2) < 2 ^ ((k + 1) / 2) := div_lt_high hx
  simp only [predFromSummary]
  cases sm with
  | none =>
    have hcl : cl = [] := hsn.mp rfl
    subst hcl
    have hcb : ∀ i d j, (i, d) ∈ ([] : List (Nat × VanEmdeBoasTree)) →
        Stores (k / 2) d j → x ≤ i * 2 ^ (k / 2) + j := by
      intro i d j hp
      simp at hp
    by_cases hmnx : mn < x
    · rw [if_pos hmnx]
      exact pred_is_min_of_bounded k x mn mx none [] hmxx hmnx hcb
    · rw [if_neg hmnx]
      exact pred_none_of_bounded k x mn mx none [] (by omega) hmxx hcb
  | some s =>
    have hwfS : WF ((k + 1) / 2) s := hsWF s rfl
    have hstS := hsSt s rfl
    have hrec2 := ihAll ((k + 1) / 2) (by omega) s (x / 2 ^ (k / 2)) f2 hwfS
      (by omega) hci hfH
    simp only []
    cases hrec : predecessorF f2 s (x / 2 ^ (k / 2)) with
    | none =>
      rw [hrec] at hrec2
      have hnosum : ∀ i ∈ cl.map Prod.fst, x / 2 ^ (k / 2) ≤ i := by
        intro i hiK
        have hsi : Stores ((k + 1) / 2) s i := (hstS i).mpr hiK
        have := hrec2 i hsi
        omega
      have hcb : ∀ i d j, (i, d) ∈ cl → Stores (k / 2) d j →
          x ≤ i * 2 ^ (k / 2) + j := by
        intro i d j hp hs2
        have hj : j < 2 ^ (k / 2) := stores_lt _ _ _ (hchild _ hp) hs2
        have hiK : i ∈ cl.map Prod.fst := List.mem_map.mpr ⟨_, hp, rfl⟩
        have hile := hnosum i hiK
        rcases Nat.lt_or_ge (x / 2 ^ (k / 2)) i with hlt | hge
        · have := value_lt_of_lt (k / 2) (x / 2 ^ (k / 2)) (x % 2 ^ (k / 2))
            i j hidx hlt
          omega
        · have hieq : i = x / 2 ^ (k / 2) := by omega
          subst hieq
          have hq := getEntry_eq_some_of_mem hkeys hp
          have := hnoc d hq j hs2
          omega
      simp only []
      by_cases hmnx : mn < x
      · rw [if_pos hmnx]
        exact pred_is_min_of_bounded k x mn mx (some s) cl hmxx hmnx hcb
      · rw [if_neg hmnx]
        exact pred_none_of_bounded k x mn mx (some s) cl (by omega) hmxx hcb
    | some pci =>
      rw [hrec] at hrec2
      obtain ⟨hspci, hpcici, hpcimax⟩ := hrec2
      have hpciK : pci ∈ cl.map Prod.fst := (hstS pci).mp hspci
      simp only []
      cases hget2 : getEntry cl pci with
      | none => exact (getEntry_eq_none_iff.mp hget2 hpciK).elim
      | some c2 =>
        have hmem2 : (pci, c2) ∈ cl := mem_of_getEntry_eq_some hget2
        simp only []
        cases hcmx2 : c2.max with
        | none =>
          exact ((hne _ hmem2)
            ((min_none_iff_max_none (hchild _ hmem2)).mpr hcmx2)).elim
        | some cmx2 =>
          simp only []
          show IsPred k _ x (pci * 2 ^ (k / 2) + cmx2)
          have hwfc2 : WF (k / 2) c2 := hchild _ hmem2
          have hstcmx2 : Stores (k / 2) c2 cmx2 := stores_of_max_eq hcmx2
          have hcmx2lt : cmx2 < 2 ^ (k / 2) := stores_lt _ _ _ hwfc2 hstcmx2
          refine ⟨Stores.viaCluster _ _ _ _ _ _ _ _ _ hmem2 hstcmx2, ?_, ?_⟩
          · have := value_lt_of_lt (k / 2) pci cmx2 (x / 2 ^ (k / 2))
              (x % 2 ^ (k / 2)) hcmx2lt hpcici
            omega
          · intro y hy hxy
            rcases stores_iff.mp hy with h | h | ⟨i, d, j, hp, hs2, rfl⟩
            · rw [Option.some_inj] at h
              have hB : strictlyInside (some mn) (some mx)
                  (pci * 2 ^ (k / 2) + cmx2) := hbound _ hmem2 cmx2 hstcmx2
              obtain ⟨a, b, ha, hb, h1, h2⟩ := strictlyInside_elim hB
              injection ha with ha
              injection hb with hb
              omega
            · rw [Option.some_inj] at h
              omega
            · have hj : j < 2 ^ (k / 2) := stores_lt _ _ _ (hchild _ hp) hs2
              have hiK : i ∈ cl.map Prod.fst := List.mem_map.mpr ⟨_, hp, rfl⟩
              rcases Nat.lt_trichotomy i (x / 2 ^ (k / 2)) with hlt | heq | hgt
              · have hsi : Stores ((k + 1) / 2) s i := (hstS i).mpr hiK
                have hile : i ≤ pci := hpcimax i hsi hlt
                rcases Nat.lt_or_ge i pci with hlt2 | hge2
                · have := value_lt_of_lt (k / 2) i j pci cmx2 hj hlt2
                  omega
                · have hieq : i = pci := by omega
                  subst hieq
                  have hq := getEntry_eq_some_of_mem hkeys hp
                  rw [hget2] at hq
                  injection hq with hq
                  have : j ≤ cmx2 := by
                    apply stores_le_max hwfc2 hcmx2 j
                    rw [hq]
                    exact hs2
                  omega
              · exfalso
                subst heq
                have hq := getEntry_eq_some_of_mem hkeys hp
                have := hnoc d hq j hs2
                omega
              · exfalso
                have := value_lt_of_lt (k / 2) (x / 2 ^ (k / 2))
                  (x % 2 ^ (k / 2)) i j hidx hgt
                omega

theorem predecessorF_correct : ∀ k t x f, WF k t → 1 ≤ k → x < 2 ^ k →
    2 ^ k ≤ f → PredSpec k t x (predecessorF f t x) := by
  intro k
  induction k using Nat.strong_induction_on with
  | _ k ih =>
    have ihAll : PredIH k := fun m hm => ih m hm
    intro t x f hwf hk1 hx hf
    have hpos : 0 < 2 ^ k := Nat.two_pow_pos k
    obtain ⟨f2, rfl⟩ : ∃ f2, f = f2 + 1 := ⟨f - 1, by omega⟩
    cases hwf with
    | leaf k r mno mxo hk hr hmm =>
      subst hr
      have hke : k = 1 := by omega
      subst hke
      simp only [predecessorF]
      rw [if_pos (by norm_num)]
      rcases mno with _ | mn
      · have hmx := minmaxOK_none_left hmm
        subst hmx
        rw [if_neg (by simp)]
        show NoPred 1 _ x
        intro y hy _
        exact (not_stores_of_min_none
          (WF.leaf 1 _ none none (by omega) rfl trivial) rfl y) hy
      · obtain ⟨mx, rfl, hle, hlt⟩ := minmaxOK_some_left hmm
        simp only [pow_one] at hlt hx
        by_cases hc : x = 1 ∧ (some mn : Option Nat) = some 0
        · rw [if_pos hc]
          obtain ⟨rfl, hmn0⟩ := hc
          injection hmn0 with hmn0
          subst hmn0
          show IsPred 1 _ 1 0
          refine ⟨Stores.viaMin .., by omega, ?_⟩
          intro y hy hxy
          rcases stores_iff.mp hy with h | h | ⟨i, d, j, hp, _, _⟩
          · rw [Option.some_inj] at h
            omega
          · rw [Option.some_inj] at h
            omega
          · simp at hp
        · rw [if_neg hc]
          show NoPred 1 _ x
          intro y hy hxy
          have hc2 : ¬ (x = 1 ∧ mn = 0) := fun h => hc ⟨h.1, by rw [h.2]⟩
          rcases stores_iff.mp hy with h | h | ⟨i, d, j, hp, _, _⟩
          · rw [Option.some_inj] at h
            omega
          · rw [Option.some_inj] at h
            omega
          · simp at hp
    | node k r mno mxo sm cl hk hr hmm hkeys hkeyLt hchild hne hsn hsWF
        hsSt hbound =>
      subst hr
      have hwf2 : WF k (VanEmdeBoasTree.mk (2 ^ k) mno mxo sm cl) :=
        WF.node k _ mno mxo sm cl hk rfl hmm hkeys hkeyLt hchild hne hsn
          hsWF hsSt hbound
      have hf2 := pow_half_le hk hf
      simp only [predecessorF]
      rw [if_neg (two_pow_ne_two hk)]
      simp only [clusterIndex_mk, valueIndex_mk, value_mk]
      rcases mno with _ | mn
      · have hmx := minmaxOK_none_left hmm
        subst hmx
        obtain ⟨hcl, hsm0⟩ := empty_no_rec hwf2 rfl
        simp only [VanEmdeBoasTree.cluster] at hcl
        simp only [VanEmdeBoasTree.summary] at hsm0
        subst hcl
        subst hsm0
        simp only [getEntry]
        show NoPred k _ x
        intro y hy _
        exact (not_stores_of_min_none hwf2 rfl y) hy
      · obtain ⟨mx, rfl, hle, hlt⟩ := minmaxOK_some_left hmm
        simp only []
        by_cases hmxx : mx < x
        · rw [if_pos hmxx]
          show IsPred k _ x mx
          exact ⟨Stores.viaMax .., hmxx,
            fun y hy _ => stores_le_max hwf2 rfl y hy⟩
        · rw [if_neg hmxx]
          push_neg at hmxx
          cases hget : getEntry cl (x / 2 ^ (k / 2)) with
          | some c =>
            have hmem : (x / 2 ^ (k / 2), c) ∈ cl :=
              mem_of_getEntry_eq_some hget
            simp only []
            cases hcmn : c.min with
            | none => exact ((hne _ hmem) hcmn).elim
            | some cmn =>
              simp only []
              by_cases hlt2 : cmn < x % 2 ^ (k / 2)
              · rw [if_pos hlt2]
                have hIH := ihAll (k / 2) (by omega) c (x % 2 ^ (k / 2)) f2
                  (hchild _ hmem) (by omega)
                  (Nat.mod_lt _ (Nat.two_pow_pos _)) hf2.2
                cases hrec : predecessorF f2 c (x % 2 ^ (k / 2)) with
                | none =>
                  rw [hrec] at hIH
                  exact ((hIH cmn (stores_of_min_eq hcmn)) hlt2).elim
                | some p =>
                  rw [hrec] at hIH
                  simp only []
                  show IsPred k _ x (x / 2 ^ (k / 2) * 2 ^ (k / 2) + p)
                  exact pred_same_cluster k x p mn mx sm cl c hkeys hchild
                    hbound hmxx hget hIH
              · rw [if_neg hlt2]
                refine pred_summary_branch k f2 x mn mx sm cl ihAll hk hkeys
                  hchild hne hsn hsWF hsSt hbound hx hmxx hf2.1 ?_
                intro d hq j hs2
                rw [hget] at hq
                injection hq with hq
                subst hq
                have := min_le_stores (hchild _ hmem) hcmn j hs2
                omega
          | none =>
            simp only []
            refine pred_summary_branch k f2 x mn mx sm cl ihAll hk hkeys
              hchild hne hsn hsWF hsSt hbound hx hmxx hf2.1 ?_
            intro d hq
            rw [hget] at hq
            exact Option.noConfusion hq

/-- Top-level `predecessor` meets its specification. -/
theorem predecessor_correct {k : Nat} {t : VanEmdeBoasTree} {x : Nat}
    (hwf : WF k t) (hk1 : 1 ≤ k) (hx : x < 2 ^ k) :
    PredSpec k t x (t.predecessor x) := by
  show PredSpec k t x (predecessorF t.valueRange t x)
  rw [hwf.valueRange_eq]
  exact predecessorF_correct k t x _ hwf hk1 hx le_rfl

/-! ### Correctness of iteration -/

theorem iterFrom_none : ∀ fuel t, iterFrom fuel t none = [] := by
  intro fuel t
  cases fuel <;> rfl

/-- Walking by `successor` from a stored value `v` enumerates, in strictly
ascending order, exactly the stored values that are at least `v`. -/
theorem iterFrom_correct (k : Nat) (t : VanEmdeBoasTree)
    (hwf : WF k t) (hk1 : 1 ≤ k) :
    ∀ fuel v, Stores k t v → 2 ^ k - v ≤ fuel →
      (iterFrom fuel t (some v)).Sorted (· < ·) ∧
      (∀ y, y ∈ iterFrom fuel t (some v) ↔ (Stores k t y ∧ v ≤ y)) := by
  intro fuel
  induction fuel with
  | zero =>
    intro v hv hfuel
    have := stores_lt _ _ _ hwf hv
    omega
  | succ fuel ihf =>
    intro v hv hfuel
    have hvlt := stores_lt _ _ _ hwf hv
    have hspec := successor_correct hwf hk1 hvlt
    show (v :: iterFrom fuel t (t.successor v)).Sorted (· < ·) ∧
      ∀ y, y ∈ v :: iterFrom fuel t (t.successor v) ↔
        (Stores k t y ∧ v ≤ y)
    cases hsucc : t.successor v with
    | none =>
      rw [hsucc] at hspec
      rw [iterFrom_none]
      refine ⟨List.sorted_singleton v, fun y => ?_⟩
      rw [List.mem_singleton]
      constructor
      · rintro rfl
        exact ⟨hv, le_rfl⟩
      · rintro ⟨hsy, hvy⟩
        rcases Nat.eq_or_lt_of_le hvy with heq | hlt
        · exact heq.symm
        · exact absurd hlt (hspec y hsy)
    | some w =>
      rw [hsucc] at hspec
      obtain ⟨hsw, hvw, hmin⟩ := hspec
      have hwlt := stores_lt _ _ _ hwf hsw
      obtain ⟨hsort, hmem⟩ := ihf w hsw (by omega)
      constructor
      · rw [List.sorted_cons]
        refine ⟨?_, hsort⟩
        intro b hb
        have := (hmem b).mp hb
        omega
      · intro y
        rw [List.mem_cons, hmem y]
        constructor
        · rintro (rfl | ⟨hsy, hwy⟩)
          · exact ⟨hv, le_rfl⟩
          · exact ⟨hsy, by omega⟩
        · rintro ⟨hsy, hvy⟩
          rcases Nat.eq_or_lt_of_le hvy with heq | hlt
          · exact Or.inl heq.symm
          · exact Or.inr ⟨hsy, hmin y hsy hlt⟩

/-- Iteration enumerates exactly the stored values, strictly
ascending. -/
theorem iter_correct {k : Nat} {t : VanEmdeBoasTree}
    (hwf : WF k t) (hk1 : 1 ≤ k) :
    t.iter.Sorted (· < ·) ∧ ∀ y, y ∈ t.iter ↔ Stores k t y := by
  show (iterFrom t.valueRange t t.min).Sorted (· < ·) ∧
    ∀ y, y ∈ iterFrom t.valueRange t t.min ↔ Stores k t y
  cases hmin : t.min with
  | none =>
    rw [iterFrom_none]
    refine ⟨List.sorted_nil, fun y => ?_⟩
    constructor
    · intro h
      simp at h
    · intro h
      exact absurd h (not_stores_of_min_none hwf hmin y)
  | some mn =>
    have hv : Stores k t mn := stores_of_min_eq hmin
    rw [hwf.valueRange_eq]
    obtain ⟨hs, hm⟩ := iterFrom_correct k t hwf hk1 (2 ^ k) mn hv
      (Nat.sub_le _ _)
    refine ⟨hs, fun y => ?_⟩
    rw [hm y]
    constructor
    · exact And.left
    · intro h
      exact ⟨h, min_le_stores hwf hmin y h⟩

/-! ### Remaining support lemmas for the claims -/

theorem one_le_ceilLog2 {R : Nat} (hR : 2 ≤ R) : 1 ≤ ceilLog2 R := by
  rw [ceilLog2_eq]
  exact Nat.clog_pos (by norm_num) hR

/-- Folding a block of insertions over the membership accumulator. -/
theorem netMem_inss (x : Nat) : ∀ (vals : List Nat) (b : Bool),
    List.foldl
      (fun b2 op =>
        match op with
        | Op.ins y => if y = x then true else b2
        | Op.del y => if y = x then false else b2)
      b (vals.map Op.ins) = if x ∈ vals then true else b := by
  intro vals
  induction vals with
  | nil =>
    intro b
    simp
  | cons a vs ihv =>
    intro b
    simp only [List.map_cons, List.foldl_cons]
    rw [ihv]
    by_cases hax : a = x
    · subst hax
      rw [if_pos rfl, if_pos (List.mem_cons_self a vs)]
      by_cases hm : a ∈ vs
      · rw [if_pos hm]
      · rw [if_neg hm]
    · rw [if_neg hax]
      by_cases hm : x ∈ vs
      · rw [if_pos hm, if_pos (List.mem_cons_of_mem a hm)]
      · rw [if_neg hm, if_neg (by
          intro h
          rcases List.mem_cons.mp h with h2 | h2
          · exact hax h2.symm
          · exact hm h2)]

/-- Folding a block of deletions over the membership accumulator. -/
theorem netMem_dels (x : Nat) : ∀ (vals : List Nat) (b : Bool),
    List.foldl
      (fun b2 op =>
        match op with
        | Op.ins y => if y = x then true else b2
        | Op.del y => if y = x then false else b2)
      b (vals.map Op.del) = if x ∈ vals then false else b := by
  intro vals
  induction vals with
  | nil =>
    intro b
    simp
  | cons a vs ihv =>
    intro b
    simp only [List.map_cons, List.foldl_cons]
    rw [ihv]
    by_cases hax : a = x
    · subst hax
      rw [if_pos rfl, if_pos (List.mem_cons_self a vs)]
      by_cases hm : a ∈ vs
      · rw [if_pos hm]
      · rw [if_neg hm]
    · rw [if_neg hax]
      by_cases hm : x ∈ vs
      · rw [if_pos hm, if_pos (List.mem_cons_of_mem a hm)]
      · rw [if_neg hm, if_neg (by
          intro h
          rcases List.mem_cons.mp h with h2 | h2
          · exact hax h2.symm
          · exact hm h2)]

/-- Inserting a batch of values and then deleting the whole batch leaves
no net member. -/
theorem netMem_ins_del (vals : List Nat) (x : Nat) :
    netMem (vals.map Op.ins ++ vals.map Op.del) x = false := by
  simp only [netMem, List.foldl_append]
  rw [netMem_inss, netMem_dels]
  by_cases hm : x ∈ vals
  · rw [if_pos hm]
  · rw [if_neg hm, if_neg hm]

/-! ### The claims -/

/-- C1: for every finite sequence of in-range insert and delete operations
applied to a freshly constructed structure, `contains x` is true exactly
when `x` was inserted at some point and not deleted since its most recent
insertion (`netMem`); moreover inserting an already-present value and
deleting an absent value leave the whole state (hence membership)
unchanged. -/
theorem claim_C1_roundtrip_membership (R : Nat) (ops : List Op) (x : Nat)
    (hops : ∀ op ∈ ops, op.arg < (VanEmdeBoasTree.init R).valueRange) :
    ((applyOps (VanEmdeBoasTree.init R) ops).contains x = true ↔
      netMem ops x = true) ∧
    (∀ a, (applyOps (VanEmdeBoasTree.init R) ops).contains a = true →
      applyOps (VanEmdeBoasTree.init R) (ops ++ [Op.ins a]) =
        applyOps (VanEmdeBoasTree.init R) ops) ∧
    (∀ a, (applyOps (VanEmdeBoasTree.init R) ops).contains a = false →
      applyOps (VanEmdeBoasTree.init R) (ops ++ [Op.del a]) =
        applyOps (VanEmdeBoasTree.init R) ops) := by
  have hops2 : ∀ op ∈ ops, op.arg < 2 ^ ceilLog2 R := by
    intro op h
    have := hops op h
    rwa [init_valueRange] at this
  obtain ⟨hwf, hst⟩ := applyOps_stores R ops hops2
  refine ⟨?_, ?_, ?_⟩
  · rw [contains_iff_stores hwf]
    exact hst x
  · intro a ha
    rw [applyOps_append]
    exact insert_absorb hwf ((contains_iff_stores hwf).mp ha)
  · intro a ha
    rw [applyOps_append]
    refine delete_absorb hwf (fun hs => ?_)
    have h2 := (contains_iff_stores hwf).mpr hs
    rw [ha] at h2
    exact Bool.noConfusion h2

theorem claim_C1_witness :
    (((applyOps (VanEmdeBoasTree.init 8) [Op.ins 3, Op.ins 1, Op.del 3]).contains 3
        = true ↔ netMem [Op.ins 3, Op.ins 1, Op.del 3] 3 = true) ∧
     (∀ a, (applyOps (VanEmdeBoasTree.init 8)
          [Op.ins 3, Op.ins 1, Op.del 3]).contains a = true →
        applyOps (VanEmdeBoasTree.init 8)
            ([Op.ins 3, Op.ins 1, Op.del 3] ++ [Op.ins a]) =
          applyOps (VanEmdeBoasTree.init 8) [Op.ins 3, Op.ins 1, Op.del 3]) ∧
     (∀ a, (applyOps (VanEmdeBoasTree.init 8)
          [Op.ins 3, Op.ins 1, Op.del 3]).contains a = false →
        applyOps (VanEmdeBoasTree.init 8)
            ([Op.ins 3, Op.ins 1, Op.del 3] ++ [Op.del a]) =
          applyOps (VanEmdeBoasTree.init 8) [Op.ins 3, Op.ins 1, Op.del 3])) :=
  claim_C1_roundtrip_membership 8 [Op.ins 3, Op.ins 1, Op.del 3] 3 (by decide)

/-- C2: on every reachable state of a universe of requested range at least
2, `predecessor x` returns the largest stored value strictly below `x`
(`none` if there is none) and `successor x` the smallest stored value
strictly above `x`; consecutive stored values map to each other, the
predecessor of the cached minimum is `none`, and the successor of the
cached maximum is `none`. -/
theorem claim_C2_pred_succ (R : Nat) (t : VanEmdeBoasTree) (x : Nat)
    (hR : 2 ≤ R) (hreach : Reachable R t) (hx : x < t.valueRange) :
    PredSpec (ceilLog2 R) t x (t.predecessor x) ∧
    SuccSpec (ceilLog2 R) t x (t.successor x) ∧
    (∀ a b, Stores (ceilLog2 R) t a → Stores (ceilLog2 R) t b → a < b →
      (∀ z, Stores (ceilLog2 R) t z → ¬ (a < z ∧ z < b)) →
      t.successor a = some b ∧ t.predecessor b = some a) ∧
    (∀ mn, t.min = some mn → t.predecessor mn = none) ∧
    (∀ mx, t.max = some mx → t.successor mx = none) := by
  have hwf := reachable_WF hreach
  have hk1 := one_le_ceilLog2 hR
  rw [hwf.valueRange_eq] at hx
  refine ⟨predecessor_correct hwf hk1 hx, successor_correct hwf hk1 hx,
    ?_, ?_, ?_⟩
  · intro a b ha hb hab hno
    have halt := stores_lt _ _ _ hwf ha
    have hblt := stores_lt _ _ _ hwf hb
    constructor
    · have hsp := successor_correct hwf hk1 halt
      cases hs : t.successor a with
      | none =>
        rw [hs] at hsp
        exact absurd hab (hsp b hb)
      | some p =>
        rw [hs] at hsp
        obtain ⟨hp, hap, hmin⟩ := hsp
        have hpb : p ≤ b := hmin b hb hab
        have hnp : ¬ (a < p ∧ p < b) := hno p hp
        have : p = b := by omega
        rw [this]
    · have hpp := predecessor_correct hwf hk1 hblt
      cases hs : t.predecessor b with
      | none =>
        rw [hs] at hpp
        exact absurd hab (hpp a ha)
      | some p =>
        rw [hs] at hpp
        obtain ⟨hp, hpb, hmax⟩ := hpp
        have hap : a ≤ p := hmax a ha hab
        have hnp : ¬ (a < p ∧ p < b) := hno p hp
        have : p = a := by omega
        rw [this]
  · intro mn hmn
    have hst : Stores (ceilLog2 R) t mn := stores_of_min_eq hmn
    have hlt := stores_lt _ _ _ hwf hst
    have hps := predecessor_correct hwf hk1 hlt
    cases hp : t.predecessor mn with
    | none => rfl
    | some p =>
      rw [hp] at hps
      obtain ⟨hpst, hplt, _⟩ := hps
      have := min_le_stores hwf hmn p hpst
      exact absurd hplt (by omega)
  · intro mx hmx
    have hst : Stores (ceilLog2 R) t mx := stores_of_max_eq hmx
    have hlt := stores_lt _ _ _ hwf hst
    have hss := successor_correct hwf hk1 hlt
    cases hp : t.successor mx with
    | none => rfl
    | some p =>
      rw [hp] at hss
      obtain ⟨hpst, hplt, _⟩ := hss
      have := stores_le_max hwf hmx p hpst
      exact absurd hplt (by omega)

theorem claim_C2_witness :
    (PredSpec (ceilLog2 4) (applyOps (VanEmdeBoasTree.init 4)
        [Op.ins 1, Op.ins 3]) 2
      ((applyOps (VanEmdeBoasTree.init 4) [Op.ins 1, Op.ins 3]).predecessor 2) ∧
     SuccSpec (ceilLog2 4) (applyOps (VanEmdeBoasTree.init 4)
        [Op.ins 1, Op.ins 3]) 2
      ((applyOps (VanEmdeBoasTree.init 4) [Op.ins 1, Op.ins 3]).successor 2) ∧
     (∀ a b, Stores (ceilLog2 4) (applyOps (VanEmdeBoasTree.init 4)
          [Op.ins 1, Op.ins 3]) a →
        Stores (ceilLog2 4) (applyOps (VanEmdeBoasTree.init 4)
          [Op.ins 1, Op.ins 3]) b → a < b →
        (∀ z, Stores (ceilLog2 4) (applyOps (VanEmdeBoasTree.init 4)
          [Op.ins 1, Op.ins 3]) z → ¬ (a < z ∧ z < b)) →
        (applyOps (VanEmdeBoasTree.init 4)
          [Op.ins 1, Op.ins 3]).successor a = some b ∧
        (applyOps (VanEmdeBoasTree.init 4)
          [Op.ins 1, Op.ins 3]).predecessor b = some a) ∧
     (∀ mn, (applyOps (VanEmdeBoasTree.init 4)
          [Op.ins 1, Op.ins 3]).min = some mn →
        (applyOps (VanEmdeBoasTree.init 4)
          [Op.ins 1, Op.ins 3]).predecessor mn = none) ∧
     (∀ mx, (applyOps (VanEmdeBoasTree.init 4)
          [Op.ins 1, Op.ins 3]).max = some mx →
        (applyOps (VanEmdeBoasTree.init 4)
          [Op.ins 1, Op.ins 3]).successor mx = none)) :=
  claim_C2_pred_succ 4 (applyOps (VanEmdeBoasTree.init 4)
      [Op.ins 1, Op.ins 3]) 2 (by norm_num)
    ⟨[Op.ins 1, Op.ins 3], by decide, rfl⟩ (by decide)

/-- C3: every reachable state satisfies the structural invariant: `min`
and `max` are both absent exactly when nothing is stored; when present,
`min ≤ max`; when `min = max` exactly one value is stored and no cluster
or summary state exists; and for `valueRange > 2` the summary is present
exactly when at least one cluster child exists, the summary stores
exactly the cluster keys, and every mapped cluster is non-empty. -/
theorem claim_C3_invariant (R : Nat) (t : VanEmdeBoasTree)
    (hreach : Reachable R t) :
    ((t.min = none ↔ t.max = none) ∧
     (t.min = none ↔ ∀ y, ¬ Stores (ceilLog2 R) t y)) ∧
    (∀ mn mx, t.min = some mn → t.max = some mx → mn ≤ mx) ∧
    (∀ m, t.min = some m → t.max = some m →
      (∀ y, Stores (ceilLog2 R) t y ↔ y = m) ∧
      t.cluster = [] ∧ t.summary = none) ∧
    (2 < t.valueRange →
      ((t.summary = none ↔ t.cluster = []) ∧
       (∀ s, t.summary = some s → ∀ j,
         Stores ((ceilLog2 R + 1) / 2) s j ↔ j ∈ t.cluster.map Prod.fst) ∧
       (∀ p ∈ t.cluster, p.2.min ≠ none))) := by
  have hwf := reachable_WF hreach
  refine ⟨⟨min_none_iff_max_none hwf, min_none_iff_empty hwf⟩, ?_, ?_, ?_⟩
  · intro mn mx hmn hmx
    exact (min_le_max hwf hmn hmx).1
  · intro m hmn hmx
    exact ⟨stores_singleton_iff hwf hmn hmx, singleton_no_rec hwf hmn hmx⟩
  · intro hr2
    obtain ⟨k0, hk0⟩ : ∃ k0, ceilLog2 R = k0 := ⟨_, rfl⟩
    rw [hk0] at hwf ⊢
    clear hk0
    cases hwf with
    | leaf k r mno mxo hk hr hmm =>
      exfalso
      subst hr
      have h1 : 2 ^ k0 ≤ 2 ^ 1 := Nat.pow_le_pow_right (by norm_num) hk
      simp only [VanEmdeBoasTree.valueRange] at hr2
      omega
    | node k r mno mxo sm cl hk hr hmm hkeys hkeyLt hchild hne hsn hsWF
        hsSt hbound =>
      refine ⟨?_, ?_, ?_⟩
      · simpa only [VanEmdeBoasTree.summary, VanEmdeBoasTree.cluster]
          using hsn
      · intro s hs j
        simp only [VanEmdeBoasTree.summary] at hs
        simpa only [VanEmdeBoasTree.cluster] using hsSt s hs j
      · intro p hp
        simp only [VanEmdeBoasTree.cluster] at hp
        exact hne p hp

theorem claim_C3_witness :
    (((applyOps (VanEmdeBoasTree.init 8) [Op.ins 1, Op.ins 6]).min = none ↔
       (applyOps (VanEmdeBoasTree.init 8) [Op.ins 1, Op.ins 6]).max = none) ∧
     ((applyOps (VanEmdeBoasTree.init 8) [Op.ins 1, Op.ins 6]).min = none ↔
       ∀ y, ¬ Stores (ceilLog2 8)
         (applyOps (VanEmdeBoasTree.init 8) [Op.ins 1, Op.ins 6]) y)) ∧
    (∀ mn mx, (applyOps (VanEmdeBoasTree.init 8)
        [Op.ins 1, Op.ins 6]).min = some mn →
      (applyOps (VanEmdeBoasTree.init 8) [Op.ins 1, Op.ins 6]).max = some mx →
      mn ≤ mx) ∧
    (∀ m, (applyOps (VanEmdeBoasTree.init 8)
        [Op.ins 1, Op.ins 6]).min = some m →
      (applyOps (VanEmdeBoasTree.init 8) [Op.ins 1, Op.ins 6]).max = some m →
      (∀ y, Stores (ceilLog2 8)
          (applyOps (VanEmdeBoasTree.init 8) [Op.ins 1, Op.ins 6]) y ↔ y = m) ∧
      (applyOps (VanEmdeBoasTree.init 8) [Op.ins 1, Op.ins 6]).cluster = [] ∧
      (applyOps (VanEmdeBoasTree.init 8) [Op.ins 1, Op.ins 6]).summary = none) ∧
    (2 < (applyOps (VanEmdeBoasTree.init 8) [Op.ins 1, Op.ins 6]).valueRange →
      (((applyOps (VanEmdeBoasTree.init 8) [Op.ins 1, Op.ins 6]).summary = none ↔
        (applyOps (VanEmdeBoasTree.init 8) [Op.ins 1, Op.ins 6]).cluster = []) ∧
       (∀ s, (applyOps (VanEmdeBoasTree.init 8)
           [Op.ins 1, Op.ins 6]).summary = some s → ∀ j,
         Stores ((ceilLog2 8 + 1) / 2) s j ↔
           j ∈ (applyOps (VanEmdeBoasTree.init 8)
             [Op.ins 1, Op.ins 6]).cluster.map Prod.fst) ∧
       (∀ p ∈ (applyOps (VanEmdeBoasTree.init 8)
           [Op.ins 1, Op.ins 6]).cluster, p.2.min ≠ none))) :=
  claim_C3_invariant 8 (applyOps (VanEmdeBoasTree.init 8)
    [Op.ins 1, Op.ins 6]) ⟨[Op.ins 1, Op.ins 6], by decide, rfl⟩

/-- C4 counterexample: the spec says construction rounds the requested
range up to a power of two that is at least 2, with R = 1 yielding a
usable 2-element universe; in the code `init 1` has `valueRange = 1`,
not 2. -/
theorem claim_C4_counterexample :
    (VanEmdeBoasTree.init 1).valueRange = 1 ∧
    (VanEmdeBoasTree.init 1).valueRange ≠ 2 := by
  exact ⟨rfl, by decide⟩

/-- C4 (amended): the program computes `bitSize = ceil(log(R, 2))` with
floating-point `log` and sets `valueRange = 1 << bitSize`, so it has no
general next-power-of-two guarantee: the float ceiling overshoots some
exact powers of two (CPython gives `ceil(log(2**29, 2)) = 30`, so range
`2**29` yields `valueRange = 2**30`) and undershoots huge ranges
(`2**53 + 1` yields `valueRange = 2**53`, below the request).  `init`
models the ceiling exactly, so only ranges where the float computation
agrees with the exact ceiling are formalized; at these the spec's
examples do hold: small ranges round up to the next power of two,
range 5 yields `valueRange = 8` with 5, 6 and 7 insertable, while the
degenerate range 1 yields a 1-element universe (not the 2-element
universe the spec promises). -/
theorem claim_C4_construction_rounding :
    (VanEmdeBoasTree.init 2).valueRange = 2 ∧
    (VanEmdeBoasTree.init 3).valueRange = 4 ∧
    (VanEmdeBoasTree.init 4).valueRange = 4 ∧
    (VanEmdeBoasTree.init 5).valueRange = 8 ∧
    ((VanEmdeBoasTree.init 5).insert 5).contains 5 = true ∧
    ((VanEmdeBoasTree.init 5).insert 6).contains 6 = true ∧
    ((VanEmdeBoasTree.init 5).insert 7).contains 7 = true ∧
    (VanEmdeBoasTree.init 1).valueRange = 1 ∧
    (VanEmdeBoasTree.init 1).valueRange ≠ 2 := by
  exact ⟨rfl, rfl, rfl, rfl, rfl, rfl, rfl, rfl, by decide⟩

/-- C5 counterexample: the spec demands that out-of-range arguments be
rejected; the code silently accepts them: inserting 5 into a freshly
constructed 2-element universe stores it (it becomes the cached bound
and `contains 5` is true). -/
theorem claim_C5_counterexample :
    ((VanEmdeBoasTree.init 2).insert 5).contains 5 = true ∧
    ((VanEmdeBoasTree.init 2).insert 5).max = some 5 ∧
    ((VanEmdeBoasTree.init 2).insert 5).min = some 5 := by
  exact ⟨rfl, rfl, rfl⟩

/-- C5 (amended): no operation validates its argument — inserting any
`x`, however far out of range, into a freshly constructed structure of
any requested range caches it as both bounds and makes `contains x`
true; no error value or rejection exists in the code. -/
theorem claim_C5_no_validation (R x : Nat) :
    ((VanEmdeBoasTree.init R).insert x).min = some x ∧
    ((VanEmdeBoasTree.init R).insert x).max = some x ∧
    ((VanEmdeBoasTree.init R).insert x).contains x = true := by
  have hpos : 0 < 2 ^ ceilLog2 R := Nat.two_pow_pos _
  obtain ⟨f2, hf⟩ : ∃ f2, 2 ^ ceilLog2 R = f2 + 1 :=
    ⟨2 ^ ceilLog2 R - 1, by omega⟩
  have hins : (VanEmdeBoasTree.init R).insert x =
      VanEmdeBoasTree.mk (2 ^ ceilLog2 R) (some x) (some x) none [] := by
    show insertF (VanEmdeBoasTree.init R).valueRange
      (VanEmdeBoasTree.init R) x = _
    rw [init_valueRange, init_eq, hf]
    simp only [insertF]
    rw [if_neg (by simp)]
  refine ⟨by rw [hins]; rfl, by rw [hins]; rfl, ?_⟩
  rw [hins]
  show containsF (VanEmdeBoasTree.mk (2 ^ ceilLog2 R) (some x) (some x)
      none []).valueRange _ x = true
  simp only [VanEmdeBoasTree.valueRange]
  rw [hf]
  simp only [containsF]
  simp

/-- C6: after inserting a list of distinct in-range values and then
deleting them all, the structure has no live cluster or summary node
(the cluster list is empty and the summary absent, so no node exists at
any level), both cached bounds are absent, and `contains` is false for
every in-range value. -/
theorem claim_C6_emptying (R : Nat) (vals : List Nat)
    (hvals : ∀ v ∈ vals, v < (VanEmdeBoasTree.init R).valueRange)
    (hnodup : vals.Nodup) :
    (applyOps (VanEmdeBoasTree.init R)
      (vals.map Op.ins ++ vals.map Op.del)).cluster = [] ∧
    (applyOps (VanEmdeBoasTree.init R)
      (vals.map Op.ins ++ vals.map Op.del)).summary = none ∧
    (applyOps (VanEmdeBoasTree.init R)
      (vals.map Op.ins ++ vals.map Op.del)).min = none ∧
    (applyOps (VanEmdeBoasTree.init R)
      (vals.map Op.ins ++ vals.map Op.del)).max = none ∧
    ∀ x, x < (VanEmdeBoasTree.init R).valueRange →
      (applyOps (VanEmdeBoasTree.init R)
        (vals.map Op.ins ++ vals.map Op.del)).contains x = false := by
  have hops2 : ∀ op ∈ vals.map Op.ins ++ vals.map Op.del,
      op.arg < 2 ^ ceilLog2 R := by
    intro op hop
    rcases List.mem_append.mp hop with h | h <;>
      obtain ⟨v, hv, rfl⟩ := List.mem_map.mp h <;>
      · have := hvals v hv
        rwa [init_valueRange] at this
  obtain ⟨hwf, hst⟩ := applyOps_stores R _ hops2
  have hemp : ∀ y, ¬ Stores (ceilLog2 R) (applyOps (VanEmdeBoasTree.init R)
      (vals.map Op.ins ++ vals.map Op.del)) y := by
    intro y hy
    have h2 := (hst y).mp hy
    rw [netMem_ins_del] at h2
    exact Bool.noConfusion h2
  have hmin := (min_none_iff_empty hwf).mpr hemp
  have hmax := (min_none_iff_max_none hwf).mp hmin
  obtain ⟨hcl, hsm⟩ := empty_no_rec hwf hmin
  refine ⟨hcl, hsm, hmin, hmax, ?_⟩
  intro x _
  cases hcc : (applyOps (VanEmdeBoasTree.init R)
      (vals.map Op.ins ++ vals.map Op.del)).contains x with
  | false => rfl
  | true => exact absurd ((contains_iff_stores hwf).mp hcc) (hemp x)

theorem claim_C6_witness :
    ((applyOps (VanEmdeBoasTree.init 8)
      ([3, 5].map Op.ins ++ [3, 5].map Op.del)).cluster = [] ∧
    (applyOps (VanEmdeBoasTree.init 8)
      ([3, 5].map Op.ins ++ [3, 5].map Op.del)).summary = none ∧
    (applyOps (VanEmdeBoasTree.init 8)
      ([3, 5].map Op.ins ++ [3, 5].map Op.del)).min = none ∧
    (applyOps (VanEmdeBoasTree.init 8)
      ([3, 5].map Op.ins ++ [3, 5].map Op.del)).max = none ∧
    ∀ x, x < (VanEmdeBoasTree.init 8).valueRange →
      (applyOps (VanEmdeBoasTree.init 8)
        ([3, 5].map Op.ins ++ [3, 5].map Op.del)).contains x = false) :=
  claim_C6_emptying 8 [3, 5] (by decide) (by decide)

/-- C7: insert and delete are idempotent on the whole structure state:
on any reachable state, inserting the same in-range value twice equals
inserting it once, and deleting the same value twice equals deleting it
once. -/
theorem claim_C7_idempotence (R : Nat) (t : VanEmdeBoasTree) (x : Nat)
    (hreach : Reachable R t) (hx : x < t.valueRange) :
    (t.insert x).insert x = t.insert x ∧
    (t.delete x).delete x = t.delete x := by
  have hwf := reachable_WF hreach
  rw [hwf.valueRange_eq] at hx
  exact ⟨insert_idem hwf hx, delete_idem hwf⟩

theorem claim_C7_witness :
    (((applyOps (VanEmdeBoasTree.init 4) [Op.ins 1]).insert 2).insert 2 =
      (applyOps (VanEmdeBoasTree.init 4) [Op.ins 1]).insert 2 ∧
     ((applyOps (VanEmdeBoasTree.init 4) [Op.ins 1]).delete 2).delete 2 =
      (applyOps (VanEmdeBoasTree.init 4) [Op.ins 1]).delete 2) :=
  claim_C7_idempotence 4 (applyOps (VanEmdeBoasTree.init 4) [Op.ins 1]) 2
    ⟨[Op.ins 1], by decide, rfl⟩ (by decide)

/-- C8: iteration starts at `min` and walks by `successor`, yielding
exactly the stored values in strictly ascending order with no
duplicates; a fresh structure yields the empty sequence, and inserting
3, 1, 4, 1, 5, 9, 2, 6 into a range-16 structure yields exactly
(1, 2, 3, 4, 5, 6, 9). -/
theorem claim_C8_enumeration (R : Nat) (t : VanEmdeBoasTree)
    (hR : 2 ≤ R) (hreach : Reachable R t) :
    t.iter.Sorted (· < ·) ∧
    (∀ y, y ∈ t.iter ↔ t.contains y = true) ∧
    (VanEmdeBoasTree.init R).iter = [] ∧
    (applyOps (VanEmdeBoasTree.init 16)
      [Op.ins 3, Op.ins 1, Op.ins 4, Op.ins 1, Op.ins 5, Op.ins 9,
        Op.ins 2, Op.ins 6]).iter = [1, 2, 3, 4, 5, 6, 9] := by
  have hwf := reachable_WF hreach
  have hk1 := one_le_ceilLog2 hR
  obtain ⟨hs, hm⟩ := iter_correct hwf hk1
  refine ⟨hs, fun y => ?_, iterFrom_none _ _, rfl⟩
  rw [hm y, contains_iff_stores hwf]

theorem claim_C8_witness :
    ((applyOps (VanEmdeBoasTree.init 4)
        [Op.ins 1, Op.ins 3]).iter.Sorted (· < ·) ∧
     (∀ y, y ∈ (applyOps (VanEmdeBoasTree.init 4)
          [Op.ins 1, Op.ins 3]).iter ↔
        (applyOps (VanEmdeBoasTree.init 4)
          [Op.ins 1, Op.ins 3]).contains y = true) ∧
     (VanEmdeBoasTree.init 4).iter = [] ∧
     (applyOps (VanEmdeBoasTree.init 16)
       [Op.ins 3, Op.ins 1, Op.ins 4, Op.ins 1, Op.ins 5, Op.ins 9,
         Op.ins 2, Op.ins 6]).iter = [1, 2, 3, 4, 5, 6, 9]) :=
  claim_C8_enumeration 4 (applyOps (VanEmdeBoasTree.init 4)
    [Op.ins 1, Op.ins 3]) (by norm_num) ⟨[Op.ins 1, Op.ins 3], by decide, rfl⟩

/-- C9: in a `valueRange = 2` node, deleting the single element when
`min = max` clears both bounds; with both 0 and 1 stored, `delete 0`
makes the bounds `1`/`1` and `delete 1` makes them `0`/`0`; concretely,
after `insert 0; insert 1; delete 0` on a range-2 structure,
`contains 1` is true, `contains 0` is false, and `predecessor 1` is
`none`. -/
theorem claim_C9_range2_delete (t : VanEmdeBoasTree) (hwf : WF 1 t) :
    (∀ x, t.min = some x → t.max = some x →
      (t.delete x).min = none ∧ (t.delete x).max = none) ∧
    (t.min = some 0 → t.max = some 1 →
      ((t.delete 0).min = some 1 ∧ (t.delete 0).max = some 1) ∧
      ((t.delete 1).min = some 0 ∧ (t.delete 1).max = some 0)) ∧
    ((((VanEmdeBoasTree.init 2).insert 0).insert 1).delete 0).contains 1
        = true ∧
    ((((VanEmdeBoasTree.init 2).insert 0).insert 1).delete 0).contains 0
        = false ∧
    ((((VanEmdeBoasTree.init 2).insert 0).insert 1).delete 0).predecessor 1
        = none := by
  cases hwf with
  | leaf k r mno mxo hk hr hmm =>
    subst hr
    refine ⟨?_, ?_, rfl, rfl, rfl⟩
    · intro x hmn hmx
      simp only [VanEmdeBoasTree.min] at hmn
      simp only [VanEmdeBoasTree.max] at hmx
      subst hmn
      subst hmx
      simp [VanEmdeBoasTree.delete, VanEmdeBoasTree.valueRange, deleteF,
        VanEmdeBoasTree.min, VanEmdeBoasTree.max]
    · intro hmn hmx
      simp only [VanEmdeBoasTree.min] at hmn
      simp only [VanEmdeBoasTree.max] at hmx
      subst hmn
      subst hmx
      refine ⟨⟨?_, ?_⟩, ?_, ?_⟩ <;>
        simp [VanEmdeBoasTree.delete, VanEmdeBoasTree.valueRange, deleteF,
          VanEmdeBoasTree.min, VanEmdeBoasTree.max]
  | node k r mno mxo sm cl hk =>
    exact absurd hk (by omega)

theorem claim_C9_witness :
    ((∀ x, (VanEmdeBoasTree.mk 2 (some 0) (some 1) none
        ([] : List (Nat × VanEmdeBoasTree))).min = some x →
      (VanEmdeBoasTree.mk 2 (some 0) (some 1) none []).max = some x →
      ((VanEmdeBoasTree.mk 2 (some 0) (some 1) none []).delete x).min
          = none ∧
      ((VanEmdeBoasTree.mk 2 (some 0) (some 1) none []).delete x).max
          = none) ∧
    ((VanEmdeBoasTree.mk 2 (some 0) (some 1) none []).min = some 0 →
      (VanEmdeBoasTree.mk 2 (some 0) (some 1) none []).max = some 1 →
      (((VanEmdeBoasTree.mk 2 (some 0) (some 1) none []).delete 0).min
          = some 1 ∧
       ((VanEmdeBoasTree.mk 2 (some 0) (some 1) none []).delete 0).max
          = some 1) ∧
      (((VanEmdeBoasTree.mk 2 (some 0) (some 1) none []).delete 1).min
          = some 0 ∧
       ((VanEmdeBoasTree.mk 2 (some 0) (some 1) none []).delete 1).max
          = some 0)) ∧
    ((((VanEmdeBoasTree.init 2).insert 0).insert 1).delete 0).contains 1
        = true ∧
    ((((VanEmdeBoasTree.init 2).insert 0).insert 1).delete 0).contains 0
        = false ∧
    ((((VanEmdeBoasTree.init 2).insert 0).insert 1).delete 0).predecessor 1
        = none) :=
  claim_C9_range2_delete (VanEmdeBoasTree.mk 2 (some 0) (some 1) none [])
    (WF.leaf 1 2 (some 0) (some 1) (by norm_num) rfl
      ⟨by norm_num, by norm_num⟩)

/-- C10: in every reachable node with `valueRange > 2` and cached bounds
`mn`/`mx`, the values held recursively in the cluster children are
exactly the stored values other than `mn` and `mx`: every cluster value
is stored and lies strictly between the bounds (so neither cached bound
is duplicated in a cluster), and every stored value other than the
bounds is a cluster value. -/
theorem claim_C10_cluster_contents (R : Nat) (t : VanEmdeBoasTree)
    (hreach : Reachable R t) (hr2 : 2 < t.valueRange) :
    ∀ mn mx, t.min = some mn → t.max = some mx →
      (∀ i c j, (i, c) ∈ t.cluster → Stores (ceilLog2 R / 2) c j →
        (Stores (ceilLog2 R) t (i * 2 ^ (ceilLog2 R / 2) + j) ∧
         mn < i * 2 ^ (ceilLog2 R / 2) + j ∧
         i * 2 ^ (ceilLog2 R / 2) + j < mx)) ∧
      (∀ y, Stores (ceilLog2 R) t y → y ≠ mn → y ≠ mx →
        ∃ i c j, (i, c) ∈ t.cluster ∧ Stores (ceilLog2 R / 2) c j ∧
          y = i * 2 ^ (ceilLog2 R / 2) + j) := by
  have hwf := reachable_WF hreach
  obtain ⟨k0, hk0⟩ : ∃ k0, ceilLog2 R = k0 := ⟨_, rfl⟩
  rw [hk0] at hwf ⊢
  clear hk0
  cases hwf with
  | leaf k r mno mxo hk hr hmm =>
    exfalso
    subst hr
    have h1 : 2 ^ k0 ≤ 2 ^ 1 := Nat.pow_le_pow_right (by norm_num) hk
    simp only [VanEmdeBoasTree.valueRange] at hr2
    omega
  | node k r mno mxo sm cl hk hr hmm hkeys hkeyLt hchild hne hsn hsWF
      hsSt hbound =>
    intro mn mx hmn hmx
    simp only [VanEmdeBoasTree.min] at hmn
    simp only [VanEmdeBoasTree.max] at hmx
    subst hmn
    subst hmx
    constructor
    · intro i c j hp hs
      simp only [VanEmdeBoasTree.cluster] at hp
      have hB : strictlyInside (some mn) (some mx)
          (i * 2 ^ (k0 / 2) + j) := hbound (i, c) hp j hs
      obtain ⟨a, b, ha, hb, h1, h2⟩ := strictlyInside_elim hB
      injection ha with ha
      injection hb with hb
      subst ha
      subst hb
      exact ⟨Stores.viaCluster _ _ _ _ _ _ _ _ _ hp hs, h1, h2⟩
    · intro y hy hymn hymx
      rcases stores_iff.mp hy with h | h | ⟨i, c, j, hp, hs, rfl⟩
      · injection h with h
        exact absurd h.symm hymn
      · injection h with h
        exact absurd h.symm hymx
      · exact ⟨i, c, j, by simpa [VanEmdeBoasTree.cluster] using hp, hs, rfl⟩

theorem claim_C10_witness :
    ((∀ i c j, (i, c) ∈ (applyOps (VanEmdeBoasTree.init 8)
          [Op.ins 1, Op.ins 4, Op.ins 6]).cluster →
        Stores (ceilLog2 8 / 2) c j →
        (Stores (ceilLog2 8) (applyOps (VanEmdeBoasTree.init 8)
            [Op.ins 1, Op.ins 4, Op.ins 6])
          (i * 2 ^ (ceilLog2 8 / 2) + j) ∧
         1 < i * 2 ^ (ceilLog2 8 / 2) + j ∧
         i * 2 ^ (ceilLog2 8 / 2) + j < 6)) ∧
     (∀ y, Stores (ceilLog2 8) (applyOps (VanEmdeBoasTree.init 8)
          [Op.ins 1, Op.ins 4, Op.ins 6]) y → y ≠ 1 → y ≠ 6 →
        ∃ i c j, (i, c) ∈ (applyOps (VanEmdeBoasTree.init 8)
            [Op.ins 1, Op.ins 4, Op.ins 6]).cluster ∧
          Stores (ceilLog2 8 / 2) c j ∧
          y = i * 2 ^ (ceilLog2 8 / 2) + j)) :=
  claim_C10_cluster_contents 8 (applyOps (VanEmdeBoasTree.init 8)
      [Op.ins 1, Op.ins 4, Op.ins 6])
    ⟨[Op.ins 1, Op.ins 4, Op.ins 6], by decide, rfl⟩ (by decide) 1 6 rfl rfl

end VebSpec
